import Mathlib

/-!
StreamFormat: the template interpreter of `sf/format.hpp`

A shallow embedding of `sf::internal` (`stou`, `string_view_io`, the directive table
`format_setf::methods`, `format_arg_io::operator()`, `format_string_view::operator()`),
followed by theorems about it.

Conventions of the embedding

* a `basic_string_view<Char, Traits>` is a `List Char`; `fmt[i]` is `nth fmt i`;
* a stream is any type `σ` with an instance of `stream_type` (formatting state plus the
  literal operation `string_view_io`); bound arguments `std::function<Stream&(Stream&)>`
  are functions `σ → σ`;
* the build switch `SF_USE_NO_EXCEPT` is the Boolean parameter `noexc`
  (`false` = exceptions enabled, the strict mode);
* `std::size_t` is 64 bits wide: arithmetic on it that can wrap is written `% 2 ^ 64`;
  `int` is 32 bits wide, two's complement;
* a thrown exception is the outcome `thrown e s`, with `s` the stream at the throw.
-/

namespace sf

/-! ## Characters (`SF_CHAR_TEMPLATE`) -/

def zero : Char := '0'
def nine : Char := '9'
def space : Char := ' '
def tab : Char := '\t'
def vtab : Char := Char.ofNat 11
def cr : Char := '\r'
def lf : Char := '\n'
def left_brace : Char := Char.ofNat 123
def right_brace : Char := Char.ofNat 125
def colon : Char := ':'
def comma : Char := ','
def cbla : Char := 'b'
def cdec : Char := 'd'
def csci : Char := 'e'
def cfix : Char := 'f'
def cgen : Char := 'g'
def citn : Char := 'i'
def clft : Char := 'l'
def coct : Char := 'o'
def crit : Char := 'r'
def cupc : Char := 'u'
def chex : Char := 'x'

/-! ## Exceptions -/

/-- The exceptions the interpreter can raise. -/
inductive exception
  /-- `std::logic_error`, a closing brace without an opening one (UnmatchedCloseBrace). -/
  | unmatched_close_brace
  /-- `std::logic_error`, no closing brace after an opening one (UnterminatedPlaceholder). -/
  | unterminated_placeholder
  /-- `std::logic_error("Invalid format character.")` (InvalidDirective). -/
  | invalid_directive
  /-- `std::invalid_argument("Not digit.")` (NotANumber). -/
  | not_a_number
  /-- `std::out_of_range`, raised by `basic_string_view::substr` when `pos > size()`. -/
  | out_of_range
  deriving DecidableEq, Repr

/-- Result of running a piece of the interpreter on a stream. -/
inductive outcome (σ : Type)
  /-- normal return, with the stream as it is left -/
  | returned (stream : σ)
  /-- an exception propagates; `stream` is the stream at the throw -/
  | thrown (e : exception) (stream : σ)
  /-- the iteration budget of the main loop was used up -/
  | out_of_fuel
  deriving DecidableEq, Repr

/-! ## String views

`sf/string_view.hpp`, which declares `basic_string_view`, is not among the sources. The
spec has it as "an immutable view over a fixed character sequence and its length"
(section 3); `length`, `operator[]` and `substr` are taken to be those of
`std::basic_string_view`. -/

/-- Modelled from the spec: `operator[]` of `basic_string_view` (`sf/string_view.hpp` is
missing), `fmt[i]` of a view over a fixed character sequence. The source only evaluates
it at `i < fmt.length()`, except for the first character of an empty last directive
clause, where the value read is not used (see `format_arg_io_loop`). -/
def nth (fmt : List Char) (i : Nat) : Char := fmt.getD i (Char.ofNat 0)

/-- Modelled from the spec: `substr` of `basic_string_view` (`sf/string_view.hpp` is
missing), `fmt.substr(pos, n)` at a position `pos ≤ fmt.length()`: at most `n`
characters from `pos` on. -/
def substr (fmt : List Char) (pos n : Nat) : List Char := (fmt.drop pos).take n

/-- Modelled from the spec: `substr` of `basic_string_view` (`sf/string_view.hpp` is
missing) with the range check of `std::basic_string_view`: `pos > size()` throws
`std::out_of_range`. -/
def substr_checked (fmt : List Char) (pos n : Nat) : Except exception (List Char) :=
  if pos > fmt.length then .error .out_of_range else .ok (substr fmt pos n)

/-! ## `isdigit` and `stou` (format.hpp 112-135) -/

/-- `isdigit(c)`: `c >= '0' && c <= '9'`. -/
def isdigit (c : Char) : Bool := decide (zero.toNat ≤ c.toNat) && decide (c.toNat ≤ nine.toNat)

/-- `stou<Int>(str)`. `wrap` is the reduction of the result type `Int` (modulo `2 ^ 64`
for `std::size_t`, two's complement 32 bit for `int`). The loop body is
`if (!isdigit(c)) throw ...` (compiled out with `SF_USE_NO_EXCEPT`),
`result *= 10; result += c - zero`. -/
def stou_loop (wrap : Int → Int) (noexc : Bool) : List Char → Int → Except exception Int
  | [], result => .ok result
  | c :: str, result =>
    if !noexc && !isdigit c then .error .not_a_number
    else stou_loop wrap noexc str (wrap (wrap (result * 10) + ((c.toNat : Int) - (zero.toNat : Int))))

/-- `stou<Int>(str)`: the loop from `Int result(0)`. -/
def stou (wrap : Int → Int) (noexc : Bool) (str : List Char) : Except exception Int :=
  stou_loop wrap noexc str 0

/-- Reduction of `std::size_t`. -/
def wrap_size_t (x : Int) : Int := x % 2 ^ 64

/-- Reduction of `int` (two's complement, 32 bit). -/
def wrap_int (x : Int) : Int := (x + 2 ^ 31) % 2 ^ 32 - 2 ^ 31

/-! ## Formatting state (`std::ios_base`) -/

abbrev fmtflags := Nat

namespace ios

def boolalpha : fmtflags := 1
def dec : fmtflags := 2
def fixed : fmtflags := 4
def hex : fmtflags := 8
def internal : fmtflags := 16
def left : fmtflags := 32
def oct : fmtflags := 64
def right : fmtflags := 128
def scientific : fmtflags := 256
def showbase : fmtflags := 512
def showpoint : fmtflags := 1024
def showpos : fmtflags := 2048
def skipws : fmtflags := 4096
def unitbuf : fmtflags := 8192
def uppercase : fmtflags := 16384
def adjustfield : fmtflags := left ||| right ||| internal
def basefield : fmtflags := dec ||| oct ||| hex
def floatfield : fmtflags := scientific ||| fixed

end ios

/-- The formatting state of a stream: `flags()`, `fill()`, `width()`, `precision()`. -/
structure ios_base where
  flags : fmtflags
  fill : Char
  width : Int
  precision : Int
  deriving DecidableEq, Repr

/-- State of a freshly constructed stream (`basic_ios::init`). -/
def ios_base.init : ios_base :=
  { flags := ios.skipws ||| ios.dec, fill := space, width := 0, precision := 6 }

/-- What the interpreter uses of a stream `stream_t<IOState, Char, Traits>`: its
formatting state, and the literal operation `string_view_io<IOState, Char, Traits>`
of its direction. -/
class stream_type (σ : Type) where
  rdfmt : σ → ios_base
  setfmt : σ → ios_base → σ
  string_view_io : List Char → σ → σ

open stream_type

/-- `stream.setf(flag, mask)`: clears `mask`, sets `flag & mask`, returns the old flags.
`flags & ~mask` is written `flags ^^^ (flags &&& mask)`. -/
def setf_masked {σ : Type} [stream_type σ] (stream : σ) (flag mask : fmtflags) : σ × fmtflags :=
  let f := rdfmt stream
  (setfmt stream { f with flags := (f.flags ^^^ (f.flags &&& mask)) ||| (flag &&& mask) }, f.flags)

/-- `stream.setf(flag)`: sets `flag` in addition, returns the old flags. -/
def setf {σ : Type} [stream_type σ] (stream : σ) (flag : fmtflags) : σ × fmtflags :=
  let f := rdfmt stream
  (setfmt stream { f with flags := f.flags ||| flag }, f.flags)

/-- `stream.fill(c)`. -/
def set_fill {σ : Type} [stream_type σ] (stream : σ) (c : Char) : σ :=
  setfmt stream { rdfmt stream with fill := c }

/-- `stream.width(n)`. -/
def set_width {σ : Type} [stream_type σ] (stream : σ) (n : Int) : σ :=
  setfmt stream { rdfmt stream with width := n }

/-- `stream.precision(n)`. -/
def set_precision {σ : Type} [stream_type σ] (stream : σ) (n : Int) : σ :=
  setfmt stream { rdfmt stream with precision := n }

/-! ## Directive table (format.hpp 233-278) -/

/-- `stream_setf_w<IOState, Char, Traits, Flag, Base, Fill>`. -/
def stream_setf_w {σ : Type} [stream_type σ] (Flag Base : fmtflags) (Fill : Char)
    (stream : σ) (fmtf : Int) : σ × fmtflags :=
  let r := setf_masked stream Flag Base
  let stream := set_fill r.1 Fill
  let stream := set_width stream fmtf
  (stream, r.2)

/-- `stream_setf_f<IOState, Char, Traits, Flag>`. -/
def stream_setf_f {σ : Type} [stream_type σ] (Flag : fmtflags)
    (stream : σ) (_fmtf : Int) : σ × fmtflags :=
  setf stream Flag

/-- `stream_setf<IOState, Char, Traits>`: touches nothing, returns no flags. -/
def stream_setf {σ : Type} [stream_type σ] (stream : σ) (_fmtf : Int) : σ × fmtflags :=
  (stream, 0)

/-- `stream_setf_p<IOState, Char, Traits, Flag, Base>`. -/
def stream_setf_p {σ : Type} [stream_type σ] (Flag Base : fmtflags)
    (stream : σ) (fmtf : Int) : σ × fmtflags :=
  let r := setf_masked stream Flag Base
  let stream := set_precision r.1 fmtf
  (stream, r.2)

/-- `format_setf<IOState, Char, Traits>::methods.find(fmtc)`: `none` is `methods.end()`. -/
def format_setf_methods {σ : Type} [stream_type σ] (fmtc : Char) :
    Option (σ → Int → σ × fmtflags) :=
  if fmtc = cdec then some (stream_setf_w ios.dec ios.basefield zero)
  else if fmtc = coct then some (stream_setf_w ios.oct ios.basefield zero)
  else if fmtc = chex then some (stream_setf_w ios.hex ios.basefield zero)
  else if fmtc = csci then some (stream_setf_p ios.scientific ios.floatfield)
  else if fmtc = cfix then some (stream_setf_p ios.fixed ios.floatfield)
  else if fmtc = clft then some (stream_setf_w ios.left ios.adjustfield space)
  else if fmtc = crit then some (stream_setf_w ios.right ios.adjustfield space)
  else if fmtc = citn then some (stream_setf_w ios.internal ios.adjustfield space)
  else if fmtc = cbla then some (stream_setf_f ios.boolalpha)
  else if fmtc = cupc then some (stream_setf_f ios.uppercase)
  else if fmtc = cgen then some stream_setf
  else none

/-! ## `format_arg_io::operator()` (format.hpp 296-330) -/

/-- The `for (; index <= length; index++)` loop of `format_arg_io::operator()`, from the
state `(index, offset, oldf, stream)`; `n` bounds the remaining iterations and is
`length + 1 - index`. The result is `oldf` and the stream at the end of the loop, or the
exception with the stream at the throw. `len = index - offset - 1` is computed in
`std::size_t`. -/
def format_arg_io_loop {σ : Type} [stream_type σ] (noexc : Bool) (fmts : List Char) :
    Nat → Nat → Nat → fmtflags → σ → Except (exception × σ) (fmtflags × σ)
  | 0, _, _, oldf, stream => .ok (oldf, stream)
  | n + 1, index, offset, oldf, stream =>
    let length := fmts.length
    if index ≤ length then
      if index = length ∨ nth fmts index = comma then
        let fmtc := nth fmts offset
        let len := (index + 2 ^ 64 - offset - 1) % 2 ^ 64
        let fmtf : Except exception Int :=
          if len > 0 then
            match substr_checked fmts (offset + 1) len with
            | .ok str => stou wrap_int noexc str
            | .error e => .error e
          else .ok 0
        match fmtf with
        | .error e => .error (e, stream)
        | .ok fmtf =>
          match format_setf_methods fmtc with
          | some method =>
            let r := method stream fmtf
            format_arg_io_loop noexc fmts n (index + 1) (index + 1) (oldf ||| r.2) r.1
          | none =>
            if noexc then format_arg_io_loop noexc fmts n (index + 1) (index + 1) oldf stream
            else .error (.invalid_directive, stream)
      else format_arg_io_loop noexc fmts n (index + 1) offset oldf stream
    else .ok (oldf, stream)

/-- `format_arg_io(ori, fmts)(stream)`: the directives of `fmts`, then the bound
argument `ori`, then `if (oldf) stream.setf(oldf)`. -/
def format_arg_io {σ : Type} [stream_type σ] (noexc : Bool) (ori : σ → σ) (fmts : List Char)
    (stream : σ) : Except (exception × σ) σ :=
  match format_arg_io_loop noexc fmts (fmts.length + 1) 0 0 0 stream with
  | .error e => .error e
  | .ok (oldf, stream) =>
    let stream := ori stream
    if oldf ≠ 0 then .ok (setf stream oldf).1 else .ok stream

/-! ## `format_string_view::operator()` (format.hpp 354-450) -/

/-- Exit of the literal-scanning `for` loop: the value of `index` and of `in_number`
after the loop, or the throw of line 382. -/
inductive scan_result
  | brk (index : Nat) (in_number : Bool)
  | throw
  deriving DecidableEq, Repr

/-- The `for (index = offset; index < length; index++)` loop of lines 365-394, from
`index`; `n` bounds the remaining iterations and is `length - index`. -/
def scan_literal (noexc : Bool) (fmt : List Char) : Nat → Nat → scan_result
  | 0, index => .brk index false
  | n + 1, index =>
    let length := fmt.length
    if index < length then
      if nth fmt index = left_brace then
        let index := index + 1
        if !(decide (index < length) && decide (nth fmt index = left_brace)) then
          .brk (index - 1) true
        else .brk index false
      else if nth fmt index = right_brace then
        let index := index + 1
        if !(decide (index < length) && decide (nth fmt index = right_brace)) then
          if noexc then scan_literal noexc fmt n (index - 1 + 1)
          else .throw
        else .brk index false
      else scan_literal noexc fmt n (index + 1)
    else .brk index false

/-- The loop of lines 403-407: the first `index ≥ offset` with `fmt[index]` a closing
brace, or `length`; `n` is `length - index`. -/
def find_right_brace (fmt : List Char) : Nat → Nat → Nat
  | 0, index => index
  | n + 1, index =>
    if index < fmt.length then
      if nth fmt index = right_brace then index else find_right_brace fmt n (index + 1)
    else index

/-- The loop of lines 421-427: the first `ci` in `[offset, index)` with `fmt[ci]` a
colon, or `index`; `n` is `index - ci`. -/
def find_colon (fmt : List Char) (index : Nat) : Nat → Nat → Nat
  | 0, ci => ci
  | n + 1, ci =>
    if ci < index then
      if nth fmt ci = colon then ci else find_colon fmt index n (ci + 1)
    else ci

/-- The variables of `operator()` that live across iterations of `while (offset < length)`. -/
structure loop_state (σ : Type) where
  offset : Nat
  in_number : Bool
  arg_index : Nat
  stream : σ

/-- Result of one iteration of the `while` loop. -/
inductive step_result (σ : Type)
  | next (st : loop_state σ)
  | thrown (e : exception) (stream : σ)

/-- One iteration of `while (offset < length)` (the body, lines 361-447). -/
def step {σ : Type} [stream_type σ] (noexc : Bool) (fmt : List Char) (args : List (σ → σ))
    (st : loop_state σ) : step_result σ :=
  let length := fmt.length
  if !st.in_number then
    let off := st.offset
    match scan_literal noexc fmt (length - st.offset) st.offset with
    | .throw => .thrown .unmatched_close_brace st.stream
    | .brk index in_number =>
      let len := index - st.offset
      let offset := index + 1
      if len ≤ 0 then
        .next { offset := offset, in_number := in_number, arg_index := st.arg_index,
                stream := st.stream }
      else
        .next { offset := offset, in_number := in_number, arg_index := st.arg_index,
                stream := string_view_io (substr fmt off len) st.stream }
  else
    let offset := st.offset
    let index := find_right_brace fmt (length - offset) offset
    if index = length then
      if noexc then
        .next { offset := index + 1, in_number := true, arg_index := st.arg_index,
                stream := string_view_io (substr fmt (offset - 1) (length - (offset - 1)))
                  st.stream }
      else .thrown .unterminated_placeholder st.stream
    else
      let ci := find_colon fmt index (index - offset) offset
      let arg_index : Except exception Nat :=
        if ci > offset then
          match stou wrap_size_t noexc (substr fmt offset (ci - offset)) with
          | .ok v => .ok v.toNat
          | .error e => .error e
        else .ok st.arg_index
      match arg_index with
      | .error e => .thrown e st.stream
      | .ok arg_index =>
        let r : Except (exception × σ) σ :=
          if arg_index ≥ args.length then
            .ok (string_view_io (substr fmt (offset - 1) (index - offset + 2)) st.stream)
          else if index = ci then
            .ok ((args.getD arg_index id) st.stream)
          else
            format_arg_io noexc (args.getD arg_index id) (substr fmt (ci + 1) (index - ci - 1))
              st.stream
        match r with
        | .ok stream =>
          .next { offset := index + 1, in_number := false,
                  arg_index := (arg_index + 1) % 2 ^ 64, stream := stream }
        | .error (e, stream) => .thrown e stream

/-- The loop `while (offset < length)`, at most `fuel` iterations. -/
def loop {σ : Type} [stream_type σ] (noexc : Bool) (fmt : List Char) (args : List (σ → σ)) :
    Nat → loop_state σ → outcome σ
  | 0, st => if st.offset < fmt.length then .out_of_fuel else .returned st.stream
  | fuel + 1, st =>
    if st.offset < fmt.length then
      match step noexc fmt args st with
      | .next st => loop noexc fmt args fuel st
      | .thrown e stream => .thrown e stream
    else .returned st.stream

/-- `format_string_view(fmt, args)(stream)`. Every iteration moves `offset` forward
(`step_offset_lt`), so `fmt.length()` iterations are enough (`loop_enough`). -/
def format_string_view {σ : Type} [stream_type σ] (noexc : Bool) (fmt : List Char)
    (args : List (σ → σ)) (stream : σ) : outcome σ :=
  loop noexc fmt args fmt.length
    { offset := 0, in_number := false, arg_index := 0, stream := stream }

/-! ## Output streams -/

/-- A `std::basic_ostream`: formatting state and the characters written so far. -/
structure ostream where
  fmt : ios_base
  out : List Char
  deriving DecidableEq, Repr

/-- Modelled from the spec: `os << arg` for a `basic_string_view` (its `operator<<` is
in `sf/string_view.hpp`, not among the sources); section 4.5, "Write direction: copy
the literal text verbatim to the sink". -/
def string_view_io_output (arg : List Char) (os : ostream) : ostream :=
  { os with out := os.out ++ arg }

instance : stream_type ostream where
  rdfmt os := os.fmt
  setfmt os f := { os with fmt := f }
  string_view_io := string_view_io_output

/-! ## Input streams

A `std::basic_istream` as far as the literal matcher and an integer extraction need it:
the characters not yet extracted and the state bits `eofbit` and `failbit`. `peek` and
`get` are the unformatted input functions of the standard, with `none` for
`Traits::eof()`. -/

/-- A `std::basic_istream`. -/
structure istream where
  fmt : ios_base
  buf : List Char
  eofbit : Bool
  failbit : Bool
  deriving DecidableEq, Repr

/-- `is.good()`. -/
def istream.good (is : istream) : Bool := !is.eofbit && !is.failbit

/-- `is.peek()`: on a stream that is not good the sentry sets `failbit`; at the end
of the input `eofbit` is set. -/
def istream.peek (is : istream) : Option Char × istream :=
  if !is.good then (none, { is with failbit := true })
  else
    match is.buf with
    | [] => (none, { is with eofbit := true })
    | c :: _ => (some c, is)

/-- `is.get()`: on a stream that is not good the sentry sets `failbit`; at the end of
the input `eofbit` and `failbit` are set. -/
def istream.get (is : istream) : Option Char × istream :=
  if !is.good then (none, { is with failbit := true })
  else
    match is.buf with
    | [] => (none, { is with eofbit := true, failbit := true })
    | c :: r => (some c, { is with buf := r })

/-! ## `string_view_io<input>::operator()` (format.hpp 161-197) -/

/-- The loop of lines 169-181 for a space in the literal; `n` bounds the iterations
and is `is.buf.length + 1` (every iteration but the last extracts a character). -/
def skip_spaces : Nat → istream → istream
  | 0, is => is
  | n + 1, is =>
    let r := is.peek
    match r.1 with
    | some t =>
      if t = space ∨ t = tab ∨ t = vtab ∨ t = cr ∨ t = lf then skip_spaces n (r.2.get).2
      else r.2
    | none => r.2

/-- The loop of lines 185-192 for another character `c` of the literal; `n` bounds the
iterations and is `is.buf.length + 1`. -/
def discard_until (c : Char) : Nat → istream → istream
  | 0, is => is
  | n + 1, is =>
    let r := is.get
    match r.1 with
    | none => r.2
    | some t => if t = c then r.2 else discard_until c n r.2

/-- The loop `for (const Char& c : arg)` of lines 165-194. -/
def string_view_io_input_loop : List Char → istream → istream
  | [], is => is
  | c :: arg, is =>
    if c = space then string_view_io_input_loop arg (skip_spaces (is.buf.length + 1) is)
    else string_view_io_input_loop arg (discard_until c (is.buf.length + 1) is)

/-- `string_view_io<input>(arg)(is)`; `if (is)` is `!is.fail()`. -/
def string_view_io_input (arg : List Char) (is : istream) : istream :=
  if !is.failbit then string_view_io_input_loop arg is else is

instance : stream_type istream where
  rdfmt is := is.fmt
  setfmt is f := { is with fmt := f }
  string_view_io := string_view_io_input

/-- An input stream together with the variables `μ` that the bound arguments of a scan
hold by reference. -/
instance {μ : Type} : stream_type (istream × μ) where
  rdfmt s := s.1.fmt
  setfmt s f := ({ s.1 with fmt := f }, s.2)
  string_view_io arg s := (string_view_io_input arg s.1, s.2)

/-! ## Integer arguments

Reading and writing a non-negative integer, as the round-trip property words them:
the write is the decimal digits, the read skips leading whitespace and takes the
maximal run of digits. -/

/-- `std::isspace` in the classic locale. -/
def isspace (c : Char) : Bool :=
  decide (c = space ∨ c = tab ∨ c = lf ∨ c = vtab ∨ c = Char.ofNat 12 ∨ c = cr)

/-- Decimal value of a digit string, continuing from `r`. -/
def decimal_from (r : Nat) (str : List Char) : Nat :=
  str.foldl (fun r c => r * 10 + (c.toNat - zero.toNat)) r

/-- Decimal value of a digit string (0 for the empty string). -/
def decimal_value (str : List Char) : Nat := decimal_from 0 str

/-- `is >> n` for a non-negative integer: skip leading whitespace, take the maximal run
of digits; no digit is a failure; `eofbit` when the input is used up. The result is
the value read, if any, and the stream. -/
def extract_nat (is : istream) : Option Nat × istream :=
  if !is.good then (none, { is with failbit := true })
  else
    let b := is.buf.dropWhile isspace
    let ds := b.takeWhile isdigit
    let rest := b.dropWhile isdigit
    if ds = [] then
      (none, { is with buf := rest, eofbit := decide (rest = []), failbit := true })
    else (some (decimal_value ds), { is with buf := rest, eofbit := decide (rest = []) })

/-- The bound argument of a scan for the integer variable number `k`. -/
def read_nat (k : Nat) (s : istream × List Nat) : istream × List Nat :=
  match extract_nat s.1 with
  | (some v, is) => (is, s.2.set k v)
  | (none, is) => (is, s.2)

/-- The bound argument of a print for the integer `n`: `os << n`, decimal digits. -/
def write_nat (n : Nat) (os : ostream) : ostream :=
  { os with out := os.out ++ Nat.toDigits 10 n }

/-- `os << n` for an `int` value `n ≥ 0`, as `std::num_put` prescribes it: the digits in
the base that `basefield` names (octal, hexadecimal, otherwise decimal; hexadecimal
digits in upper case with `uppercase`), preceded by `+` with `showpos` in decimal and by
the base mark with `showbase` for a non-zero value in octal or hexadecimal; padded with
`fill()` up to `width()`: after the text with `left`, between the `+` or the
hexadecimal mark and the digits with `internal`, before the text otherwise;
`width(0)` afterwards. -/
def write_int (n : Nat) (os : ostream) : ostream :=
  let f := os.fmt
  let base := f.flags &&& ios.basefield
  let upper := decide (f.flags &&& ios.uppercase ≠ 0)
  let showbase := decide (f.flags &&& ios.showbase ≠ 0) && decide (n ≠ 0)
  let digits : List Char :=
    if base = ios.oct then Nat.toDigits 8 n
    else if base = ios.hex then
      if upper then (Nat.toDigits 16 n).map Char.toUpper else Nat.toDigits 16 n
    else Nat.toDigits 10 n
  let mark : List Char :=
    if base = ios.oct then (if showbase then ['0'] else [])
    else if base = ios.hex then
      (if showbase then (if upper then ['0', 'X'] else ['0', 'x']) else [])
    else (if f.flags &&& ios.showpos ≠ 0 then ['+'] else [])
  let pad := List.replicate (f.width - ((mark.length + digits.length : Nat) : Int)).toNat f.fill
  let adjust := f.flags &&& ios.adjustfield
  let text :=
    if adjust = ios.left then mark ++ digits ++ pad
    else if adjust = ios.internal ∧ base ≠ ios.oct then mark ++ pad ++ digits
    else pad ++ mark ++ digits
  { fmt := { f with width := 0 }, out := os.out ++ text }

/-- `os << b` for a `bool`, as `std::num_put` prescribes it: without `boolalpha` the
value is written as the integer 1 or 0; with `boolalpha` the name `true` or `false` is
written, padded with `fill()` up to `width()`, after the name with `left` and before
it otherwise; `width(0)` afterwards. -/
def write_bool (b : Bool) (os : ostream) : ostream :=
  let f := os.fmt
  if f.flags &&& ios.boolalpha = 0 then write_int (if b then 1 else 0) os
  else
    let name : List Char := if b then "true".toList else "false".toList
    let pad := List.replicate (f.width - ((name.length : Nat) : Int)).toNat f.fill
    let text := if f.flags &&& ios.adjustfield = ios.left then name ++ pad else pad ++ name
    { fmt := { f with width := 0 }, out := os.out ++ text }

/-! ## Auxiliary definitions

List-level readings of the loops, used to state and prove the theorems. -/

/-- Index shift of a scan result. -/
def scan_result.shift (i : Nat) : scan_result → scan_result
  | .brk k b => .brk (i + k) b
  | .throw => .throw

/-- The literal scan as a function of the text from `index` on; the index is relative. -/
def scan_list (noexc : Bool) : List Char → scan_result
  | [] => .brk 0 false
  | c :: r =>
    if c = left_brace then
      if r.head? = some left_brace then .brk 1 false else .brk 0 true
    else if c = right_brace then
      if r.head? = some right_brace then .brk 1 false
      else if noexc then (scan_list noexc r).shift 1 else .throw
    else (scan_list noexc r).shift 1

/-- The longest prefix of `l` without the character `x`. -/
def until_char (x : Char) (l : List Char) : List Char := l.takeWhile (fun c => decide (c ≠ x))

/-- The argument index a placeholder with inner text `inner` resolves to
(lines 421-431). -/
def resolve_index (noexc : Bool) (inner : List Char) (arg_index : Nat) : Except exception Nat :=
  if until_char colon inner ≠ [] then
    match stou wrap_size_t noexc (until_char colon inner) with
    | .ok v => .ok v.toNat
    | .error e => .error e
  else .ok arg_index

/-- What a closed placeholder with inner text `inner` does to the stream once its
index is resolved to `arg_index` (lines 432-443). -/
def placeholder_io {σ : Type} [stream_type σ] (noexc : Bool) (args : List (σ → σ))
    (inner : List Char) (arg_index : Nat) (stream : σ) : Except (exception × σ) σ :=
  if arg_index ≥ args.length then
    .ok (string_view_io (left_brace :: inner ++ [right_brace]) stream)
  else if until_char colon inner = inner then
    .ok ((args.getD arg_index id) stream)
  else
    format_arg_io noexc (args.getD arg_index id)
      (inner.drop ((until_char colon inner).length + 1)) stream

/-- The state in which `operator()` enters its loop. -/
def initial_state {σ : Type} (stream : σ) : loop_state σ :=
  { offset := 0, in_number := false, arg_index := 0, stream := stream }

/-- The loop state after `k` further iterations from `st`, when the loop does run `k`
more times without throwing. -/
def run_steps {σ : Type} [stream_type σ] (noexc : Bool) (fmt : List Char) (args : List (σ → σ)) :
    Nat → loop_state σ → Option (loop_state σ)
  | 0, st => some st
  | k + 1, st =>
    if st.offset < fmt.length then
      match step noexc fmt args st with
      | .next st => run_steps noexc fmt args k st
      | .thrown _ _ => none
    else none

/-- `reaches noexc fmt args stream k st`: interpreting `fmt` on `stream`, the loop is in
state `st` after `k` iterations. -/
def reaches {σ : Type} [stream_type σ] (noexc : Bool) (fmt : List Char) (args : List (σ → σ))
    (stream : σ) (k : Nat) (st : loop_state σ) : Prop :=
  run_steps noexc fmt args k (initial_state stream) = some st

/-- In placeholder mode the character before `offset` is the opening brace. -/
def open_brace_before {σ : Type} (fmt : List Char) (st : loop_state σ) : Prop :=
  st.in_number = true → st.offset ≤ fmt.length →
    1 ≤ st.offset ∧ ∃ r, fmt.drop (st.offset - 1) = left_brace :: r

/-- A template without placeholder: read left to right, every brace is one half of a
doubled brace. -/
def no_placeholder : List Char → Bool
  | [] => true
  | [c] => decide (c ≠ left_brace) && decide (c ≠ right_brace)
  | c :: d :: r =>
    if c = left_brace then decide (d = left_brace) && no_placeholder r
    else if c = right_brace then decide (d = right_brace) && no_placeholder r
    else no_placeholder (d :: r)

/-- The text with every doubled brace, taken left to right, replaced by a single one. -/
def collapse : List Char → List Char
  | [] => []
  | [c] => [c]
  | c :: d :: r =>
    if (c = left_brace ∧ d = left_brace) ∨ (c = right_brace ∧ d = right_brace) then
      c :: collapse r
    else c :: collapse (d :: r)

/-- The loop from state `st` with exactly the iterations that can still happen. -/
def run {σ : Type} [stream_type σ] (noexc : Bool) (fmt : List Char) (args : List (σ → σ))
    (st : loop_state σ) : outcome σ :=
  loop noexc fmt args (fmt.length - st.offset) st

/-- The literal operations one run of literal text costs: the text is cut after the
first brace of every doubled brace, whose second brace is dropped; `acc` is the text
read since the last cut. -/
def emit_literal_aux {σ : Type} [stream_type σ] (acc : List Char) : List Char → σ → σ
  | [], s => if acc = [] then s else string_view_io acc s
  | [c], s => string_view_io (acc ++ [c]) s
  | c :: d :: r, s =>
    if c = left_brace ∨ c = right_brace then
      emit_literal_aux [] r (string_view_io (acc ++ [c]) s)
    else emit_literal_aux (acc ++ [c]) (d :: r) s

/-- The effect on the stream of a run of literal text without placeholder. -/
def emit_literal {σ : Type} [stream_type σ] (lit : List Char) (s : σ) : σ :=
  emit_literal_aux [] lit s

/-- A template as literal runs and placeholders: `[(lit₀, inner₀), ...]` and `tail` stand
for `lit₀ {inner₀} lit₁ {inner₁} ... tail`. -/
def assemble : List (List Char × List Char) → List Char → List Char
  | [], tail => tail
  | (lit, inner) :: ps, tail =>
    lit ++ left_brace :: (inner ++ right_brace :: assemble ps tail)

/-- Well-formed pieces: literal runs without placeholder, inner texts without closing
brace and not starting with an opening brace. -/
def well_formed : List (List Char × List Char) → List Char → Prop
  | [], tail => no_placeholder tail = true
  | (lit, inner) :: ps, tail =>
    no_placeholder lit = true ∧ right_brace ∉ inner ∧ inner.head? ≠ some left_brace ∧
      well_formed ps tail

/-- The meaning of a well-formed template: literal runs and placeholders in order,
`ai` is the auto-increment counter. -/
def denote {σ : Type} [stream_type σ] (noexc : Bool) (args : List (σ → σ)) :
    List (List Char × List Char) → List Char → Nat → σ → outcome σ
  | [], tail, _, s => .returned (emit_literal tail s)
  | (lit, inner) :: ps, tail, ai, s =>
    match resolve_index noexc inner ai with
    | .error e => .thrown e (emit_literal lit s)
    | .ok k =>
      match placeholder_io noexc args inner k (emit_literal lit s) with
      | .ok s1 => denote noexc args ps tail ((k + 1) % 2 ^ 64) s1
      | .error (e, s1) => .thrown e s1

/-- Text without any brace. -/
def brace_free (text : List Char) : Prop := left_brace ∉ text ∧ right_brace ∉ text

/-- The bound argument that writes the text `t` (a rendering of a value). -/
def write_text (t : List Char) (os : ostream) : ostream := { os with out := os.out ++ t }

/-- Inner text of a placeholder without index: empty, or a colon and the spec. -/
def inner_of_spec : Option (List Char) → List Char
  | none => []
  | some spec => colon :: spec

/-- A template whose placeholders carry no index, as literal runs and optional specs. -/
def auto_template (pieces : List (List Char × Option (List Char))) (tail : List Char) :
    List Char :=
  assemble (pieces.map (fun p => (p.1, inner_of_spec p.2))) tail

/-- The reading of such a template in which the placeholder at position `k` is bound to
argument `k`: literal runs are written with doubled braces collapsed; placeholder `k`
invokes argument `k` (through `format_arg_io` when it has a spec), or is copied to the
output when there is no argument `k`. -/
def bind_by_position (args : List (ostream → ostream)) :
    List (List Char × Option (List Char)) → List Char → Nat → ostream → outcome ostream
  | [], tail, _, os => .returned { os with out := os.out ++ collapse tail }
  | (lit, spec) :: ps, tail, k, os =>
    let os1 : ostream := { os with out := os.out ++ collapse lit }
    match args.get? k, spec with
    | none, _ =>
      bind_by_position args ps tail (k + 1)
        { os1 with out := os1.out ++ (left_brace :: inner_of_spec spec ++ [right_brace]) }
    | some arg, none => bind_by_position args ps tail (k + 1) (arg os1)
    | some arg, some sp =>
      match format_arg_io false arg sp os1 with
      | .ok os2 => bind_by_position args ps tail (k + 1) os2
      | .error (e, os2) => .thrown e os2

/-- Literal runs (doubled braces collapsed) interleaved with the texts, then the tail. -/
def interleave : List (List Char) → List (List Char) → List Char → List Char
  | [], _, tail => collapse tail
  | lit :: lits, [], tail => collapse lit ++ interleave lits [] tail
  | lit :: lits, t :: ts, tail => collapse lit ++ t ++ interleave lits ts tail

/-- Inner text of a placeholder with index text `idx` and optional spec. -/
def inner_of (idx : List Char) (spec : Option (List Char)) : List Char :=
  idx ++ inner_of_spec spec

/-- A template as literal runs and placeholders given by index text and optional spec. -/
def indexed_template (pieces : List (List Char × List Char × Option (List Char)))
    (tail : List Char) : List Char :=
  assemble (pieces.map (fun p => (p.1, inner_of p.2.1 p.2.2))) tail

/-- The reading of a template by the auto-increment counter: a placeholder without
index text resolves to `counter`, one with digits to their value modulo `2 ^ 64`; the
resolved argument is invoked (through `format_arg_io` when there is a spec), or the
placeholder is copied when there is no such argument; the counter for the next
placeholder is the resolved index plus one, modulo `2 ^ 64`. -/
def bind_by_counter (args : List (ostream → ostream)) :
    List (List Char × List Char × Option (List Char)) → List Char → Nat → ostream →
      outcome ostream
  | [], tail, _, os => .returned { os with out := os.out ++ collapse tail }
  | (lit, idx, spec) :: ps, tail, counter, os =>
    let os1 : ostream := { os with out := os.out ++ collapse lit }
    let resolved := if idx = [] then counter else decimal_value idx % 2 ^ 64
    match args.get? resolved, spec with
    | none, _ =>
      bind_by_counter args ps tail ((resolved + 1) % 2 ^ 64)
        { os1 with out := os1.out ++ (left_brace :: inner_of idx spec ++ [right_brace]) }
    | some arg, none => bind_by_counter args ps tail ((resolved + 1) % 2 ^ 64) (arg os1)
    | some arg, some sp =>
      match format_arg_io false arg sp os1 with
      | .ok os2 => bind_by_counter args ps tail ((resolved + 1) % 2 ^ 64) os2
      | .error (e, os2) => .thrown e os2

/-- Index text of a placeholder: its inner text up to the first colon. -/
abbrev index_text (inner : List Char) : List Char := until_char colon inner

/-- The index a placeholder with digits (or nothing) as index text resolves to when
the auto-increment counter is `counter`. -/
def resolved_index (inner : List Char) (counter : Nat) : Nat :=
  if index_text inner = [] then counter else decimal_value (index_text inner) % 2 ^ 64

/-- The characters of the directive table. -/
def directive_chars : List Char :=
  [cdec, coct, chex, csci, cfix, cgen, clft, crit, citn, cbla, cupc]

/-- A directive spec from its clauses, each a first character and a parameter text. -/
def join_clauses : List (Char × List Char) → List Char
  | [] => []
  | [(c, d)] => c :: d
  | (c, d) :: cl :: cls => c :: d ++ comma :: join_clauses (cl :: cls)

/-- The value `stou<int>` computes from a parameter text of digits. -/
def int_value (d : List Char) : Int :=
  d.foldl (fun r c => wrap_int (wrap_int (r * 10) + ((c.toNat : Int) - (zero.toNat : Int)))) 0

/-- The directives of the clauses applied in order, from the flags `oldf` collected so
far: the result of the loop of `format_arg_io` on a spec of non-empty clauses with
digit parameters. -/
def apply_clauses {σ : Type} [stream_type σ] (noexc : Bool) :
    List (Char × List Char) → fmtflags → σ → Except (exception × σ) (fmtflags × σ)
  | [], oldf, s => .ok (oldf, s)
  | (c, d) :: cls, oldf, s =>
    match format_setf_methods c with
    | some method =>
      apply_clauses noexc cls (oldf ||| (method s (int_value d)).2) (method s (int_value d)).1
    | none =>
      if noexc then apply_clauses noexc cls oldf s else .error (.invalid_directive, s)

/-- The text of clauses each followed by a comma. -/
def prefix_clauses : List (Char × List Char) → List Char
  | [] => []
  | (c, d) :: cls => (c :: d) ++ comma :: prefix_clauses cls

/-- A character of a literal run of the round trip: no digit, no sign, no brace, no
whitespace other than the space. -/
def plain (c : Char) : Bool :=
  !isdigit c && decide (c ≠ '+') && decide (c ≠ '-') && decide (c ≠ left_brace) &&
    decide (c ≠ right_brace) && (decide (c = space) || !isspace c)

/-- The whitespace characters the literal matcher skips for a space. -/
def skipped (t : Char) : Prop := t = space ∨ t = tab ∨ t = vtab ∨ t = cr ∨ t = lf

/-- Number of leading spaces. -/
def leading_spaces (q : List Char) : Nat := (q.takeWhile (fun c => decide (c = space))).length

/-- The template of the round trip: every literal run of `lits` followed by the
placeholder without index and spec, then `tail`. -/
def round_trip_template (lits : List (List Char)) (tail : List Char) : List Char :=
  assemble (lits.map (fun l => (l, []))) tail

/-- The text the round-trip template produces for the values: literal runs and decimal
digits in turn. -/
def printed_text : List (List Char) → List Nat → List Char → List Char
  | l :: ls, v :: vs, tail => l ++ Nat.toDigits 10 v ++ printed_text ls vs tail
  | _, _, tail => tail

/-- The part of the flags inside a field: `flags & mask`. -/
def field (flags mask : fmtflags) : fmtflags := flags &&& mask

/-- The part of the flags outside a field: `flags & ~mask`. -/
def outside (flags mask : fmtflags) : fmtflags := flags ^^^ (flags &&& mask)

/-- The placeholder resolver in the words of the spec: when the inner text has a colon,
the text before the first colon is the index text and the text after it is the
directive-spec segment; otherwise the inner text is the index text and there is no
segment. -/
def split_inner (s : List Char) : List Char × Option (List Char) :=
  if colon ∈ s then
    (s.takeWhile (fun c => decide (c ≠ colon)),
      some ((s.dropWhile (fun c => decide (c ≠ colon))).drop 1))
  else (s, none)

/-- The index an index text of digits resolves to: the counter when it is empty, its
decimal value reduced to `std::size_t` otherwise. -/
def resolve_text (idx : List Char) (counter : Nat) : Nat :=
  if idx = [] then counter else decimal_value idx % 2 ^ 64

/-- One operation `(c, n)` of the directive table on a stream: the entry of `c` applied
with the numeric parameter `n`; the result is the stream and the flags returned. -/
def apply_operation {σ : Type} [stream_type σ] (op : Char × Int) (s : σ) : σ × fmtflags :=
  match format_setf_methods op.1 with
  | some method => method s op.2
  | none => (s, 0)

/-- The operations applied from left to right; `oldf` collects the flags they return. -/
def apply_operations {σ : Type} [stream_type σ] :
    List (Char × Int) → fmtflags → σ → fmtflags × σ
  | [], oldf, s => (oldf, s)
  | op :: ops, oldf, s =>
    apply_operations ops (oldf ||| (apply_operation op s).2) (apply_operation op s).1

/-- The operations a spec stands for, in the words of the spec: a clause with first
character `c` and digits `d` is `(c, n)` with `n` the decimal value of `d`, 0 when `d`
is empty. -/
def operations (cls : List (Char × List Char)) : List (Char × Int) :=
  cls.map (fun x => (x.1, ((decimal_value x.2 : Nat) : Int)))

instance : DecidablePred skipped := fun t => by unfold skipped; infer_instance

/-- The front of the source that a space of the literal removes. -/
def skipped_front (b : List Char) : List Char := b.takeWhile (fun t => decide (skipped t))

/-- The source after its maximal front of skipped whitespace. -/
def after_skipped (b : List Char) : List Char := b.dropWhile (fun t => decide (skipped t))

/-- The value `stou` accumulates from a text when no character is rejected: every
character `c` counts as the digit `c - '0'`. -/
def accumulate (wrap : Int → Int) (str : List Char) : Int :=
  str.foldl (fun r c => wrap (wrap (r * 10) + ((c.toNat : Int) - (zero.toNat : Int)))) 0

/-! ## Auxiliary lemmas -/

theorem drop_eq_cons_nth {fmt : List Char} {i : Nat} (h : i < fmt.length) :
    fmt.drop i = nth fmt i :: fmt.drop (i + 1) := by
  rw [List.drop_eq_getElem_cons h, nth, List.getD_eq_getElem _ _ h]

theorem head?_drop_eq_some (fmt : List Char) (i : Nat) (c : Char) :
    (fmt.drop i).head? = some c ↔ i < fmt.length ∧ nth fmt i = c := by
  by_cases h : i < fmt.length
  · rw [drop_eq_cons_nth h]; simp [h]
  · rw [List.drop_eq_nil_of_le (by omega)]; simp [h]

theorem shift_shift (i j : Nat) (r : scan_result) : (r.shift j).shift i = r.shift (i + j) := by
  cases r <;> simp [scan_result.shift, Nat.add_assoc]

theorem scan_literal_eq (noexc : Bool) (fmt : List Char) :
    ∀ n index, fmt.length - index ≤ n →
      scan_literal noexc fmt n index = (scan_list noexc (fmt.drop index)).shift index := by
  intro n
  induction n with
  | zero =>
    intro index h
    rw [List.drop_eq_nil_of_le (by omega)]
    simp [scan_literal, scan_list, scan_result.shift]
  | succ n ih =>
    intro index h
    unfold scan_literal
    by_cases hl : index < fmt.length
    · rw [drop_eq_cons_nth hl]
      have hd := head?_drop_eq_some fmt (index + 1)
      simp only [hl, if_true, scan_list]
      by_cases h1 : nth fmt index = left_brace
      · simp only [h1, if_true]
        by_cases h2 : (fmt.drop (index + 1)).head? = some left_brace
        · have := (hd _).1 h2
          simp [h2, this.1, this.2, scan_result.shift]
        · have h3 : ¬ (index + 1 < fmt.length ∧ nth fmt (index + 1) = left_brace) :=
            fun hh => h2 ((hd _).2 hh)
          simp only [h2, if_false]
          by_cases h4 : index + 1 < fmt.length
          · have : nth fmt (index + 1) ≠ left_brace := fun hh => h3 ⟨h4, hh⟩
            simp [h4, this, scan_result.shift]
          · simp [h4, scan_result.shift]
      · simp only [h1, if_false]
        by_cases h5 : nth fmt index = right_brace
        · simp only [h5, if_true]
          by_cases h2 : (fmt.drop (index + 1)).head? = some right_brace
          · have := (hd _).1 h2
            simp [h2, this.1, this.2, scan_result.shift]
          · have h3 : ¬ (index + 1 < fmt.length ∧ nth fmt (index + 1) = right_brace) :=
              fun hh => h2 ((hd _).2 hh)
            have h6 : (decide (index + 1 < fmt.length) && decide (nth fmt (index + 1) = right_brace)) = false := by
              by_cases h4 : index + 1 < fmt.length
              · have : nth fmt (index + 1) ≠ right_brace := fun hh => h3 ⟨h4, hh⟩
                simp [h4, this]
              · simp [h4]
            simp only [h2, if_false, h6, Bool.not_false, if_true]
            cases noexc
            · simp [scan_result.shift]
            · simp only [if_true, Nat.add_sub_cancel]
              rw [ih (index + 1) (by omega), shift_shift]
        · simp only [h5, if_false]
          rw [ih (index + 1) (by omega), shift_shift]
    · rw [List.drop_eq_nil_of_le (by omega)]
      simp [hl, scan_list, scan_result.shift]

theorem until_char_nil (x : Char) : until_char x [] = [] := rfl

theorem until_char_cons (x c : Char) (l : List Char) :
    until_char x (c :: l) = if c = x then [] else c :: until_char x l := by
  unfold until_char
  rw [List.takeWhile_cons]
  by_cases h : c = x <;> simp [h]

theorem until_char_append (x : Char) (a b : List Char) (h : x ∉ a) :
    until_char x (a ++ x :: b) = a := by
  induction a with
  | nil => simp [until_char_cons]
  | cons c a ih =>
    have hc : c ≠ x := fun e => h (by simp [e])
    have ha : x ∉ a := fun e => h (by simp [e])
    simp [until_char_cons, hc, ih ha]

theorem until_char_eq_self (x : Char) (a : List Char) (h : x ∉ a) : until_char x a = a := by
  induction a with
  | nil => rfl
  | cons c a ih =>
    have hc : c ≠ x := fun e => h (by simp [e])
    have ha : x ∉ a := fun e => h (by simp [e])
    simp [until_char_cons, hc, ih ha]

theorem until_char_length_le (x : Char) (l : List Char) : (until_char x l).length ≤ l.length := by
  induction l with
  | nil => simp [until_char_nil]
  | cons c l ih =>
    rw [until_char_cons]
    by_cases hc : c = x <;> simp [hc]; omega

/-- Either the whole list is free of `x`, or it splits at its first `x`. -/
theorem until_char_split (x : Char) (l : List Char) :
    until_char x l = l ∨ ∃ b, l = until_char x l ++ x :: b := by
  induction l with
  | nil => left; rfl
  | cons c l ih =>
    rw [until_char_cons]
    by_cases hc : c = x
    · right; exact ⟨l, by simp [hc]⟩
    · simp only [hc, if_false]
      rcases ih with h | ⟨b, hb⟩
      · left; rw [h]
      · right; exact ⟨b, by rw [List.cons_append, ← hb]⟩

theorem find_right_brace_eq (fmt : List Char) :
    ∀ n index, fmt.length - index ≤ n →
      find_right_brace fmt n index = index + (until_char right_brace (fmt.drop index)).length := by
  intro n
  induction n with
  | zero =>
    intro index h
    rw [List.drop_eq_nil_of_le (by omega)]
    simp [find_right_brace, until_char_nil]
  | succ n ih =>
    intro index h
    unfold find_right_brace
    by_cases hl : index < fmt.length
    · rw [drop_eq_cons_nth hl, until_char_cons]
      by_cases h1 : nth fmt index = right_brace
      · simp [hl, h1]
      · simp only [hl, h1, if_true, if_false, List.length_cons]
        rw [ih (index + 1) (by omega)]; omega
    · rw [List.drop_eq_nil_of_le (by omega)]
      simp [hl, until_char_nil]

theorem find_colon_eq (fmt : List Char) (index : Nat) (hi : index ≤ fmt.length) :
    ∀ n ci, index - ci ≤ n →
      find_colon fmt index n ci
        = ci + (until_char colon ((fmt.drop ci).take (index - ci))).length := by
  intro n
  induction n with
  | zero =>
    intro ci h
    have : index - ci = 0 := by omega
    simp [find_colon, this, until_char_nil]
  | succ n ih =>
    intro ci h
    unfold find_colon
    by_cases hl : ci < index
    · have hlt : ci < fmt.length := by omega
      have e : index - ci = (index - (ci + 1)) + 1 := by omega
      rw [drop_eq_cons_nth hlt, e, List.take_succ_cons, until_char_cons]
      by_cases h1 : nth fmt ci = colon
      · simp [hl, h1]
      · simp only [hl, h1, if_true, if_false, List.length_cons]
        rw [ih (ci + 1) (by omega)]; omega
    · have : index - ci = 0 := by omega
      simp [hl, this, until_char_nil]

/-- One literal-mode iteration, in terms of the text from `offset` on. -/
theorem step_literal {σ : Type} [stream_type σ] (noexc : Bool) (fmt : List Char)
    (args : List (σ → σ)) (st : loop_state σ) (hn : st.in_number = false) :
    step noexc fmt args st =
      match scan_list noexc (fmt.drop st.offset) with
      | .throw => .thrown .unmatched_close_brace st.stream
      | .brk k b =>
        .next { offset := st.offset + k + 1, in_number := b, arg_index := st.arg_index,
                stream := if k = 0 then st.stream
                          else string_view_io ((fmt.drop st.offset).take k) st.stream } := by
  unfold step
  simp only [hn, Bool.not_false, if_true]
  rw [scan_literal_eq noexc fmt _ _ (le_refl _)]
  cases scan_list noexc (fmt.drop st.offset) with
  | throw => simp [scan_result.shift]
  | brk k b =>
    simp only [scan_result.shift, Nat.add_sub_cancel_left, substr]
    by_cases hk : k = 0
    · simp [hk]
    · have : ¬ k ≤ 0 := by omega
      simp [hk, this]

theorem length_eq_of_until_char_eq {x : Char} {l : List Char}
    (h : (until_char x l).length = l.length) : until_char x l = l := by
  rcases until_char_split x l with h1 | ⟨b, hb⟩
  · exact h1
  · have := congrArg List.length hb
    simp at this; omega

theorem until_char_prefix (x : Char) (l : List Char) : ∃ d, l = until_char x l ++ d :=
  ⟨l.dropWhile (fun c => decide (c ≠ x)), (List.takeWhile_append_dropWhile _ l).symm⟩

theorem take_until_char (x : Char) (l r : List Char) :
    (l ++ r).take (until_char x l).length = until_char x l := by
  obtain ⟨d, hd⟩ := until_char_prefix x l
  generalize until_char x l = u at hd
  subst hd
  simp

/-- One placeholder-mode iteration at a closed placeholder. -/
theorem step_placeholder {σ : Type} [stream_type σ] (noexc : Bool) (fmt : List Char)
    (args : List (σ → σ)) (st : loop_state σ) (inner post : List Char)
    (hn : st.in_number = true) (ho : 1 ≤ st.offset)
    (hd : fmt.drop (st.offset - 1) = left_brace :: (inner ++ right_brace :: post))
    (hi : right_brace ∉ inner) :
    step noexc fmt args st =
      match resolve_index noexc inner st.arg_index with
      | .error e => .thrown e st.stream
      | .ok ai =>
        match placeholder_io noexc args inner ai st.stream with
        | .ok s => .next { offset := st.offset + inner.length + 1, in_number := false,
                           arg_index := (ai + 1) % 2 ^ 64, stream := s }
        | .error (e, s) => .thrown e s := by
  have hd1 : fmt.drop st.offset = inner ++ right_brace :: post := by
    have := congrArg (List.drop 1) hd
    rw [List.drop_drop] at this
    simpa [show st.offset - 1 + 1 = st.offset by omega] using this
  have hlen : st.offset + inner.length + 1 + post.length = fmt.length := by
    have := congrArg List.length hd1
    simp at this; omega
  have hidx : find_right_brace fmt (fmt.length - st.offset) st.offset
      = st.offset + inner.length := by
    rw [find_right_brace_eq fmt _ _ (le_refl _), hd1, until_char_append _ _ _ hi]
  have htake : (fmt.drop st.offset).take inner.length = inner := by
    rw [hd1]; simp
  have hci : find_colon fmt (st.offset + inner.length) (st.offset + inner.length - st.offset)
      st.offset = st.offset + (until_char colon inner).length := by
    rw [find_colon_eq fmt _ (by omega) _ _ (le_refl _)]
    simp [htake]
  have hle := until_char_length_le colon inner
  unfold step
  simp only [hn, Bool.not_true, if_false, hidx, hci]
  have hne : ¬ (st.offset + inner.length = fmt.length) := by omega
  simp only [hne, if_false]
  have hsub1 : substr fmt st.offset (st.offset + (until_char colon inner).length - st.offset)
      = until_char colon inner := by
    unfold substr
    rw [Nat.add_sub_cancel_left, hd1, take_until_char]
  have hsub2 : substr fmt (st.offset - 1) (st.offset + inner.length - st.offset + 2)
      = left_brace :: inner ++ [right_brace] := by
    unfold substr
    rw [hd, Nat.add_sub_cancel_left, List.take_succ_cons]
    have : inner ++ right_brace :: post = (inner ++ [right_brace]) ++ post := by simp
    rw [this, List.cons_append]
    congr 1
    exact List.take_left' (by simp)
  have hsub3 : substr fmt (st.offset + (until_char colon inner).length + 1)
      (st.offset + inner.length - (st.offset + (until_char colon inner).length) - 1)
      = inner.drop ((until_char colon inner).length + 1) := by
    unfold substr
    have e : st.offset + (until_char colon inner).length + 1
        = st.offset + ((until_char colon inner).length + 1) := by omega
    rw [e, ← List.drop_drop, hd1]
    by_cases hc : (until_char colon inner).length + 1 ≤ inner.length
    · rw [List.drop_append_of_le_length hc]
      exact List.take_left' (by simp; omega)
    · have h1 : st.offset + inner.length - (st.offset + (until_char colon inner).length) - 1 = 0 := by
        omega
      rw [h1, List.take_zero, List.drop_eq_nil_of_le (by omega)]
  rw [hsub1, hsub2, hsub3]
  have hgt : (st.offset + (until_char colon inner).length > st.offset)
      ↔ until_char colon inner ≠ [] := by
    rw [← List.length_pos]; omega
  have heq : (st.offset + inner.length = st.offset + (until_char colon inner).length)
      ↔ until_char colon inner = inner := by
    constructor
    · intro h; exact length_eq_of_until_char_eq (by omega)
    · intro h; rw [h]
  unfold resolve_index placeholder_io
  simp only [hgt, heq, Bool.false_eq_true, if_false]

theorem scan_list_true (noexc : Bool) :
    ∀ (rest : List Char) (k : Nat), scan_list noexc rest = .brk k true →
      ∃ r, rest.drop k = left_brace :: r := by
  intro rest
  induction rest with
  | nil => intro k h; simp [scan_list] at h
  | cons c rest ih =>
    intro k h
    unfold scan_list at h
    have aux : ∀ k, (scan_list noexc rest).shift 1 = .brk k true →
        ∃ r, (c :: rest).drop k = left_brace :: r := by
      intro k h
      cases hs : scan_list noexc rest with
      | throw => rw [hs] at h; simp [scan_result.shift] at h
      | brk j b =>
        rw [hs] at h
        simp only [scan_result.shift, scan_result.brk.injEq] at h
        obtain ⟨r, hr⟩ := ih j (by rw [hs, h.2])
        exact ⟨r, by rw [← h.1, Nat.add_comm, List.drop_succ_cons, hr]⟩
    by_cases h1 : c = left_brace
    · simp only [h1, if_true] at h
      by_cases h2 : rest.head? = some left_brace
      · simp [h2] at h
      · simp only [h2, if_false, scan_result.brk.injEq] at h
        exact ⟨rest, by rw [← h.1, h1]; rfl⟩
    · simp only [h1, if_false] at h
      by_cases h3 : c = right_brace
      · simp only [h3, if_true] at h
        by_cases h2 : rest.head? = some right_brace
        · simp [h2] at h
        · simp only [h2, if_false] at h
          cases noexc
          · simp at h
          · simp only [if_true] at h
            exact aux k h
      · simp only [h3, if_false] at h
        exact aux k h

/-- Every iteration moves `offset` forward. -/
theorem step_offset_lt {σ : Type} [stream_type σ] (noexc : Bool) (fmt : List Char)
    (args : List (σ → σ)) (st st1 : loop_state σ)
    (h : step noexc fmt args st = .next st1) : st.offset < st1.offset := by
  unfold step at h
  by_cases hn : st.in_number = true
  · simp only [hn, Bool.not_true, Bool.false_eq_true, if_false] at h
    rw [find_right_brace_eq fmt _ _ (le_refl _)] at h
    split at h
    · split at h
      · injection h with h; rw [← h]; simp; omega
      · cases h
    · split at h
      · cases h
      · split at h
        · injection h with h; rw [← h]; simp; omega
        · cases h
  · have hn : st.in_number = false := by simpa using hn
    simp only [hn, Bool.not_false, if_true] at h
    rw [scan_literal_eq noexc fmt _ _ (le_refl _)] at h
    cases hs : scan_list noexc (fmt.drop st.offset) with
    | throw => rw [hs] at h; simp [scan_result.shift] at h
    | brk k b =>
      rw [hs] at h
      simp only [scan_result.shift] at h
      split at h
      · injection h with h; rw [← h]; simp; omega
      · injection h with h; rw [← h]; simp; omega

theorem run_steps_offset {σ : Type} [stream_type σ] (noexc : Bool) (fmt : List Char)
    (args : List (σ → σ)) :
    ∀ (k : Nat) (st st1 : loop_state σ), run_steps noexc fmt args k st = some st1 →
      st.offset + k ≤ st1.offset := by
  intro k
  induction k with
  | zero => intro st st1 h; simp [run_steps] at h; rw [h]; omega
  | succ k ih =>
    intro st st1 h
    unfold run_steps at h
    split at h
    · cases hs : step noexc fmt args st with
      | thrown e s => rw [hs] at h; cases h
      | next st2 =>
        rw [hs] at h
        have h1 := step_offset_lt noexc fmt args st st2 hs
        have h2 := ih st2 st1 h
        omega
    · cases h

theorem loop_succ {σ : Type} [stream_type σ] (noexc : Bool) (fmt : List Char)
    (args : List (σ → σ)) (n : Nat) (st : loop_state σ) :
    loop noexc fmt args (n + 1) st =
      if st.offset < fmt.length then
        match step noexc fmt args st with
        | .next st => loop noexc fmt args n st
        | .thrown e stream => .thrown e stream
      else .returned st.stream := rfl

theorem loop_run_steps {σ : Type} [stream_type σ] (noexc : Bool) (fmt : List Char)
    (args : List (σ → σ)) :
    ∀ (k m : Nat) (st st1 : loop_state σ), run_steps noexc fmt args k st = some st1 →
      loop noexc fmt args (k + m) st = loop noexc fmt args m st1 := by
  intro k
  induction k with
  | zero => intro m st st1 h; simp [run_steps] at h; rw [h, Nat.zero_add]
  | succ k ih =>
    intro m st st1 h
    unfold run_steps at h
    split at h
    · rename_i hlt
      cases hs : step noexc fmt args st with
      | thrown e s => rw [hs] at h; cases h
      | next st2 =>
        rw [hs] at h
        rw [show k + 1 + m = (k + m) + 1 by omega]
        rw [loop_succ]
        simp only [hlt, if_true, hs]
        exact ih m st2 st1 h
    · cases h

theorem reaches_succ {σ : Type} [stream_type σ] {noexc : Bool} {fmt : List Char}
    {args : List (σ → σ)} {stream : σ} {k : Nat} {st st1 : loop_state σ}
    (h : reaches noexc fmt args stream k st) (hlt : st.offset < fmt.length)
    (hs : step noexc fmt args st = .next st1) :
    reaches noexc fmt args stream (k + 1) st1 := by
  unfold reaches at *
  revert h
  generalize initial_state stream = st0
  induction k generalizing st0 with
  | zero =>
    intro h
    simp only [run_steps, Option.some.injEq] at h
    subst h
    simp [run_steps, hlt, hs]
  | succ k ih =>
    intro h
    unfold run_steps at h
    unfold run_steps
    split at h
    · rename_i hl
      simp only [hl, if_true]
      cases hs0 : step noexc fmt args st0 with
      | thrown e s => rw [hs0] at h; cases h
      | next st2 =>
        rw [hs0] at h
        exact ih st2 h
    · cases h

theorem step_open_brace_before {σ : Type} [stream_type σ] (noexc : Bool) (fmt : List Char)
    (args : List (σ → σ)) (st st1 : loop_state σ)
    (h : step noexc fmt args st = .next st1) : open_brace_before fmt st1 := by
  by_cases hn : st.in_number = true
  · unfold step at h
    simp only [hn, Bool.not_true, Bool.false_eq_true, if_false] at h
    split at h
    · rename_i he
      split at h
      · injection h with h
        intro _ hle
        rw [← h] at hle
        simp at hle
        omega
      · cases h
    · split at h
      · cases h
      · split at h
        · injection h with h
          intro h1
          rw [← h] at h1
          cases h1
        · cases h
  · have hn : st.in_number = false := by simpa using hn
    rw [step_literal noexc fmt args st hn] at h
    cases hs : scan_list noexc (fmt.drop st.offset) with
    | throw => rw [hs] at h; cases h
    | brk k b =>
      rw [hs] at h
      injection h with h
      intro h1 _
      rw [← h] at h1
      simp only at h1
      subst h1
      obtain ⟨r, hr⟩ := scan_list_true noexc _ k hs
      rw [← h]
      refine ⟨by simp, r, ?_⟩
      simp only [Nat.add_sub_cancel]
      rw [← List.drop_drop, hr]

theorem run_steps_open_brace_before {σ : Type} [stream_type σ] (noexc : Bool) (fmt : List Char)
    (args : List (σ → σ)) :
    ∀ (k : Nat) (st st1 : loop_state σ), run_steps noexc fmt args k st = some st1 →
      open_brace_before fmt st → open_brace_before fmt st1 := by
  intro k
  induction k with
  | zero => intro st st1 h hi; simp [run_steps] at h; rw [← h]; exact hi
  | succ k ih =>
    intro st st1 h _
    unfold run_steps at h
    split at h
    · cases hs : step noexc fmt args st with
      | thrown e s => rw [hs] at h; cases h
      | next st2 =>
        rw [hs] at h
        exact ih st2 st1 h (step_open_brace_before noexc fmt args st st2 hs)
    · cases h

/-- In a state the interpretation reaches in placeholder mode, the text from
`offset - 1` on is the opening brace followed by the text from `offset` on. -/
theorem reaches_open_brace {σ : Type} [stream_type σ] {noexc : Bool} {fmt : List Char}
    {args : List (σ → σ)} {stream : σ} {k : Nat} {st : loop_state σ}
    (h : reaches noexc fmt args stream k st) (hn : st.in_number = true)
    (hlt : st.offset ≤ fmt.length) :
    1 ≤ st.offset ∧ fmt.drop (st.offset - 1) = left_brace :: fmt.drop st.offset := by
  have hi : open_brace_before fmt (initial_state stream) := by
    intro h1; simp [initial_state] at h1
  obtain ⟨h1, r, hr⟩ := run_steps_open_brace_before noexc fmt args k _ _ h hi hn hlt
  refine ⟨h1, ?_⟩
  rw [hr]
  have := congrArg (List.drop 1) hr
  rw [List.drop_drop, show st.offset - 1 + 1 = st.offset by omega] at this
  rw [this]; rfl

/-- A placeholder-mode iteration with no closing brace ahead throws in strict mode. -/
theorem step_unterminated {σ : Type} [stream_type σ] (fmt : List Char)
    (args : List (σ → σ)) (st : loop_state σ) (hn : st.in_number = true)
    (hl : st.offset ≤ fmt.length) (hi : right_brace ∉ fmt.drop st.offset) :
    step false fmt args st = .thrown .unterminated_placeholder st.stream := by
  unfold step
  simp only [hn, Bool.not_true, Bool.false_eq_true, if_false]
  rw [find_right_brace_eq fmt _ _ (le_refl _), until_char_eq_self _ _ hi]
  simp [List.length_drop, Nat.add_sub_cancel' hl]

/-- What one literal-mode iteration sees of a template without placeholder. -/
theorem scan_list_no_placeholder :
    ∀ (rest : List Char), no_placeholder rest = true → rest ≠ [] →
      ∃ k, scan_list false rest = .brk k false ∧ 1 ≤ k ∧
        no_placeholder (rest.drop (k + 1)) = true ∧
        rest.take k ++ collapse (rest.drop (k + 1)) = collapse rest := by
  intro rest
  induction rest using no_placeholder.induct with
  | case1 => intro _ h; exact absurd rfl h
  | case2 c =>
    intro h _
    simp only [no_placeholder, Bool.and_eq_true, decide_eq_true_eq] at h
    refine ⟨1, ?_, le_refl _, by simp [no_placeholder], by simp [collapse]⟩
    simp [scan_list, h.1, h.2, scan_result.shift]
  | case3 d r ih =>
    intro h _
    simp only [no_placeholder, if_true, Bool.and_eq_true, decide_eq_true_eq] at h
    refine ⟨1, ?_, le_refl _, by simpa using h.2, ?_⟩
    · simp [scan_list, h.1]
    · simp [collapse, h.1]
  | case4 d r _ ih =>
    intro h _
    have hne : right_brace ≠ left_brace := by decide
    simp only [no_placeholder, hne, if_false, if_true, Bool.and_eq_true, decide_eq_true_eq] at h
    refine ⟨1, ?_, le_refl _, by simpa using h.2, ?_⟩
    · simp [scan_list, h.1, hne]
    · simp [collapse, h.1]
  | case5 c d r hc1 hc2 ih =>
    intro h _
    simp only [no_placeholder, hc1, hc2, if_false] at h
    obtain ⟨k, h1, h2, h3, h4⟩ := ih h (by simp)
    refine ⟨k + 1, ?_, by omega, by simpa using h3, ?_⟩
    · rw [scan_list]
      simp only [hc1, hc2, if_false, h1, scan_result.shift]
      rw [Nat.add_comm]
    · rw [List.take_succ_cons, List.drop_succ_cons, List.cons_append, h4]
      simp [collapse, hc1, hc2]

/-- Interpreting a text without placeholder from a literal-mode state. -/
theorem loop_no_placeholder (fmt : List Char) (args : List (ostream → ostream)) :
    ∀ (n : Nat) (st : loop_state ostream), st.in_number = false →
      no_placeholder (fmt.drop st.offset) = true → fmt.length - st.offset ≤ n →
      loop false fmt args n st
        = .returned { st.stream with out := st.stream.out ++ collapse (fmt.drop st.offset) } := by
  intro n
  induction n with
  | zero =>
    intro st _ _ hn
    have : fmt.drop st.offset = [] := List.drop_eq_nil_of_le (by omega)
    have hl : ¬ st.offset < fmt.length := by omega
    simp [loop, hl, this, collapse]
  | succ n ih =>
    intro st hin hnp hn
    rw [loop_succ]
    by_cases hl : st.offset < fmt.length
    · have hne : fmt.drop st.offset ≠ [] := by
        intro h; rw [List.drop_eq_nil_iff] at h; omega
      obtain ⟨k, h1, h2, h3, h4⟩ := scan_list_no_placeholder _ hnp hne
      rw [if_pos hl, step_literal false fmt args st hin, h1]
      have hk : k ≠ 0 := by omega
      simp only [hk, if_false]
      rw [ih _ rfl (by simpa [List.drop_drop, Nat.add_assoc] using h3) (by simp; omega)]
      simp only [string_view_io, string_view_io_output, List.append_assoc]
      rw [← h4]
      simp [List.drop_drop, Nat.add_assoc]
    · have : fmt.drop st.offset = [] := List.drop_eq_nil_of_le (by omega)
      simp [hl, this, collapse]

/-- More fuel than the distance to the end of the template changes nothing. -/
theorem loop_enough {σ : Type} [stream_type σ] (noexc : Bool) (fmt : List Char)
    (args : List (σ → σ)) :
    ∀ (n m : Nat) (st : loop_state σ), fmt.length - st.offset ≤ n → n ≤ m →
      loop noexc fmt args m st = loop noexc fmt args n st := by
  intro n
  induction n with
  | zero =>
    intro m st h _
    have hl : ¬ st.offset < fmt.length := by omega
    cases m with
    | zero => rfl
    | succ m => rw [loop_succ, if_neg hl]; simp [loop, hl]
  | succ n ih =>
    intro m st h hm
    obtain ⟨m, rfl⟩ : ∃ m', m = m' + 1 := ⟨m - 1, by omega⟩
    rw [loop_succ, loop_succ]
    by_cases hl : st.offset < fmt.length
    · simp only [hl, if_true]
      cases hs : step noexc fmt args st with
      | thrown e s => rfl
      | next st1 =>
        have := step_offset_lt noexc fmt args st st1 hs
        exact ih m st1 (by omega) (by omega)
    · simp only [hl, if_false]

theorem loop_eq_run {σ : Type} [stream_type σ] (noexc : Bool) (fmt : List Char)
    (args : List (σ → σ)) (n : Nat) (st : loop_state σ) (h : fmt.length - st.offset ≤ n) :
    loop noexc fmt args n st = run noexc fmt args st :=
  loop_enough noexc fmt args _ n st (le_refl _) h

theorem format_string_view_eq_run {σ : Type} [stream_type σ] (noexc : Bool) (fmt : List Char)
    (args : List (σ → σ)) (stream : σ) :
    format_string_view noexc fmt args stream = run noexc fmt args (initial_state stream) :=
  loop_eq_run noexc fmt args _ _ (by simp [initial_state])

/-- The loop, unfolded once. -/
theorem run_eq {σ : Type} [stream_type σ] (noexc : Bool) (fmt : List Char)
    (args : List (σ → σ)) (st : loop_state σ) :
    run noexc fmt args st =
      if st.offset < fmt.length then
        match step noexc fmt args st with
        | .next st => run noexc fmt args st
        | .thrown e stream => .thrown e stream
      else .returned st.stream := by
  by_cases hl : st.offset < fmt.length
  · rw [if_pos hl]
    unfold run
    obtain ⟨n, hn⟩ : ∃ n, fmt.length - st.offset = n + 1 := ⟨fmt.length - st.offset - 1, by omega⟩
    rw [hn, loop_succ, if_pos hl]
    cases hs : step noexc fmt args st with
    | thrown e s => rfl
    | next st1 =>
      have := step_offset_lt noexc fmt args st st1 hs
      exact loop_enough noexc fmt args _ n st1 (le_refl _) (by omega)
  · rw [if_neg hl]
    unfold run
    have : fmt.length - st.offset = 0 := by omega
    rw [this]
    simp [loop, hl]

theorem run_run_steps {σ : Type} [stream_type σ] (noexc : Bool) (fmt : List Char)
    (args : List (σ → σ)) :
    ∀ (k : Nat) (st st1 : loop_state σ), run_steps noexc fmt args k st = some st1 →
      run noexc fmt args st = run noexc fmt args st1 := by
  intro k
  induction k with
  | zero => intro st st1 h; simp [run_steps] at h; rw [h]
  | succ k ih =>
    intro st st1 h
    unfold run_steps at h
    split at h
    · rename_i hl
      rw [run_eq, if_pos hl]
      cases hs : step noexc fmt args st with
      | thrown e s => rw [hs] at h; cases h
      | next st2 =>
        rw [hs] at h
        exact ih st2 st1 h
    · cases h

/-- From a state the interpretation reaches, the result of the interpretation is the
result of the loop continued from that state. -/
theorem reaches_run {σ : Type} [stream_type σ] {noexc : Bool} {fmt : List Char}
    {args : List (σ → σ)} {stream : σ} {k : Nat} {st : loop_state σ}
    (h : reaches noexc fmt args stream k st) :
    format_string_view noexc fmt args stream = run noexc fmt args st := by
  rw [format_string_view_eq_run]
  exact run_run_steps noexc fmt args k _ _ h

theorem scan_list_brace_free (noexc : Bool) (rest : List Char) :
    ∀ (text : List Char), brace_free text →
      scan_list noexc (text ++ rest) = (scan_list noexc rest).shift text.length := by
  intro text
  induction text with
  | nil => intro _; cases h : scan_list noexc rest <;> simp [scan_result.shift, h]
  | cons c text ih =>
    intro h
    have h1 : c ≠ left_brace := fun e => h.1 (by simp [e])
    have h2 : c ≠ right_brace := fun e => h.2 (by simp [e])
    have h3 : brace_free text := ⟨fun e => h.1 (by simp [e]), fun e => h.2 (by simp [e])⟩
    rw [List.cons_append, scan_list]
    simp only [h1, h2, if_false]
    rw [ih h3, shift_shift, List.length_cons, Nat.add_comm]

theorem brace_free_append_singleton {acc : List Char} {c : Char} (h : brace_free acc)
    (h1 : c ≠ left_brace) (h2 : c ≠ right_brace) : brace_free (acc ++ [c]) := by
  constructor
  · simp only [List.mem_append, List.mem_singleton, not_or]
    exact ⟨h.1, fun e => h1 e.symm⟩
  · simp only [List.mem_append, List.mem_singleton, not_or]
    exact ⟨h.2, fun e => h2 e.symm⟩

/-- One literal-mode iteration in front of brace-free text `acc` followed by `rest`. -/
theorem step_chunk {σ : Type} [stream_type σ] (noexc : Bool) (fmt : List Char)
    (args : List (σ → σ)) (st : loop_state σ) (acc rest : List Char) (j : Nat) (b : Bool)
    (hin : st.in_number = false) (hd : fmt.drop st.offset = acc ++ rest)
    (hacc : brace_free acc) (hs : scan_list noexc rest = .brk j b) :
    step noexc fmt args st =
      .next { offset := st.offset + acc.length + j + 1, in_number := b,
              arg_index := st.arg_index,
              stream := if acc.length + j = 0 then st.stream
                        else string_view_io (acc ++ rest.take j) st.stream } := by
  rw [step_literal noexc fmt args st hin, hd, scan_list_brace_free noexc rest acc hacc, hs]
  simp only [scan_result.shift, List.take_append, Nat.add_assoc]

theorem lt_length_of_drop_ne_nil {fmt : List Char} {i : Nat} (h : fmt.drop i ≠ []) :
    i < fmt.length := by
  by_contra hn
  exact h (List.drop_eq_nil_of_le (by omega))

/-- The literal phase at the end of a literal run. -/
theorem run_literal_nil {σ : Type} [stream_type σ] (noexc : Bool) (fmt : List Char)
    (args : List (σ → σ)) (rest : List Char)
    (hrest : rest = [] ∨ ∃ r, rest = left_brace :: r ∧ r.head? ≠ some left_brace)
    (acc : List Char) (st : loop_state σ) (hin : st.in_number = false)
    (hd : fmt.drop st.offset = acc ++ rest) (hacc : brace_free acc) :
    run noexc fmt args st =
      if rest = [] then .returned (emit_literal_aux acc [] st.stream)
      else run noexc fmt args
        { offset := st.offset + acc.length + 1, in_number := true,
          arg_index := st.arg_index, stream := emit_literal_aux acc [] st.stream } := by
  rcases hrest with hr | ⟨r, hr, hh⟩
  · subst hr
    simp only [List.append_nil] at hd
    simp only [if_true, emit_literal_aux]
    by_cases ha : acc = []
    · subst ha
      have : fmt.length ≤ st.offset := List.drop_eq_nil_iff.1 hd
      rw [run_eq, if_neg (by omega)]
      simp
    · have hl : st.offset < fmt.length := lt_length_of_drop_ne_nil (by rw [hd]; exact ha)
      have hlen : st.offset + acc.length = fmt.length := by
        have := congrArg List.length hd
        simp at this; omega
      rw [run_eq, if_pos hl,
        step_chunk noexc fmt args st acc [] 0 false hin (by simpa using hd) hacc rfl]
      simp only
      rw [run_eq, if_neg (by simp; omega)]
      have : acc.length ≠ 0 := fun e => ha (List.length_eq_zero.1 e)
      simp [ha, this]
  · subst hr
    have hl : st.offset < fmt.length := lt_length_of_drop_ne_nil (by rw [hd]; simp)
    have hs : scan_list noexc (left_brace :: r) = .brk 0 true := by
      simp [scan_list, hh]
    rw [run_eq, if_pos hl, step_chunk noexc fmt args st acc _ 0 true hin hd hacc hs]
    simp only [List.cons_ne_nil, if_false, emit_literal_aux, Nat.add_zero, List.take_zero,
      List.append_nil, List.length_eq_zero]

/-- The literal phase: from a literal-mode state in front of `acc ++ lit ++ rest`,
with `rest` empty or the start of a placeholder, the loop goes on after `lit` (and
the opening brace), having performed the literal operations of `lit`. -/
theorem run_literal {σ : Type} [stream_type σ] (noexc : Bool) (fmt : List Char)
    (args : List (σ → σ)) (rest : List Char)
    (hrest : rest = [] ∨ ∃ r, rest = left_brace :: r ∧ r.head? ≠ some left_brace) :
    ∀ (lit acc : List Char) (st : loop_state σ), st.in_number = false →
      fmt.drop st.offset = acc ++ (lit ++ rest) → brace_free acc →
      no_placeholder lit = true →
      run noexc fmt args st =
        if rest = [] then .returned (emit_literal_aux acc lit st.stream)
        else run noexc fmt args
          { offset := st.offset + acc.length + lit.length + 1, in_number := true,
            arg_index := st.arg_index, stream := emit_literal_aux acc lit st.stream } := by
  have doubled : ∀ (b : Char) (d : Char) (r : List Char), (b = left_brace ∨ b = right_brace) →
      (∀ (acc : List Char) (st : loop_state σ), st.in_number = false →
        fmt.drop st.offset = acc ++ (r ++ rest) → brace_free acc → no_placeholder r = true →
        run noexc fmt args st =
          if rest = [] then .returned (emit_literal_aux acc r st.stream)
          else run noexc fmt args
            { offset := st.offset + acc.length + r.length + 1, in_number := true,
              arg_index := st.arg_index, stream := emit_literal_aux acc r st.stream }) →
      d = b → no_placeholder r = true →
      ∀ (acc : List Char) (st : loop_state σ), st.in_number = false →
        fmt.drop st.offset = acc ++ ((b :: d :: r) ++ rest) → brace_free acc →
        run noexc fmt args st =
          if rest = [] then .returned (emit_literal_aux acc (b :: d :: r) st.stream)
          else run noexc fmt args
            { offset := st.offset + acc.length + (b :: d :: r).length + 1, in_number := true,
              arg_index := st.arg_index,
              stream := emit_literal_aux acc (b :: d :: r) st.stream } := by
    intro b d r hb ih hdb hnp acc st hin hd hacc
    subst hdb
    have hl : st.offset < fmt.length := lt_length_of_drop_ne_nil (by rw [hd]; simp)
    have hs : scan_list noexc ((d :: d :: r) ++ rest) = .brk 1 false := by
      rcases hb with hb | hb
      · simp [scan_list, hb]
      · have : right_brace ≠ left_brace := by decide
        simp [scan_list, hb, this]
    rw [run_eq, if_pos hl, step_chunk noexc fmt args st acc _ 1 false hin hd hacc hs]
    simp only
    have hd2 : fmt.drop (st.offset + acc.length + 1 + 1) = [] ++ (r ++ rest) := by
      rw [show st.offset + acc.length + 1 + 1 = st.offset + (acc.length + 2) by omega,
        ← List.drop_drop, hd]
      simp [List.drop_append]
    rw [ih [] _ rfl hd2 ⟨by simp, by simp⟩ hnp]
    have e1 : emit_literal_aux acc (d :: d :: r) st.stream
        = emit_literal_aux [] r (string_view_io (acc ++ [d]) st.stream) := by
      simp [emit_literal_aux, hb]
    simp only [e1, List.length_nil, List.length_cons, Nat.add_zero, List.cons_append,
      List.take_succ_cons, List.take_zero, Nat.add_eq_zero_iff, one_ne_zero, and_false, if_false]
    by_cases hr : rest = []
    · simp [hr]
    · simp only [hr, if_false]
      congr 2
      omega
  intro lit
  induction lit using no_placeholder.induct with
  | case1 =>
    intro acc st hin hd hacc _
    simpa using run_literal_nil noexc fmt args rest hrest acc st hin (by simpa using hd) hacc
  | case2 c =>
    intro acc st hin hd hacc hnp
    simp only [no_placeholder, Bool.and_eq_true, decide_eq_true_eq] at hnp
    have := run_literal_nil noexc fmt args rest hrest (acc ++ [c]) st hin (by simpa using hd)
      (brace_free_append_singleton hacc hnp.1 hnp.2)
    rw [this]
    simp [emit_literal_aux, Nat.add_assoc]
  | case3 d r ih =>
    intro acc st hin hd hacc hnp
    simp only [no_placeholder, if_true, Bool.and_eq_true, decide_eq_true_eq] at hnp
    exact doubled left_brace d r (Or.inl rfl) ih hnp.1 hnp.2 acc st hin hd hacc
  | case4 d r _ ih =>
    intro acc st hin hd hacc hnp
    have hne : right_brace ≠ left_brace := by decide
    simp only [no_placeholder, hne, if_false, if_true, Bool.and_eq_true,
      decide_eq_true_eq] at hnp
    exact doubled right_brace d r (Or.inr rfl) ih hnp.1 hnp.2 acc st hin hd hacc
  | case5 c d r hc1 hc2 ih =>
    intro acc st hin hd hacc hnp
    simp only [no_placeholder, hc1, hc2, if_false] at hnp
    have := ih (acc ++ [c]) st hin (by simpa using hd)
      (brace_free_append_singleton hacc hc1 hc2) hnp
    rw [this]
    simp only [emit_literal_aux, hc1, hc2, or_self, if_false, List.length_append,
      List.length_cons, List.length_nil]
    by_cases hr : rest = []
    · simp [hr]
    · simp only [hr, if_false]
      congr 2
      omega

/-- The loop from a literal-mode state in front of a well-formed template. -/
theorem run_pieces {σ : Type} [stream_type σ] (noexc : Bool) (fmt : List Char)
    (args : List (σ → σ)) :
    ∀ (pieces : List (List Char × List Char)) (tail : List Char) (st : loop_state σ),
      st.in_number = false → fmt.drop st.offset = assemble pieces tail →
      well_formed pieces tail →
      run noexc fmt args st = denote noexc args pieces tail st.arg_index st.stream := by
  intro pieces
  induction pieces with
  | nil =>
    intro tail st hin hd hwf
    have := run_literal noexc fmt args [] (Or.inl rfl) tail [] st hin
      (by simpa [assemble] using hd) ⟨by simp, by simp⟩ hwf
    simpa [denote, emit_literal] using this
  | cons p ps ih =>
    obtain ⟨lit, inner⟩ := p
    intro tail st hin hd hwf
    obtain ⟨hlit, hinner, hhead, hwf⟩ := hwf
    have hrest : (left_brace :: (inner ++ right_brace :: assemble ps tail)) = [] ∨
        ∃ r, (left_brace :: (inner ++ right_brace :: assemble ps tail)) = left_brace :: r ∧
          r.head? ≠ some left_brace := by
      refine Or.inr ⟨_, rfl, ?_⟩
      cases inner with
      | nil => simp; decide
      | cons c inner => simpa using hhead
    have h1 := run_literal noexc fmt args _ hrest lit [] st hin
      (by simpa [assemble] using hd) ⟨by simp, by simp⟩ hlit
    simp only [List.cons_ne_nil, if_false, List.length_nil, Nat.add_zero] at h1
    rw [h1]
    have hd1 : fmt.drop (st.offset + lit.length)
        = left_brace :: (inner ++ right_brace :: assemble ps tail) := by
      rw [← List.drop_drop, hd]
      simp [assemble]
    have hd2 : fmt.drop (st.offset + lit.length + 1)
        = inner ++ right_brace :: assemble ps tail := by
      rw [← List.drop_drop, hd1]; rfl
    have hl : st.offset + lit.length + 1 < fmt.length :=
      lt_length_of_drop_ne_nil (by rw [hd2]; simp)
    rw [run_eq]
    simp only [hl, if_true]
    rw [step_placeholder noexc fmt args _ inner (assemble ps tail) rfl (by simp)
      (by simpa using hd1) hinner]
    simp only [denote, emit_literal]
    cases resolve_index noexc inner st.arg_index with
    | error e => rfl
    | ok k =>
      simp only
      cases placeholder_io noexc args inner k (emit_literal_aux [] lit st.stream) with
      | error es => rfl
      | ok s1 =>
        simp only
        rw [ih tail _ rfl (by
          simp only
          rw [show st.offset + lit.length + 1 + inner.length + 1
            = (st.offset + lit.length + 1) + (inner.length + 1) by omega, ← List.drop_drop, hd2]
          simp) hwf]

/-- Interpreting a well-formed template is its meaning. -/
theorem format_string_view_pieces {σ : Type} [stream_type σ] (noexc : Bool)
    (args : List (σ → σ)) (pieces : List (List Char × List Char)) (tail : List Char)
    (stream : σ) (hwf : well_formed pieces tail) :
    format_string_view noexc (assemble pieces tail) args stream
      = denote noexc args pieces tail 0 stream := by
  rw [format_string_view_eq_run]
  exact run_pieces noexc _ args pieces tail (initial_state stream) rfl rfl hwf

theorem emit_literal_aux_ostream :
    ∀ (lit acc : List Char) (os : ostream), no_placeholder lit = true →
      emit_literal_aux acc lit os = { os with out := os.out ++ acc ++ collapse lit } := by
  intro lit
  induction lit using no_placeholder.induct with
  | case1 =>
    intro acc os _
    by_cases ha : acc = []
    · simp [emit_literal_aux, ha, collapse]
    · simp [emit_literal_aux, ha, collapse, string_view_io, string_view_io_output]
  | case2 c =>
    intro acc os _
    simp [emit_literal_aux, collapse, string_view_io, string_view_io_output]
  | case3 d r ih =>
    intro acc os h
    simp only [no_placeholder, if_true, Bool.and_eq_true, decide_eq_true_eq] at h
    simp [emit_literal_aux, collapse, h.1, ih [] _ h.2, string_view_io, string_view_io_output]
  | case4 d r _ ih =>
    intro acc os h
    have hne : right_brace ≠ left_brace := by decide
    simp only [no_placeholder, hne, if_false, if_true, Bool.and_eq_true,
      decide_eq_true_eq] at h
    simp [emit_literal_aux, collapse, h.1, ih [] _ h.2, string_view_io, string_view_io_output]
  | case5 c d r hc1 hc2 ih =>
    intro acc os h
    simp only [no_placeholder, hc1, hc2, if_false] at h
    simp [emit_literal_aux, collapse, hc1, hc2, ih (acc ++ [c]) os h]

theorem emit_literal_ostream (lit : List Char) (os : ostream) (h : no_placeholder lit = true) :
    emit_literal lit os = { os with out := os.out ++ collapse lit } := by
  simp [emit_literal, emit_literal_aux_ostream lit [] os h]

theorem assemble_length (pieces : List (List Char × List Char)) (tail : List Char) :
    2 * pieces.length ≤ (assemble pieces tail).length := by
  induction pieces with
  | nil => simp
  | cons p ps ih =>
    obtain ⟨lit, inner⟩ := p
    simp only [assemble, List.length_cons, List.length_append]
    omega

theorem well_formed_auto (pieces : List (List Char × Option (List Char))) (tail : List Char)
    (hp : ∀ p ∈ pieces, no_placeholder p.1 = true ∧ ∀ sp, p.2 = some sp → right_brace ∉ sp)
    (htail : no_placeholder tail = true) :
    well_formed (pieces.map (fun p => (p.1, inner_of_spec p.2))) tail := by
  induction pieces with
  | nil => exact htail
  | cons p ps ih =>
    obtain ⟨lit, spec⟩ := p
    have h := hp (lit, spec) (by simp)
    refine ⟨h.1, ?_, ?_, ih (fun q hq => hp q (by simp [hq]))⟩
    · cases spec with
      | none => simp [inner_of_spec]
      | some sp =>
        simp only [inner_of_spec, List.mem_cons, not_or]
        exact ⟨by decide, h.2 sp rfl⟩
    · cases spec with
      | none => simp [inner_of_spec]
      | some sp => simp [inner_of_spec]; decide

theorem denote_auto (args : List (ostream → ostream)) :
    ∀ (pieces : List (List Char × Option (List Char))) (tail : List Char) (k : Nat)
      (os : ostream),
      (∀ p ∈ pieces, no_placeholder p.1 = true) → no_placeholder tail = true →
      k + pieces.length < 2 ^ 64 →
      denote false args (pieces.map (fun p => (p.1, inner_of_spec p.2))) tail k os
        = bind_by_position args pieces tail k os := by
  intro pieces
  induction pieces with
  | nil =>
    intro tail k os _ ht _
    simp [denote, bind_by_position, emit_literal_ostream _ _ ht]
  | cons p ps ih =>
    obtain ⟨lit, spec⟩ := p
    intro tail k os hp ht hk
    have hlit := hp (lit, spec) (by simp)
    have hps : ∀ q ∈ ps, no_placeholder q.1 = true := fun q hq => hp q (by simp [hq])
    simp only [List.length_cons] at hk
    have hres : resolve_index false (inner_of_spec spec) k = .ok k := by
      cases spec <;> simp [resolve_index, inner_of_spec, until_char_nil, until_char_cons]
    have hmod : (k + 1) % 2 ^ 64 = k + 1 := Nat.mod_eq_of_lt (by omega)
    simp only [List.map_cons, denote, hres, emit_literal_ostream _ _ hlit, hmod,
      bind_by_position]
    by_cases hka : k < args.length
    · have hget : args.get? k = some (args.get ⟨k, hka⟩) := List.get?_eq_get hka
      have hgetD : args.getD k id = args.get ⟨k, hka⟩ := by
        rw [List.getD_eq_getElem _ _ hka]; rfl
      rw [hget]
      cases spec with
      | none =>
        simp only [placeholder_io, inner_of_spec, until_char_nil, if_true, hgetD,
          ge_iff_le, Nat.not_le.2 hka, if_false]
        exact ih tail (k + 1) _ hps ht (by omega)
      | some sp =>
        have hne : ¬ ([] : List Char) = colon :: sp := by simp
        simp only [placeholder_io, inner_of_spec, until_char_cons, if_true, hgetD,
          ge_iff_le, Nat.not_le.2 hka, if_false, hne, List.length_nil, Nat.zero_add,
          List.drop_succ_cons, List.drop_zero]
        cases format_arg_io false (args.get ⟨k, hka⟩) sp
            { os with out := os.out ++ collapse lit } with
        | error es => rfl
        | ok os2 =>
          simp only
          exact ih tail (k + 1) _ hps ht (by omega)
    · have hget : args.get? k = none := List.get?_eq_none.2 (by omega)
      rw [hget]
      have hge : k ≥ args.length := by omega
      simp only [placeholder_io, hge, if_true]
      rw [ih tail (k + 1) _ hps ht (by omega)]
      simp [string_view_io, string_view_io_output]

theorem bind_by_position_texts (texts : List (List Char)) :
    ∀ (pieces : List (List Char × Option (List Char))) (tail : List Char) (k : Nat)
      (os : ostream),
      (∀ p ∈ pieces, p.2 = none) → k + pieces.length ≤ texts.length →
      bind_by_position (texts.map write_text) pieces tail k os
        = .returned { os with out :=
            os.out ++ interleave (pieces.map Prod.fst) (texts.drop k) tail } := by
  intro pieces
  induction pieces with
  | nil => intro tail k os _ _; simp [bind_by_position, interleave]
  | cons p ps ih =>
    obtain ⟨lit, spec⟩ := p
    intro tail k os hp hk
    have hs : spec = none := hp (lit, spec) (by simp)
    subst hs
    simp only [List.length_cons] at hk
    have hkl : k < texts.length := by omega
    have hget : (texts.map write_text).get? k = some (write_text (texts.get ⟨k, hkl⟩)) := by
      simp [List.getElem?_eq_getElem hkl]
    have hdrop : texts.drop k = texts.get ⟨k, hkl⟩ :: texts.drop (k + 1) := by
      simp
    simp only [bind_by_position, hget]
    rw [ih tail (k + 1) _ (fun q hq => hp q (by simp [hq])) (by omega), hdrop]
    simp [interleave, write_text]

theorem decimal_from_mod (str : List Char) :
    ∀ r : Nat, decimal_from (r % 2 ^ 64) str % 2 ^ 64 = decimal_from r str % 2 ^ 64 := by
  induction str with
  | nil => intro r; simp [decimal_from]
  | cons c str ih =>
    intro r
    simp only [decimal_from, List.foldl_cons] at ih ⊢
    rw [← ih (r % 2 ^ 64 * 10 + (c.toNat - zero.toNat)), ← ih (r * 10 + (c.toNat - zero.toNat))]
    congr 2
    omega

theorem isdigit_iff (c : Char) : isdigit c = true ↔ 48 ≤ c.toNat ∧ c.toNat ≤ 57 := by
  simp [isdigit, zero, nine]

theorem stou_loop_digits (noexc : Bool) (str : List Char) :
    ∀ r : Nat, (∀ c ∈ str, isdigit c = true) → r < 2 ^ 64 →
      stou_loop wrap_size_t noexc str (r : Int)
        = .ok ((decimal_from r str % 2 ^ 64 : Nat) : Int) := by
  induction str with
  | nil =>
    intro r _ hr
    simp only [stou_loop, decimal_from, List.foldl_nil, Nat.mod_eq_of_lt hr]
  | cons c str ih =>
    intro r h hr
    have hc := (isdigit_iff c).1 (h c (by simp))
    have hs : ∀ d ∈ str, isdigit d = true := fun d hd => h d (by simp [hd])
    have hz : zero.toNat = 48 := rfl
    have e : wrap_size_t (wrap_size_t ((r : Int) * 10) + ((c.toNat : Int) - (zero.toNat : Int)))
        = (((r * 10 + (c.toNat - zero.toNat)) % 2 ^ 64 : Nat) : Int) := by
      unfold wrap_size_t
      rw [hz]
      omega
    unfold stou_loop
    simp only [h c (by simp), Bool.not_false, Bool.not_true, Bool.and_false, Bool.false_eq_true,
      if_false]
    rw [e, ih _ hs (Nat.mod_lt _ (by norm_num))]
    simp only [decimal_from, List.foldl_cons]
    have := decimal_from_mod str (r * 10 + (c.toNat - zero.toNat))
    simp only [decimal_from] at this
    rw [this]

/-- `stou<std::size_t>` of a digit string is its decimal value modulo `2 ^ 64`. -/
theorem stou_size_t_digits (noexc : Bool) (str : List Char) (h : ∀ c ∈ str, isdigit c = true) :
    stou wrap_size_t noexc str = .ok ((decimal_value str % 2 ^ 64 : Nat) : Int) := by
  have := stou_loop_digits noexc str 0 h (by norm_num)
  simpa [stou, decimal_value] using this

theorem not_mem_of_digits {idx : List Char} (h : ∀ c ∈ idx, isdigit c = true) {x : Char}
    (hx : isdigit x = false) : x ∉ idx := by
  intro hm
  rw [h x hm] at hx
  cases hx

theorem until_char_colon_inner_of (idx : List Char) (spec : Option (List Char))
    (h : ∀ c ∈ idx, isdigit c = true) : until_char colon (inner_of idx spec) = idx := by
  have hc : colon ∉ idx := not_mem_of_digits h (by decide)
  cases spec with
  | none => simpa [inner_of, inner_of_spec] using until_char_eq_self colon idx hc
  | some sp => simpa [inner_of, inner_of_spec] using until_char_append colon idx sp hc

theorem well_formed_indexed (pieces : List (List Char × List Char × Option (List Char)))
    (tail : List Char)
    (hp : ∀ p ∈ pieces, no_placeholder p.1 = true ∧ (∀ c ∈ p.2.1, isdigit c = true) ∧
      ∀ sp, p.2.2 = some sp → right_brace ∉ sp)
    (htail : no_placeholder tail = true) :
    well_formed (pieces.map (fun p => (p.1, inner_of p.2.1 p.2.2))) tail := by
  induction pieces with
  | nil => exact htail
  | cons p ps ih =>
    obtain ⟨lit, idx, spec⟩ := p
    obtain ⟨h1, h2, h3⟩ := hp (lit, idx, spec) (by simp)
    have hr : right_brace ∉ idx := not_mem_of_digits h2 (by decide)
    refine ⟨h1, ?_, ?_, ih (fun q hq => hp q (by simp [hq]))⟩
    · cases spec with
      | none => simpa [inner_of, inner_of_spec] using hr
      | some sp =>
        simp only [inner_of, inner_of_spec, List.mem_append, List.mem_cons, not_or]
        exact ⟨hr, by decide, h3 sp rfl⟩
    · cases idx with
      | nil => cases spec <;> simp [inner_of, inner_of_spec]; decide
      | cons c idx =>
        have : isdigit c = true := h2 c (by simp)
        simp only [inner_of, List.cons_append, List.head?_cons, ne_eq, Option.some.injEq]
        intro e
        rw [e] at this
        revert this
        decide

theorem denote_indexed (args : List (ostream → ostream)) :
    ∀ (pieces : List (List Char × List Char × Option (List Char))) (tail : List Char)
      (k : Nat) (os : ostream),
      (∀ p ∈ pieces, no_placeholder p.1 = true ∧ (∀ c ∈ p.2.1, isdigit c = true)) →
      no_placeholder tail = true →
      denote false args (pieces.map (fun p => (p.1, inner_of p.2.1 p.2.2))) tail k os
        = bind_by_counter args pieces tail k os := by
  intro pieces
  induction pieces with
  | nil =>
    intro tail k os _ ht
    simp [denote, bind_by_counter, emit_literal_ostream _ _ ht]
  | cons p ps ih =>
    obtain ⟨lit, idx, spec⟩ := p
    intro tail k os hp ht
    obtain ⟨hlit, hidx⟩ := hp (lit, idx, spec) (by simp)
    have hps : ∀ q ∈ ps, no_placeholder q.1 = true ∧ (∀ c ∈ q.2.1, isdigit c = true) :=
      fun q hq => hp q (by simp [hq])
    have hu := until_char_colon_inner_of idx spec hidx
    have hres : resolve_index false (inner_of idx spec) k
        = .ok (if idx = [] then k else decimal_value idx % 2 ^ 64) := by
      unfold resolve_index
      rw [hu]
      by_cases hi : idx = []
      · simp [hi]
      · simp only [hi, ne_eq, not_false_eq_true, if_true, if_false,
          stou_size_t_digits false idx hidx, Int.toNat_ofNat]
    simp only [List.map_cons, denote, hres, emit_literal_ostream _ _ hlit, bind_by_counter]
    generalize (if idx = [] then k else decimal_value idx % 2 ^ 64) = j
    by_cases hka : j < args.length
    · have hget : args.get? j = some (args.get ⟨j, hka⟩) := List.get?_eq_get hka
      have hgetD : args.getD j id = args.get ⟨j, hka⟩ := by
        rw [List.getD_eq_getElem _ _ hka]; rfl
      rw [hget]
      cases spec with
      | none =>
        have hself : inner_of idx none = idx := by simp [inner_of, inner_of_spec]
        rw [hself] at hu
        simp only [placeholder_io, hself, hu, if_true, hgetD,
          ge_iff_le, Nat.not_le.2 hka, if_false]
        exact ih tail _ _ hps ht
      | some sp =>
        have hne : ¬ idx = inner_of idx (some sp) := by
          intro e
          have := congrArg List.length e
          simp [inner_of, inner_of_spec] at this
        have hdrop : (inner_of idx (some sp)).drop (idx.length + 1) = sp := by
          simp [inner_of, inner_of_spec]
        simp only [placeholder_io, hu, hgetD, ge_iff_le, Nat.not_le.2 hka, if_false, hne, hdrop]
        cases format_arg_io false (args.get ⟨j, hka⟩) sp
            { os with out := os.out ++ collapse lit } with
        | error es => rfl
        | ok os2 =>
          simp only
          exact ih tail _ _ hps ht
    · have hget : args.get? j = none := List.get?_eq_none.2 (by omega)
      rw [hget]
      have hge : j ≥ args.length := by omega
      simp only [placeholder_io, hge, if_true]
      rw [ih tail _ _ hps ht]
      simp [string_view_io, string_view_io_output]

/-- Printing a well-formed template whose index texts are digits, in strict mode. -/
theorem format_string_view_indexed (args : List (ostream → ostream))
    (pieces : List (List Char × List Char × Option (List Char))) (tail : List Char)
    (os : ostream)
    (hp : ∀ p ∈ pieces, no_placeholder p.1 = true ∧ (∀ c ∈ p.2.1, isdigit c = true) ∧
      ∀ sp, p.2.2 = some sp → right_brace ∉ sp)
    (htail : no_placeholder tail = true) :
    format_string_view false (indexed_template pieces tail) args os
      = bind_by_counter args pieces tail 0 os := by
  unfold indexed_template
  rw [format_string_view_pieces false args _ tail os (well_formed_indexed pieces tail hp htail)]
  exact denote_indexed args pieces tail 0 os (fun p h => ⟨(hp p h).1, (hp p h).2.1⟩) htail

theorem resolve_index_digits (noexc : Bool) (inner : List Char) (counter : Nat)
    (h : ∀ c ∈ index_text inner, isdigit c = true) :
    resolve_index noexc inner counter = .ok (resolved_index inner counter) := by
  unfold resolve_index resolved_index index_text
  by_cases hi : until_char colon inner = []
  · simp [hi]
  · simp only [hi, ne_eq, not_false_eq_true, if_true, if_false,
      stou_size_t_digits noexc _ h, Int.toNat_ofNat]

theorem format_setf_methods_eq_none {σ : Type} [stream_type σ] (c : Char) :
    (format_setf_methods c : Option (σ → Int → σ × fmtflags)) = none ↔ c ∉ directive_chars := by
  unfold format_setf_methods
  by_cases h0 : c = cdec
  · rw [if_pos h0]
    simp [h0, directive_chars]
  rw [if_neg h0]
  by_cases h1 : c = coct
  · rw [if_pos h1]
    simp [h1, directive_chars]
  rw [if_neg h1]
  by_cases h2 : c = chex
  · rw [if_pos h2]
    simp [h2, directive_chars]
  rw [if_neg h2]
  by_cases h3 : c = csci
  · rw [if_pos h3]
    simp [h3, directive_chars]
  rw [if_neg h3]
  by_cases h4 : c = cfix
  · rw [if_pos h4]
    simp [h4, directive_chars]
  rw [if_neg h4]
  by_cases h5 : c = clft
  · rw [if_pos h5]
    simp [h5, directive_chars]
  rw [if_neg h5]
  by_cases h6 : c = crit
  · rw [if_pos h6]
    simp [h6, directive_chars]
  rw [if_neg h6]
  by_cases h7 : c = citn
  · rw [if_pos h7]
    simp [h7, directive_chars]
  rw [if_neg h7]
  by_cases h8 : c = cbla
  · rw [if_pos h8]
    simp [h8, directive_chars]
  rw [if_neg h8]
  by_cases h9 : c = cupc
  · rw [if_pos h9]
    simp [h9, directive_chars]
  rw [if_neg h9]
  by_cases h10 : c = cgen
  · rw [if_pos h10]
    simp [h10, directive_chars]
  rw [if_neg h10]
  simp [directive_chars, h0, h1, h2, h3, h4, h5, h6, h7, h8, h9, h10]

theorem stou_loop_int_digits (noexc : Bool) (d : List Char) :
    ∀ r : Int, (∀ c ∈ d, isdigit c = true) →
      stou_loop wrap_int noexc d r
        = .ok (d.foldl
            (fun r c => wrap_int (wrap_int (r * 10) + ((c.toNat : Int) - (zero.toNat : Int))))
            r) := by
  induction d with
  | nil => intro r _; rfl
  | cons c d ih =>
    intro r h
    unfold stou_loop
    simp only [h c (by simp), Bool.not_true, Bool.and_false, Bool.false_eq_true, if_false,
      List.foldl_cons]
    exact ih _ (fun x hx => h x (by simp [hx]))

theorem stou_int_digits (noexc : Bool) (d : List Char) (h : ∀ c ∈ d, isdigit c = true) :
    stou wrap_int noexc d = .ok (int_value d) :=
  stou_loop_int_digits noexc d 0 h

theorem format_arg_io_loop_succ {σ : Type} [stream_type σ] (noexc : Bool) (fmts : List Char)
    (n index offset : Nat) (oldf : fmtflags) (stream : σ) :
    format_arg_io_loop noexc fmts (n + 1) index offset oldf stream =
      if index ≤ fmts.length then
        if index = fmts.length ∨ nth fmts index = comma then
          match (if (index + 2 ^ 64 - offset - 1) % 2 ^ 64 > 0 then
              match substr_checked fmts (offset + 1) ((index + 2 ^ 64 - offset - 1) % 2 ^ 64) with
              | .ok str => stou wrap_int noexc str
              | .error e => .error e
            else .ok 0 : Except exception Int) with
          | .error e => .error (e, stream)
          | .ok fmtf =>
            match format_setf_methods (nth fmts offset) with
            | some method =>
              format_arg_io_loop noexc fmts n (index + 1) (index + 1)
                (oldf ||| (method stream fmtf).2) (method stream fmtf).1
            | none =>
              if noexc then format_arg_io_loop noexc fmts n (index + 1) (index + 1) oldf stream
              else .error (.invalid_directive, stream)
        else format_arg_io_loop noexc fmts n (index + 1) offset oldf stream
      else .ok (oldf, stream) := rfl

/-- The loop of `format_arg_io` over `m` characters that are not commas. -/
theorem format_arg_io_loop_skip {σ : Type} [stream_type σ] (noexc : Bool) (fmts : List Char) :
    ∀ (m index offset n : Nat) (oldf : fmtflags) (s : σ),
      (∀ i, index ≤ i → i < index + m → i < fmts.length ∧ nth fmts i ≠ comma) →
      format_arg_io_loop noexc fmts (n + m) index offset oldf s
        = format_arg_io_loop noexc fmts n (index + m) offset oldf s := by
  intro m
  induction m with
  | zero => intro index offset n oldf s _; rfl
  | succ m ih =>
    intro index offset n oldf s h
    obtain ⟨h1, h2⟩ := h index (le_refl _) (by omega)
    rw [show n + (m + 1) = (n + m) + 1 by omega, format_arg_io_loop_succ]
    have h3 : ¬ (index = fmts.length ∨ nth fmts index = comma) := by
      intro hh; rcases hh with hh | hh
      · omega
      · exact h2 hh
    rw [if_pos (by omega), if_neg h3, ih (index + 1) offset n oldf s
      (fun i hi1 hi2 => h i (by omega) (by omega))]
    congr 1
    omega

theorem nth_of_drop_append {fmts : List Char} {offset : Nat} {a b : List Char}
    (hd : fmts.drop offset = a ++ b) (j : Nat) (hj : j < a.length) :
    offset + j < fmts.length ∧ nth fmts (offset + j) = a.getD j (Char.ofNat 0) := by
  have hlen := congrArg List.length hd
  simp only [List.length_drop, List.length_append] at hlen
  refine ⟨by omega, ?_⟩
  unfold nth
  rw [List.getD_eq_getElem?_getD, List.getD_eq_getElem?_getD, ← List.getElem?_drop, hd,
    List.getElem?_append_left hj]

/-- The loop of `format_arg_io` over one clause `c :: d` without comma, followed by a
comma or by the end of the spec. -/
theorem format_arg_io_loop_clause_gen {σ : Type} [stream_type σ] (noexc : Bool)
    (fmts : List Char) (hlen : fmts.length < 2 ^ 64) (offset n : Nat) (oldf : fmtflags)
    (s : σ) (c : Char) (d rest : List Char) (hd : fmts.drop offset = (c :: d) ++ rest)
    (hc : c ≠ comma) (hcomma : comma ∉ d)
    (hrest : rest = [] ∨ ∃ r, rest = comma :: r) :
    format_arg_io_loop noexc fmts (n + 1 + (d.length + 1)) offset offset oldf s =
      match (if d.length > 0 then stou wrap_int noexc d else .ok 0 : Except exception Int) with
      | .error e => .error (e, s)
      | .ok fmtf =>
        match format_setf_methods c with
        | some method =>
          format_arg_io_loop noexc fmts n (offset + d.length + 2) (offset + d.length + 2)
            (oldf ||| (method s fmtf).2) (method s fmtf).1
        | none =>
          if noexc then
            format_arg_io_loop noexc fmts n (offset + d.length + 2) (offset + d.length + 2) oldf s
          else .error (.invalid_directive, s) := by
  have hskip : ∀ i, offset ≤ i → i < offset + (d.length + 1) →
      i < fmts.length ∧ nth fmts i ≠ comma := by
    intro i h1 h2
    obtain ⟨j, rfl⟩ : ∃ j, i = offset + j := ⟨i - offset, by omega⟩
    obtain ⟨h3, h4⟩ := nth_of_drop_append hd j (by simp; omega)
    refine ⟨h3, ?_⟩
    rw [h4]
    cases j with
    | zero => simpa using hc
    | succ j =>
      have hj : j < d.length := by omega
      simp only [List.getD_cons_succ, List.getD_eq_getElem _ _ hj]
      intro e
      exact hcomma (e ▸ List.getElem_mem _)
  rw [format_arg_io_loop_skip noexc fmts (d.length + 1) offset offset (n + 1) oldf s hskip,
    format_arg_io_loop_succ]
  have hl := congrArg List.length hd
  simp only [List.length_drop, List.length_append, List.length_cons] at hl
  have hle : offset + (d.length + 1) ≤ fmts.length := by omega
  have hend : offset + (d.length + 1) = fmts.length ∨ nth fmts (offset + (d.length + 1)) = comma := by
    rcases hrest with hr | ⟨r, hr⟩
    · left; subst hr; simp at hl; omega
    · right
      subst hr
      have hd' : fmts.drop offset = (c :: d ++ [comma]) ++ r := by simpa using hd
      have := (nth_of_drop_append hd' (d.length + 1) (by simp)).2
      rw [this]
      simp [List.getD_eq_getElem?_getD, List.getElem?_append_right]
  have hfmtc : nth fmts offset = c := by
    have := (nth_of_drop_append hd 0 (by simp)).2
    simpa using this
  have hlen' : (offset + (d.length + 1) + 2 ^ 64 - offset - 1) % 2 ^ 64 = d.length := by
    have : offset + (d.length + 1) + 2 ^ 64 - offset - 1 = d.length + 2 ^ 64 := by omega
    rw [this, Nat.add_mod_right, Nat.mod_eq_of_lt (by omega)]
  have hsub : d.length > 0 → substr_checked fmts (offset + 1) d.length = .ok d := by
    intro _
    unfold substr_checked substr
    rw [if_neg (by omega), ← List.drop_drop, hd]
    simp
  have hfmtf : (if (offset + (d.length + 1) + 2 ^ 64 - offset - 1) % 2 ^ 64 > 0 then
        match substr_checked fmts (offset + 1)
            ((offset + (d.length + 1) + 2 ^ 64 - offset - 1) % 2 ^ 64) with
        | .ok str => stou wrap_int noexc str
        | .error e => .error e
      else .ok 0 : Except exception Int)
      = (if d.length > 0 then stou wrap_int noexc d else .ok 0) := by
    rw [hlen']
    by_cases h0 : d.length > 0
    · rw [if_pos h0, if_pos h0, hsub h0]
    · rw [if_neg h0, if_neg h0]
  rw [if_pos hle, if_pos hend, hfmtf, hfmtc]
  simp only [show offset + (d.length + 1) + 1 = offset + d.length + 2 by omega]

/-- The loop of `format_arg_io` over one clause `c :: d` with digits `d`, followed by
a comma or by the end of the spec. -/
theorem format_arg_io_loop_clause {σ : Type} [stream_type σ] (noexc : Bool) (fmts : List Char)
    (hlen : fmts.length < 2 ^ 64) (offset n : Nat) (oldf : fmtflags) (s : σ) (c : Char)
    (d rest : List Char) (hd : fmts.drop offset = (c :: d) ++ rest)
    (hc : c ≠ comma) (hdig : ∀ x ∈ d, isdigit x = true)
    (hrest : rest = [] ∨ ∃ r, rest = comma :: r) :
    format_arg_io_loop noexc fmts (n + 1 + (d.length + 1)) offset offset oldf s =
      match format_setf_methods c with
      | some method =>
        format_arg_io_loop noexc fmts n (offset + d.length + 2) (offset + d.length + 2)
          (oldf ||| (method s (int_value d)).2) (method s (int_value d)).1
      | none =>
        if noexc then
          format_arg_io_loop noexc fmts n (offset + d.length + 2) (offset + d.length + 2) oldf s
        else .error (.invalid_directive, s) := by
  have hcomma : comma ∉ d := not_mem_of_digits hdig (by decide)
  have hfmtf : (if d.length > 0 then stou wrap_int noexc d else .ok 0 : Except exception Int)
      = .ok (int_value d) := by
    by_cases h0 : d.length > 0
    · rw [if_pos h0]
      exact stou_int_digits noexc d hdig
    · rw [if_neg h0]
      have : d = [] := List.length_eq_zero.1 (by omega)
      subst this
      rfl
  rw [format_arg_io_loop_clause_gen noexc fmts hlen offset n oldf s c d rest hd hc hcomma hrest,
    hfmtf]

theorem format_arg_io_loop_past_end {σ : Type} [stream_type σ] (noexc : Bool)
    (fmts : List Char) (n index offset : Nat) (oldf : fmtflags) (s : σ)
    (h : fmts.length < index) :
    format_arg_io_loop noexc fmts n index offset oldf s = .ok (oldf, s) := by
  cases n with
  | zero => rfl
  | succ n => rw [format_arg_io_loop_succ, if_neg (by omega)]

theorem join_clauses_cons_cons (c : Char) (d : List Char) (cl : Char × List Char)
    (cls : List (Char × List Char)) :
    join_clauses ((c, d) :: cl :: cls) = (c :: d) ++ comma :: join_clauses (cl :: cls) := by
  simp [join_clauses]

/-- The loop of `format_arg_io` on a spec of non-empty clauses with digit parameters. -/
theorem format_arg_io_loop_clauses {σ : Type} [stream_type σ] (noexc : Bool) (fmts : List Char)
    (hlen : fmts.length < 2 ^ 64) :
    ∀ (cls : List (Char × List Char)) (cl : Char × List Char) (offset n : Nat)
      (oldf : fmtflags) (s : σ),
      fmts.drop offset = join_clauses (cl :: cls) →
      (∀ x ∈ cl :: cls, x.1 ≠ comma ∧ ∀ c ∈ x.2, isdigit c = true) →
      (join_clauses (cl :: cls)).length + 1 ≤ n →
      format_arg_io_loop noexc fmts n offset offset oldf s
        = apply_clauses noexc (cl :: cls) oldf s := by
  intro cls
  induction cls with
  | nil =>
    intro cl offset n oldf s hd hv hn
    obtain ⟨c, d⟩ := cl
    obtain ⟨hc, hdig⟩ := hv (c, d) (by simp)
    simp only [join_clauses, List.length_cons] at hn
    obtain ⟨n, rfl⟩ : ∃ n', n = n' + 1 + (d.length + 1) := ⟨n - (d.length + 2), by omega⟩
    have hl := congrArg List.length hd
    simp only [List.length_drop, join_clauses, List.length_cons] at hl
    rw [format_arg_io_loop_clause noexc fmts hlen offset n oldf s c d [] (by simpa [join_clauses] using hd)
      hc hdig (Or.inl rfl)]
    simp only [apply_clauses]
    cases hm : (format_setf_methods c : Option (σ → Int → σ × fmtflags)) with
    | some method =>
      simp only
      exact format_arg_io_loop_past_end noexc fmts n _ _ _ _ (by omega)
    | none =>
      cases noexc
      · rfl
      · simp only [if_true]
        exact format_arg_io_loop_past_end true fmts n _ _ _ _ (by omega)
  | cons cl1 cls ih =>
    intro cl offset n oldf s hd hv hn
    obtain ⟨c, d⟩ := cl
    obtain ⟨hc, hdig⟩ := hv (c, d) (by simp)
    have hv1 : ∀ x ∈ cl1 :: cls, x.1 ≠ comma ∧ ∀ c ∈ x.2, isdigit c = true :=
      fun x hx => hv x (by simp only [List.mem_cons] at hx ⊢; exact Or.inr hx)
    rw [join_clauses_cons_cons] at hd hn
    simp only [List.length_append, List.length_cons] at hn
    obtain ⟨n, rfl⟩ : ∃ n', n = n' + 1 + (d.length + 1) := ⟨n - (d.length + 2), by omega⟩
    have hd1 : fmts.drop (offset + d.length + 2) = join_clauses (cl1 :: cls) := by
      rw [show offset + d.length + 2 = offset + (d.length + 2) by omega, ← List.drop_drop, hd]
      simp [List.drop_append]
    rw [format_arg_io_loop_clause noexc fmts hlen offset n oldf s c d _ hd hc hdig
      (Or.inr ⟨_, rfl⟩)]
    simp only [apply_clauses]
    cases hm : (format_setf_methods c : Option (σ → Int → σ × fmtflags)) with
    | some method =>
      simp only
      exact ih cl1 _ n _ _ hd1 hv1 (by omega)
    | none =>
      cases noexc
      · rfl
      · simp only [if_true]
        exact ih cl1 _ n _ _ hd1 hv1 (by omega)

/-- `format_arg_io` on a spec of non-empty clauses with digit parameters: the
directives in order, then the argument, then the flags put back by `setf`. -/
theorem format_arg_io_clauses {σ : Type} [stream_type σ] (noexc : Bool) (ori : σ → σ)
    (cl : Char × List Char) (cls : List (Char × List Char)) (s : σ)
    (hv : ∀ x ∈ cl :: cls, x.1 ≠ comma ∧ ∀ c ∈ x.2, isdigit c = true)
    (hlen : (join_clauses (cl :: cls)).length < 2 ^ 64) :
    format_arg_io noexc ori (join_clauses (cl :: cls)) s =
      match apply_clauses noexc (cl :: cls) 0 s with
      | .error e => .error e
      | .ok (oldf, s1) => if oldf ≠ 0 then .ok (setf (ori s1) oldf).1 else .ok (ori s1) := by
  unfold format_arg_io
  rw [format_arg_io_loop_clauses noexc _ hlen cls cl 0 _ 0 s rfl hv (le_refl _)]

theorem apply_clauses_error {σ : Type} [stream_type σ] :
    ∀ (cls : List (Char × List Char)) (oldf : fmtflags) (s : σ) (e : exception) (s1 : σ),
      apply_clauses false cls oldf s = .error (e, s1) →
      e = .invalid_directive ∧ ∃ x ∈ cls, x.1 ∉ directive_chars := by
  intro cls
  induction cls with
  | nil => intro oldf s e s1 h; simp [apply_clauses] at h
  | cons cl cls ih =>
    obtain ⟨c, d⟩ := cl
    intro oldf s e s1 h
    simp only [apply_clauses] at h
    cases hm : (format_setf_methods c : Option (σ → Int → σ × fmtflags)) with
    | some method =>
      rw [hm] at h
      obtain ⟨h1, x, hx, h2⟩ := ih _ _ e s1 h
      exact ⟨h1, x, by simp [hx], h2⟩
    | none =>
      rw [hm] at h
      simp only [Bool.false_eq_true, if_false, Except.error.injEq, Prod.mk.injEq] at h
      exact ⟨h.1.symm, (c, d), by simp, (format_setf_methods_eq_none c).1 hm⟩

theorem apply_clauses_of_unknown {σ : Type} [stream_type σ] :
    ∀ (cls : List (Char × List Char)) (oldf : fmtflags) (s : σ),
      (∃ x ∈ cls, x.1 ∉ directive_chars) →
      ∃ s1, apply_clauses false cls oldf s = .error (.invalid_directive, s1) := by
  intro cls
  induction cls with
  | nil => intro oldf s h; simp at h
  | cons cl cls ih =>
    obtain ⟨c, d⟩ := cl
    intro oldf s h
    simp only [apply_clauses]
    cases hm : (format_setf_methods c : Option (σ → Int → σ × fmtflags)) with
    | some method =>
      simp only
      apply ih
      obtain ⟨x, hx, h2⟩ := h
      simp only [List.mem_cons] at hx
      rcases hx with rfl | hx
      · exact absurd ((format_setf_methods_eq_none (σ := σ) _).2 h2) (by simp [hm])
      · exact ⟨x, hx, h2⟩
    | none => exact ⟨s, by simp⟩

/-- An iteration at an in-range placeholder with digits (or nothing) as index text
and a spec: `format_arg_io` of the resolved argument decides the result. -/
theorem step_placeholder_spec {σ : Type} [stream_type σ] (noexc : Bool) (fmt : List Char)
    (args : List (σ → σ)) (stream : σ) (k : Nat) (st : loop_state σ)
    (idx spec post : List Char) (hr : reaches noexc fmt args stream k st)
    (hn : st.in_number = true)
    (hd : fmt.drop st.offset = idx ++ colon :: (spec ++ right_brace :: post))
    (hi : right_brace ∉ spec) (hdig : ∀ c ∈ idx, isdigit c = true)
    (hlt : (if idx = [] then st.arg_index else decimal_value idx % 2 ^ 64) < args.length) :
    step noexc fmt args st =
      match format_arg_io noexc
          (args.getD (if idx = [] then st.arg_index else decimal_value idx % 2 ^ 64) id)
          spec st.stream with
      | .ok s1 =>
        .next { offset := st.offset + (idx ++ colon :: spec).length + 1, in_number := false,
                arg_index :=
                  ((if idx = [] then st.arg_index else decimal_value idx % 2 ^ 64) + 1) % 2 ^ 64,
                stream := s1 }
      | .error (e, s1) => .thrown e s1 := by
  have hl : st.offset < fmt.length := lt_length_of_drop_ne_nil (by rw [hd]; simp)
  obtain ⟨h1, h2⟩ := reaches_open_brace hr hn (by omega)
  have hd' : fmt.drop st.offset = (idx ++ colon :: spec) ++ right_brace :: post := by
    simpa using hd
  rw [hd'] at h2
  have hrb : right_brace ∉ idx ++ colon :: spec := by
    simp only [List.mem_append, List.mem_cons, not_or]
    exact ⟨not_mem_of_digits hdig (by decide), by decide, hi⟩
  have hu : until_char colon (idx ++ colon :: spec) = idx :=
    until_char_append colon idx spec (not_mem_of_digits hdig (by decide))
  have hres : resolve_index noexc (idx ++ colon :: spec) st.arg_index
      = .ok (if idx = [] then st.arg_index else decimal_value idx % 2 ^ 64) := by
    have := resolve_index_digits noexc (idx ++ colon :: spec) st.arg_index
      (by rw [index_text, hu]; exact hdig)
    rw [this, resolved_index, index_text, hu]
  rw [step_placeholder noexc fmt args st _ post hn h1 h2 hrb, hres]
  have hne : ¬ idx = idx ++ colon :: spec := by
    intro e
    have := congrArg List.length e
    simp at this
  have hdrop : (idx ++ colon :: spec).drop (idx.length + 1) = spec := by
    have : idx ++ colon :: spec = (idx ++ [colon]) ++ spec := by simp
    rw [this]
    exact List.drop_left' (by simp)
  simp only [placeholder_io, hu, ge_iff_le, Nat.not_le.2 hlt, if_false, hne, hdrop]

theorem stou_loop_error (wrap : Int → Int) (str : List Char) :
    ∀ (r : Int) (e : exception), stou_loop wrap false str r = .error e →
      e = .not_a_number ∧ ∃ c ∈ str, isdigit c = false := by
  induction str with
  | nil => intro r e h; simp [stou_loop] at h
  | cons c str ih =>
    intro r e h
    unfold stou_loop at h
    by_cases hc : isdigit c = true
    · simp only [hc, Bool.not_false, Bool.not_true, Bool.and_false, Bool.false_eq_true,
        if_false] at h
      obtain ⟨h1, x, hx, h2⟩ := ih _ e h
      exact ⟨h1, x, by simp [hx], h2⟩
    · have hc : isdigit c = false := by simpa using hc
      simp only [hc, Bool.not_false, Bool.and_self, if_true, Except.error.injEq] at h
      exact ⟨h.symm, c, by simp, hc⟩

theorem stou_loop_of_non_digit (wrap : Int → Int) (str : List Char) :
    ∀ (r : Int), (∃ c ∈ str, isdigit c = false) →
      stou_loop wrap false str r = .error .not_a_number := by
  induction str with
  | nil => intro r h; simp at h
  | cons c str ih =>
    intro r h
    unfold stou_loop
    by_cases hc : isdigit c = true
    · simp only [hc, Bool.not_false, Bool.not_true, Bool.and_false, Bool.false_eq_true,
        if_false]
      apply ih
      obtain ⟨x, hx, h2⟩ := h
      simp only [List.mem_cons] at hx
      rcases hx with rfl | hx
      · rw [hc] at h2; cases h2
      · exact ⟨x, hx, h2⟩
    · have hc : isdigit c = false := by simpa using hc
      simp [hc]

/-- The loop of `format_arg_io` over clauses with digit parameters, each followed by a
comma. -/
theorem format_arg_io_loop_prefix {σ : Type} [stream_type σ] (noexc : Bool) (fmts : List Char)
    (hlen : fmts.length < 2 ^ 64) :
    ∀ (cls : List (Char × List Char)) (rest : List Char) (offset n : Nat)
      (oldf : fmtflags) (s : σ),
      fmts.drop offset = prefix_clauses cls ++ rest →
      (∀ x ∈ cls, x.1 ≠ comma ∧ ∀ c ∈ x.2, isdigit c = true) →
      format_arg_io_loop noexc fmts (n + (prefix_clauses cls).length) offset offset oldf s =
        match apply_clauses noexc cls oldf s with
        | .error e => .error e
        | .ok (oldf1, s1) =>
          format_arg_io_loop noexc fmts n (offset + (prefix_clauses cls).length)
            (offset + (prefix_clauses cls).length) oldf1 s1 := by
  intro cls
  induction cls with
  | nil => intro rest offset n oldf s _ _; rfl
  | cons cl cls ih =>
    obtain ⟨c, d⟩ := cl
    intro rest offset n oldf s hd hv
    obtain ⟨hc, hdig⟩ := hv (c, d) (by simp)
    have hv1 : ∀ x ∈ cls, x.1 ≠ comma ∧ ∀ c ∈ x.2, isdigit c = true :=
      fun x hx => hv x (by simp [hx])
    have hd0 : fmts.drop offset = (c :: d) ++ (comma :: (prefix_clauses cls ++ rest)) := by
      simpa [prefix_clauses] using hd
    have hd1 : fmts.drop (offset + d.length + 2) = prefix_clauses cls ++ rest := by
      rw [show offset + d.length + 2 = offset + (d.length + 2) by omega, ← List.drop_drop, hd0]
      simp [List.drop_append]
    have hl : (prefix_clauses ((c, d) :: cls)).length = (prefix_clauses cls).length + (d.length + 2) := by
      simp [prefix_clauses]; omega
    rw [hl, show n + ((prefix_clauses cls).length + (d.length + 2))
        = (n + (prefix_clauses cls).length) + 1 + (d.length + 1) by omega,
      format_arg_io_loop_clause noexc fmts hlen offset _ oldf s c d _ hd0 hc hdig
        (Or.inr ⟨_, rfl⟩)]
    simp only [apply_clauses]
    have e : offset + ((prefix_clauses cls).length + (d.length + 2))
        = offset + d.length + 2 + (prefix_clauses cls).length := by omega
    cases hm : (format_setf_methods c : Option (σ → Int → σ × fmtflags)) with
    | some method =>
      simp only
      rw [ih rest _ n _ _ hd1 hv1, e]
    | none =>
      cases noexc
      · rfl
      · simp only [if_true]
        rw [ih rest _ n _ _ hd1 hv1, e]

theorem apply_clauses_known {σ : Type} [stream_type σ] :
    ∀ (cls : List (Char × List Char)) (oldf : fmtflags) (s : σ),
      (∀ x ∈ cls, x.1 ∈ directive_chars) →
      ∃ oldf1 s1, apply_clauses false cls oldf s = .ok (oldf1, s1) := by
  intro cls oldf s h
  cases ha : apply_clauses false cls oldf s with
  | ok r => exact ⟨r.1, r.2, rfl⟩
  | error es =>
    obtain ⟨e, s1⟩ := es
    obtain ⟨_, x, hx, h2⟩ := apply_clauses_error cls oldf s e s1 ha
    exact absurd (h x hx) h2

/-- `format_arg_io` in strict mode on a spec whose first clauses are valid and
followed by a clause with a parameter that is not all digits. -/
theorem format_arg_io_not_a_number {σ : Type} [stream_type σ] (ori : σ → σ)
    (good : List (Char × List Char)) (c : Char) (params rest : List Char) (s : σ)
    (hv : ∀ x ∈ good, x.1 ∈ directive_chars ∧ ∀ c ∈ x.2, isdigit c = true)
    (hc : c ≠ comma) (hcomma : comma ∉ params) (hbad : ∃ x ∈ params, isdigit x = false)
    (hrest : rest = [] ∨ ∃ r, rest = comma :: r)
    (hlen : (prefix_clauses good ++ (c :: params) ++ rest).length < 2 ^ 64) :
    ∃ oldf s1, apply_clauses false good 0 s = .ok (oldf, s1) ∧
      format_arg_io false ori (prefix_clauses good ++ (c :: params) ++ rest) s
        = .error (.not_a_number, s1) := by
  obtain ⟨oldf, s1, ha⟩ := apply_clauses_known good 0 s (fun x hx => (hv x hx).1)
  refine ⟨oldf, s1, ha, ?_⟩
  have hv1 : ∀ x ∈ good, x.1 ≠ comma ∧ ∀ c ∈ x.2, isdigit c = true := by
    intro x hx
    refine ⟨?_, (hv x hx).2⟩
    intro e
    have := (hv x hx).1
    rw [e] at this
    revert this
    decide
  have hpos : params.length > 0 := by
    obtain ⟨x, hx, _⟩ := hbad
    exact List.length_pos_of_mem hx
  unfold format_arg_io
  have hn : (prefix_clauses good ++ (c :: params) ++ rest).length + 1
      = (rest.length + 1 + (params.length + 1)) + (prefix_clauses good).length := by
    simp only [List.length_append, List.length_cons]; omega
  rw [hn, format_arg_io_loop_prefix false _ hlen good ((c :: params) ++ rest) 0 _ 0 s
    (by simp) hv1, ha]
  simp only
  rw [format_arg_io_loop_clause_gen false _ hlen _ rest.length oldf s1 c params rest
    (by simp) hc hcomma hrest, if_pos hpos]
  have : stou wrap_int false params = .error .not_a_number :=
    stou_loop_of_non_digit wrap_int params 0 hbad
  rw [this]

theorem digitChar_spec : ∀ d : Nat, d < 10 →
    (Nat.digitChar d).toNat = 48 + d ∧ isdigit (Nat.digitChar d) = true := by
  decide

theorem decimal_from_append (r : Nat) (a b : List Char) :
    decimal_from r (a ++ b) = decimal_from (decimal_from r a) b := by
  simp [decimal_from, List.foldl_append]

/-- With fuel above `n`, `Nat.toDigitsCore` in base ten puts in front of its accumulator
a non-empty run of digits that reads as `n`. -/
theorem toDigitsCore_digits :
    ∀ (fuel n : Nat) (acc : List Char), n < fuel →
      ∃ ds : List Char, (∀ c ∈ ds, isdigit c = true) ∧
        (∀ r, decimal_from r ds = r * 10 ^ ds.length + n) ∧ ds ≠ [] ∧
        Nat.toDigitsCore 10 fuel n acc = ds ++ acc := by
  intro fuel
  induction fuel with
  | zero => intro n acc h; omega
  | succ fuel ih =>
    intro n acc h
    have hd := digitChar_spec (n % 10) (Nat.mod_lt _ (by norm_num))
    have hz : zero.toNat = 48 := rfl
    unfold Nat.toDigitsCore
    by_cases h0 : n / 10 = 0
    · simp only [h0, if_true]
      refine ⟨[Nat.digitChar (n % 10)], ?_, ?_, by simp, rfl⟩
      · intro c hc
        simp only [List.mem_singleton] at hc
        rw [hc]; exact hd.2
      · intro r
        simp only [decimal_from, List.foldl_cons, List.foldl_nil, hd.1, hz, List.length_singleton]
        omega
    · simp only [h0, if_false]
      have hq : n / 10 < fuel := by omega
      rcases ih _ (Nat.digitChar (n % 10) :: acc) hq with ⟨ds, h3, h4, _, h1⟩
      exists ds ++ [Nat.digitChar (n % 10)]
      refine ⟨?_, ?_, by simp, by rw [h1]; simp⟩
      · intro c hc
        simp only [List.mem_append, List.mem_singleton] at hc
        rcases hc with hc | hc
        · exact h3 c hc
        · rw [hc]; exact hd.2
      · intro r
        rw [decimal_from_append, h4 r]
        simp only [decimal_from, List.foldl_cons, List.foldl_nil, hd.1, hz, List.length_append,
          List.length_singleton, pow_succ]
        have := Nat.div_add_mod n 10
        have e : 48 + n % 10 - 48 = n % 10 := by omega
        rw [e]
        nlinarith [this]

/-- The decimal digits of `n`: digits only, at least one, with value `n`. -/
theorem toDigits_spec (n : Nat) :
    Nat.toDigits 10 n ≠ [] ∧ (∀ c ∈ Nat.toDigits 10 n, isdigit c = true) ∧
      decimal_value (Nat.toDigits 10 n) = n := by
  obtain ⟨ds, h3, h4, h2, h1⟩ := toDigitsCore_digits (n + 1) n [] (by omega)
  have : Nat.toDigits 10 n = ds := by simpa [Nat.toDigits] using h1
  rw [this]
  refine ⟨h2, h3, ?_⟩
  simpa [decimal_value] using h4 0

theorem skip_spaces_run :
    ∀ (sp : List Char) (n : Nat) (is : istream) (y : Char) (Y : List Char),
      is.good = true → is.buf = sp ++ y :: Y → (∀ c ∈ sp, skipped c) → ¬ skipped y →
      sp.length + 1 ≤ n → skip_spaces n is = { is with buf := y :: Y } := by
  intro sp
  induction sp with
  | nil =>
    intro n is y Y hg hb _ hy hn
    obtain ⟨n, rfl⟩ : ∃ m, n = m + 1 := ⟨n - 1, by omega⟩
    simp only [List.nil_append] at hb
    have hy' : ¬ (y = space ∨ y = tab ∨ y = vtab ∨ y = cr ∨ y = lf) := hy
    simp only [skip_spaces, istream.peek, hg, Bool.not_true, Bool.false_eq_true, if_false, hb,
      hy']
    cases is
    simp_all
  | cons c sp ih =>
    intro n is y Y hg hb hsp hy hn
    obtain ⟨n, rfl⟩ : ∃ m, n = m + 1 := ⟨n - 1, by simp at hn; omega⟩
    have hc : c = space ∨ c = tab ∨ c = vtab ∨ c = cr ∨ c = lf := hsp c (by simp)
    simp only [List.cons_append] at hb
    simp only [skip_spaces, istream.peek, istream.get, hg, Bool.not_true, Bool.false_eq_true,
      if_false, hb, hc, if_true]
    rw [ih n _ y Y (by simpa [istream.good] using hg) rfl (fun x hx => hsp x (by simp [hx])) hy
      (by simp at hn; omega)]

theorem discard_until_head (c : Char) (n : Nat) (is : istream) (Y : List Char)
    (hg : is.good = true) (hb : is.buf = c :: Y) :
    discard_until c (n + 1) is = { is with buf := Y } := by
  simp [discard_until, istream.get, hg, hb]

theorem plain_not_skipped {c : Char} (h : plain c = true) (hs : c ≠ space) : ¬ skipped c := by
  intro hk
  have h1 : isspace c = true := by
    unfold isspace
    rcases hk with h | h | h | h | h <;> simp [h]
  simp only [plain, Bool.and_eq_true, Bool.or_eq_true, decide_eq_true_eq, Bool.not_eq_true'] at h
  rcases h.2 with h2 | h2
  · exact hs h2
  · rw [h1] at h2; cases h2

theorem isdigit_not_skipped {c : Char} (h : isdigit c = true) : ¬ skipped c := by
  intro hk
  rcases hk with h1 | h1 | h1 | h1 | h1 <;> (rw [h1] at h; revert h; decide)

/-- Dropping `j` of the leading spaces leaves the other leading spaces and the rest. -/
theorem drop_leading_spaces :
    ∀ (q : List Char) (j : Nat), j ≤ leading_spaces q →
      q.drop j = List.replicate (leading_spaces q - j) space ++ q.drop (leading_spaces q) := by
  intro q
  induction q with
  | nil => intro j _; simp [leading_spaces]
  | cons c q ih =>
    intro j hj
    by_cases hc : c = space
    · have hl : leading_spaces (c :: q) = leading_spaces q + 1 := by
        simp [leading_spaces, List.takeWhile_cons, hc]
      rw [hl] at hj ⊢
      cases j with
      | zero =>
        have := ih 0 (by omega)
        simp only [List.drop_zero, Nat.sub_zero] at this
        simp only [List.drop_zero, Nat.sub_zero, List.drop_succ_cons, List.replicate_succ,
          List.cons_append, ← this, hc]
      | succ j =>
        simp only [List.drop_succ_cons, Nat.add_sub_add_right]
        exact ih j (by omega)
    · have hl : leading_spaces (c :: q) = 0 := by
        simp [leading_spaces, List.takeWhile_cons, hc]
      rw [hl] at hj ⊢
      have : j = 0 := by omega
      subst this
      simp

theorem head_drop_leading_spaces (q : List Char) :
    ∀ c r, q.drop (leading_spaces q) = c :: r → c ≠ space := by
  induction q with
  | nil => intro c r h; simp [leading_spaces] at h
  | cons x q ih =>
    intro c r h
    by_cases hx : x = space
    · have hl : leading_spaces (x :: q) = leading_spaces q + 1 := by
        simp [leading_spaces, List.takeWhile_cons, hx]
      rw [hl, List.drop_succ_cons] at h
      exact ih c r h
    · have hl : leading_spaces (x :: q) = 0 := by
        simp [leading_spaces, List.takeWhile_cons, hx]
      rw [hl, List.drop_zero] at h
      injection h with h1 _
      rw [← h1]; exact hx

/-- Matching a literal run of plain characters against input that carries it (less
some of its leading spaces), followed by a digit: exactly the run is consumed. -/
theorem string_view_io_input_loop_plain (x : Char) (X : List Char) (hx : isdigit x = true) :
    ∀ (q : List Char), (∀ c ∈ q, plain c = true) →
      ∀ (j : Nat) (is : istream), j ≤ leading_spaces q → is.good = true →
        is.buf = q.drop j ++ x :: X →
        string_view_io_input_loop q is = { is with buf := x :: X } := by
  intro q
  induction q with
  | nil =>
    intro _ j is _ _ hb
    simp only [List.drop_nil, List.nil_append] at hb
    cases is
    simp_all [string_view_io_input_loop]
  | cons c q ih =>
    intro hq j is hj hg hb
    have hq' : ∀ c ∈ q, plain c = true := fun y hy => hq y (by simp [hy])
    unfold string_view_io_input_loop
    by_cases hc : c = space
    · have hl : leading_spaces (c :: q) = leading_spaces q + 1 := by
        simp [leading_spaces, List.takeWhile_cons, hc]
      rw [if_pos hc]
      rw [drop_leading_spaces (c :: q) j hj, hl, List.drop_succ_cons, List.append_assoc] at hb
      have hsp : ∀ y ∈ List.replicate (leading_spaces q + 1 - j) space, skipped y := by
        intro y hy
        rw [List.eq_of_mem_replicate hy]
        exact Or.inl rfl
      have key : skip_spaces (is.buf.length + 1) is
          = { is with buf := q.drop (leading_spaces q) ++ x :: X } := by
        cases hr : q.drop (leading_spaces q) with
        | nil =>
          rw [hr, List.nil_append] at hb
          rw [List.nil_append]
          exact skip_spaces_run _ _ is x X hg hb hsp (isdigit_not_skipped hx)
            (by rw [hb]; simp)
        | cons y r =>
          rw [hr, List.cons_append] at hb
          have hy : plain y = true := hq' y (by
            have : y ∈ q.drop (leading_spaces q) := by rw [hr]; simp
            exact List.mem_of_mem_drop this)
          rw [List.cons_append]
          exact skip_spaces_run _ _ is y (r ++ x :: X) hg hb hsp
            (plain_not_skipped hy (head_drop_leading_spaces q y r hr)) (by rw [hb]; simp)
      rw [key]
      rw [ih hq' (leading_spaces q) _ (le_refl _) (by simpa [istream.good] using hg) rfl]
    · have hl : leading_spaces (c :: q) = 0 := by
        simp [leading_spaces, List.takeWhile_cons, hc]
      rw [hl] at hj
      have hj0 : j = 0 := by omega
      subst hj0
      rw [if_neg hc]
      simp only [List.drop_zero, List.cons_append] at hb
      rw [discard_until_head c _ is _ hg hb]
      rw [ih hq' 0 _ (Nat.zero_le _) (by simpa [istream.good] using hg) (by simp)]

/-- Extracting an integer from input that starts with a run of digits ending at the
end of the input or at a character that is no digit. -/
theorem extract_nat_digits (is : istream) (ds R : List Char) (hg : is.good = true)
    (hb : is.buf = ds ++ R) (hne : ds ≠ []) (hd : ∀ c ∈ ds, isdigit c = true)
    (hR : ∀ c r, R = c :: r → isdigit c = false) :
    extract_nat is
      = (some (decimal_value ds), { is with buf := R, eofbit := decide (R = []) }) := by
  obtain ⟨d, ds', rfl⟩ := List.exists_cons_of_ne_nil hne
  have hdd : isdigit d = true := hd d (by simp)
  have hsp : isspace d = false := by
    by_contra h
    have h : isspace d = true := by simpa using h
    simp only [isspace, decide_eq_true_eq] at h
    rcases h with h | h | h | h | h | h <;> (rw [h] at hdd; revert hdd; decide)
  have h1 : (d :: ds' ++ R).dropWhile isspace = d :: ds' ++ R := by
    simp [List.dropWhile_cons, hsp]
  have h2 : (d :: ds' ++ R).takeWhile isdigit = d :: ds' := by
    rw [List.takeWhile_append_of_pos hd]
    cases R with
    | nil => simp
    | cons c r => simp [List.takeWhile_cons, hR c r rfl]
  have h3 : (d :: ds' ++ R).dropWhile isdigit = R := by
    rw [List.dropWhile_append_of_pos hd]
    cases R with
    | nil => simp
    | cons c r => simp [List.dropWhile_cons, hR c r rfl]
  unfold extract_nat
  simp only [hg, Bool.not_true, Bool.false_eq_true, if_false, hb, h1, h2, h3, List.cons_ne_nil]

theorem plain_brace_free {l : List Char} (h : ∀ c ∈ l, plain c = true) : brace_free l := by
  constructor
  · intro hm
    have := h _ hm
    revert this
    decide
  · intro hm
    have := h _ hm
    revert this
    decide

theorem plain_not_digit {c : Char} (h : plain c = true) : isdigit c = false := by
  simp only [plain, Bool.and_eq_true, Bool.not_eq_true'] at h
  exact h.1.1.1.1.1

theorem no_placeholder_of_brace_free :
    ∀ (l : List Char), brace_free l → no_placeholder l = true := by
  intro l
  induction l using no_placeholder.induct with
  | case1 => intro _; rfl
  | case2 c =>
    intro h
    have h1 : c ≠ left_brace := fun e => h.1 (by simp [e])
    have h2 : c ≠ right_brace := fun e => h.2 (by simp [e])
    simp [no_placeholder, h1, h2]
  | case3 d r _ => intro h; exact absurd (List.mem_cons_self _ _) h.1
  | case4 d r _ _ => intro h; exact absurd (List.mem_cons_self _ _) h.2
  | case5 c d r hc1 hc2 ih =>
    intro h
    simp only [no_placeholder, hc1, hc2, if_false]
    exact ih ⟨fun e => h.1 (by simp [e]), fun e => h.2 (by simp [e])⟩

/-- A literal run without braces is one literal operation (none when it is empty). -/
theorem emit_literal_aux_brace_free {σ : Type} [stream_type σ] :
    ∀ (l acc : List Char) (s : σ), brace_free l →
      emit_literal_aux acc l s = if acc ++ l = [] then s else string_view_io (acc ++ l) s := by
  intro l
  induction l using no_placeholder.induct with
  | case1 => intro acc s _; simp [emit_literal_aux]
  | case2 c => intro acc s _; simp [emit_literal_aux]
  | case3 d r _ => intro acc s h; exact absurd (List.mem_cons_self _ _) h.1
  | case4 d r _ _ => intro acc s h; exact absurd (List.mem_cons_self _ _) h.2
  | case5 c d r hc1 hc2 ih =>
    intro acc s h
    simp only [emit_literal_aux, hc1, hc2, or_self, if_false]
    rw [ih (acc ++ [c]) s ⟨fun e => h.1 (by simp [e]), fun e => h.2 (by simp [e])⟩]
    simp

theorem emit_literal_brace_free {σ : Type} [stream_type σ] (l : List Char) (s : σ)
    (h : brace_free l) : emit_literal l s = if l = [] then s else string_view_io l s := by
  simpa [emit_literal] using emit_literal_aux_brace_free l [] s h

theorem denote_index_less {σ : Type} [stream_type σ] (args : List (σ → σ)) (l : List Char)
    (ps : List (List Char × List Char)) (tail : List Char) (k : Nat) (s : σ)
    (hk : k < args.length) (hk2 : k + 1 < 2 ^ 64) :
    denote false args ((l, []) :: ps) tail k s
      = denote false args ps tail (k + 1) ((args.getD k id) (emit_literal l s)) := by
  have hres : resolve_index false [] k = .ok k := by
    simp [resolve_index, until_char_nil]
  simp only [denote, hres, placeholder_io, ge_iff_le, Nat.not_le.2 hk, if_false,
    until_char_nil, if_true, Nat.mod_eq_of_lt hk2]

/-- The head of the printed text is no digit when the first literal run is not empty
(or there is no placeholder left). -/
theorem printed_text_head (lits : List (List Char)) (vals : List Nat) (tail : List Char)
    (hp : ∀ l ∈ lits, ∀ c ∈ l, plain c = true) (ht : ∀ c ∈ tail, plain c = true)
    (hne : ∀ l ls, lits = l :: ls → l ≠ []) (hn : vals.length = lits.length) :
    ∀ c r, printed_text lits vals tail = c :: r → isdigit c = false := by
  intro c r h
  cases lits with
  | nil =>
    simp only [printed_text] at h
    exact plain_not_digit (ht c (by rw [h]; simp))
  | cons l ls =>
    cases vals with
    | nil => simp at hn
    | cons v vs =>
      simp only [printed_text] at h
      obtain ⟨x, l', rfl⟩ := List.exists_cons_of_ne_nil (hne l ls rfl)
      simp only [List.cons_append, List.cons.injEq] at h
      rw [← h.1]
      exact plain_not_digit (hp (x :: l') (by simp) x (by simp))

theorem set_take_drop (v : Nat) (vs : List Nat) (m : Nat) :
    ∀ (tg : List Nat) (k : Nat), k < tg.length →
      (tg.set k v).take (k + 1) ++ vs ++ (tg.set k v).drop (k + 1 + m)
        = tg.take k ++ (v :: vs) ++ tg.drop (k + (m + 1)) := by
  intro tg
  induction tg with
  | nil => intro k h; simp at h
  | cons a tg ih =>
    intro k h
    cases k with
    | zero => simp [Nat.add_comm 1 m]
    | succ k =>
      simp only [List.length_cons, Nat.add_lt_add_iff_right] at h
      have := ih k h
      simp only [List.set_cons_succ, List.take_succ_cons, List.cons_append]
      rw [show k + 1 + 1 + m = (k + 1 + m) + 1 by omega,
        show k + 1 + (m + 1) = (k + (m + 1)) + 1 by omega, List.drop_succ_cons,
        List.drop_succ_cons, this]

/-- The scan side of the round trip, from placeholder number `k` on. -/
theorem denote_scan (N : Nat) (tail : List Char) (ht : ∀ c ∈ tail, plain c = true) :
    ∀ (lits : List (List Char)) (vals : List Nat) (k : Nat) (is : istream) (tg : List Nat),
      vals.length = lits.length → (∀ l ∈ lits, ∀ c ∈ l, plain c = true) →
      (∀ l ∈ lits.tail, l ≠ []) → (lits ≠ [] → is.good = true) →
      is.buf = printed_text lits vals tail → k + lits.length ≤ N → N < 2 ^ 64 →
      tg.length = N →
      ∃ is1, denote false ((List.range N).map read_nat) (lits.map (fun l => (l, []))) tail k
          (is, tg)
        = .returned (is1, tg.take k ++ vals ++ tg.drop (k + lits.length)) := by
  intro lits
  induction lits with
  | nil =>
    intro vals k is tg hn _ _ _ _ _ _ _
    have : vals = [] := List.length_eq_zero.1 (by simpa using hn)
    subst this
    refine ⟨(emit_literal tail (is, tg)).1, ?_⟩
    simp only [List.map_nil, denote, List.append_nil, Nat.add_zero, List.length_nil,
      List.take_append_drop]
    have h2 : (emit_literal tail (is, tg)).2 = tg := by
      rw [emit_literal_brace_free tail _ (plain_brace_free ht)]
      split <;> rfl
    congr 1
    exact Prod.ext rfl h2
  | cons l ls ih =>
    intro vals k is tg hn hp hsep hg hb hk hN htg
    obtain ⟨v, vs, rfl⟩ : ∃ v vs, vals = v :: vs := by
      cases vals with
      | nil => simp at hn
      | cons v vs => exact ⟨v, vs, rfl⟩
    simp only [List.length_cons] at hn hk
    have hgood := hg (by simp)
    have hpl : ∀ c ∈ l, plain c = true := hp l (by simp)
    have hps : ∀ l ∈ ls, ∀ c ∈ l, plain c = true := fun x hx => hp x (by simp [hx])
    obtain ⟨hd1, hd2, hd3⟩ := toDigits_spec v
    obtain ⟨d, ds, hds⟩ := List.exists_cons_of_ne_nil hd1
    simp only [printed_text] at hb
    -- the literal run
    have hlit : emit_literal l (is, tg)
        = ({ is with buf := Nat.toDigits 10 v ++ printed_text ls vs tail }, tg) := by
      rw [emit_literal_brace_free l _ (plain_brace_free hpl)]
      by_cases hl : l = []
      · subst hl
        rw [if_pos rfl]
        simp only [List.nil_append] at hb
        rw [← hb]
      · rw [if_neg hl]
        show (string_view_io_input l is, tg) = _
        have hf : is.failbit = false := by
          simp only [istream.good, Bool.and_eq_true, Bool.not_eq_true'] at hgood
          exact hgood.2
        rw [string_view_io_input, if_pos (by simp [hf])]
        have e : Nat.toDigits 10 v ++ printed_text ls vs tail
            = d :: (ds ++ printed_text ls vs tail) := by rw [hds]; rfl
        rw [List.append_assoc, e] at hb
        rw [e, string_view_io_input_loop_plain d _ (hd2 d (by rw [hds]; simp)) l hpl 0 is
          (Nat.zero_le _) hgood (by simpa using hb)]
    -- the integer
    have hR : ∀ c r, printed_text ls vs tail = c :: r → isdigit c = false :=
      printed_text_head ls vs tail hps ht
        (fun x xs e => hsep x (by simp [e])) (by omega)
    have hext := extract_nat_digits
      { is with buf := Nat.toDigits 10 v ++ printed_text ls vs tail }
      (Nat.toDigits 10 v) (printed_text ls vs tail) (by simpa [istream.good] using hgood) rfl
      hd1 hd2 hR
    have hkN : k < ((List.range N).map read_nat).length := by simp; omega
    have hget : ((List.range N).map read_nat).getD k id = read_nat k := by
      rw [List.getD_eq_getElem _ _ hkN]
      simp
    rw [List.map_cons, denote_index_less _ l _ tail k _ hkN (by omega), hlit, hget]
    have hread : read_nat k
        ({ is with buf := Nat.toDigits 10 v ++ printed_text ls vs tail }, tg)
        = ({ is with buf := printed_text ls vs tail,
                     eofbit := decide (printed_text ls vs tail = []) }, tg.set k v) := by
      simp only [read_nat, hext, hd3]
    rw [hread]
    obtain ⟨is1, h1⟩ := ih vs (k + 1)
      { is with buf := printed_text ls vs tail,
                eofbit := decide (printed_text ls vs tail = []) }
      (tg.set k v) (by omega) hps
      (fun x hx => hsep x (by
        cases ls with
        | nil => simp at hx
        | cons y ys => simp only [List.tail_cons] at hx ⊢; exact List.mem_cons_of_mem _ hx))
      (by
        intro hne
        obtain ⟨y, ys, rfl⟩ := List.exists_cons_of_ne_nil hne
        have hy : y ≠ [] := hsep y (by simp)
        obtain ⟨w, vs', rfl⟩ : ∃ w vs', vs = w :: vs' := by
          cases vs with
          | nil => simp at hn
          | cons w vs' => exact ⟨w, vs', rfl⟩
        obtain ⟨c, y', rfl⟩ := List.exists_cons_of_ne_nil hy
        have hf : is.failbit = false := by
          simp only [istream.good, Bool.and_eq_true, Bool.not_eq_true'] at hgood
          exact hgood.2
        simp [istream.good, printed_text, hf])
      rfl (by omega) hN (by simpa using htg)
    refine ⟨is1, ?_⟩
    rw [h1]
    congr 2
    exact set_take_drop v vs ls.length tg k (by omega)

/-- The print side of the round trip, from placeholder number `k` on. -/
theorem denote_print (allvals : List Nat) (tail : List Char)
    (ht : ∀ c ∈ tail, plain c = true) :
    ∀ (lits : List (List Char)) (vals : List Nat) (k : Nat) (os : ostream),
      vals.length = lits.length → (∀ l ∈ lits, ∀ c ∈ l, plain c = true) →
      allvals.drop k = vals → k + lits.length < 2 ^ 64 →
      denote false (allvals.map write_nat) (lits.map (fun l => (l, []))) tail k os
        = .returned { os with out := os.out ++ printed_text lits vals tail } := by
  intro lits
  induction lits with
  | nil =>
    intro vals k os hn _ _ _
    have : vals = [] := List.length_eq_zero.1 (by simpa using hn)
    subst this
    simp only [List.map_nil, denote, printed_text,
      emit_literal_brace_free tail os (plain_brace_free ht)]
    by_cases h : tail = []
    · simp [h]
    · simp [h, string_view_io, string_view_io_output]
  | cons l ls ih =>
    intro vals k os hn hp hdrop hk
    obtain ⟨v, vs, rfl⟩ : ∃ v vs, vals = v :: vs := by
      cases vals with
      | nil => simp at hn
      | cons v vs => exact ⟨v, vs, rfl⟩
    simp only [List.length_cons] at hn hk
    have hkl : k < allvals.length := by
      by_contra h
      rw [List.drop_eq_nil_of_le (by omega)] at hdrop
      cases hdrop
    have hkN : k < (allvals.map write_nat).length := by simpa using hkl
    have hv : allvals[k] = v ∧ allvals.drop (k + 1) = vs := by
      rw [List.drop_eq_getElem_cons hkl] at hdrop
      injection hdrop with h1 h2
      exact ⟨h1, h2⟩
    have hget : (allvals.map write_nat).getD k id = write_nat v := by
      rw [List.getD_eq_getElem _ _ hkN]
      simp [hv.1]
    have hlit : emit_literal l os = { os with out := os.out ++ l } := by
      rw [emit_literal_brace_free l os (plain_brace_free (hp l (by simp)))]
      by_cases h : l = []
      · simp [h]
      · simp [h, string_view_io, string_view_io_output]
    rw [List.map_cons, denote_index_less _ l _ tail k _ hkN (by omega), hlit, hget,
      ih vs (k + 1) _ (by omega) (fun x hx => hp x (by simp [hx])) hv.2 (by omega)]
    simp [write_nat, printed_text]

theorem well_formed_round_trip (tail : List Char) (ht : ∀ c ∈ tail, plain c = true) :
    ∀ lits : List (List Char), (∀ l ∈ lits, ∀ c ∈ l, plain c = true) →
      well_formed (lits.map (fun l => (l, []))) tail := by
  intro lits
  induction lits with
  | nil => intro _; exact no_placeholder_of_brace_free tail (plain_brace_free ht)
  | cons l ls ih =>
    intro hp
    exact ⟨no_placeholder_of_brace_free l (plain_brace_free (hp l (by simp))), by simp, by simp,
      ih (fun x hx => hp x (by simp [hx]))⟩

theorem field_setf_masked (F f M : Nat) (h : f &&& M = f) :
    field ((F ^^^ (F &&& M)) ||| (f &&& M)) M = f := by
  unfold field
  apply Nat.eq_of_testBit_eq
  intro i
  have hi := congrArg (fun x => x.testBit i) h
  simp only [Nat.testBit_and, Nat.testBit_or, Nat.testBit_xor] at hi ⊢
  cases hF : F.testBit i <;> cases hM : M.testBit i <;> cases hf : f.testBit i <;> simp_all

theorem outside_setf_masked (F f M : Nat) :
    outside ((F ^^^ (F &&& M)) ||| (f &&& M)) M = outside F M := by
  unfold outside
  apply Nat.eq_of_testBit_eq
  intro i
  simp only [Nat.testBit_and, Nat.testBit_or, Nat.testBit_xor]
  cases hF : F.testBit i <;> cases hM : M.testBit i <;> cases hf : f.testBit i <;> simp_all

theorem field_setf (F f : Nat) : field (F ||| f) f = f := by
  unfold field
  apply Nat.eq_of_testBit_eq
  intro i
  simp only [Nat.testBit_and, Nat.testBit_or]
  cases hF : F.testBit i <;> cases hf : f.testBit i <;> simp_all

theorem outside_setf (F f : Nat) : outside (F ||| f) f = outside F f := by
  unfold outside
  apply Nat.eq_of_testBit_eq
  intro i
  simp only [Nat.testBit_and, Nat.testBit_or, Nat.testBit_xor]
  cases hF : F.testBit i <;> cases hf : f.testBit i <;> simp_all

theorem colon_not_mem_until_char (l : List Char) : colon ∉ until_char colon l := by
  intro h
  have := List.mem_takeWhile_imp h
  simp at this

theorem split_inner_fst (s : List Char) : (split_inner s).1 = until_char colon s := by
  unfold split_inner
  by_cases h : colon ∈ s
  · rw [if_pos h]; rfl
  · rw [if_neg h]; exact (until_char_eq_self colon s h).symm

theorem drop_dropWhile (p : Char → Bool) :
    ∀ s : List Char, (s.dropWhile p).drop 1 = s.drop ((s.takeWhile p).length + 1) := by
  intro s
  induction s with
  | nil => rfl
  | cons a s ih =>
    by_cases h : p a = true
    · simp [List.dropWhile_cons, List.takeWhile_cons, h, ih]
    · simp [List.dropWhile_cons, List.takeWhile_cons, h]

theorem split_inner_snd (s : List Char) :
    (split_inner s).2
      = if colon ∈ s then some (s.drop ((until_char colon s).length + 1)) else none := by
  unfold split_inner
  by_cases h : colon ∈ s
  · rw [if_pos h, if_pos h]
    simp only [drop_dropWhile]
    rfl
  · rw [if_neg h, if_neg h]

theorem split_inner_recompose (s : List Char) :
    s = (split_inner s).1 ++ inner_of_spec (split_inner s).2 := by
  unfold split_inner
  by_cases h : colon ∈ s
  · rw [if_pos h]
    simp only [inner_of_spec]
    rcases until_char_split colon s with h1 | ⟨b, h1⟩
    · exact absurd (by rw [h1]; exact h) (colon_not_mem_until_char s)
    · have h2 : s.dropWhile (fun c => decide (c ≠ colon)) = colon :: b := by
        have := List.takeWhile_append_dropWhile (fun c => decide (c ≠ colon)) s
        have h3 : until_char colon s ++ s.dropWhile (fun c => decide (c ≠ colon))
            = until_char colon s ++ colon :: b := by
          rw [← h1]; exact this
        exact List.append_cancel_left h3
      rw [h2]
      exact h1
  · rw [if_neg h]
    simp [inner_of_spec]

theorem le_decimal_from (d : List Char) : ∀ r : Nat, r ≤ decimal_from r d := by
  induction d with
  | nil => intro r; exact le_refl _
  | cons c d ih =>
    intro r
    have := ih (r * 10 + (c.toNat - zero.toNat))
    simp only [decimal_from, List.foldl_cons] at this ⊢
    omega

theorem foldl_int_small (d : List Char) :
    ∀ r : Nat, (∀ c ∈ d, isdigit c = true) → decimal_from r d < 2 ^ 31 →
      d.foldl (fun r c => wrap_int (wrap_int (r * 10) + ((c.toNat : Int) - (zero.toNat : Int))))
          (r : Int)
        = ((decimal_from r d : Nat) : Int) := by
  induction d with
  | nil => intro r _ _; rfl
  | cons c d ih =>
    intro r h hlt
    have hc := (isdigit_iff c).1 (h c (by simp))
    have hs : ∀ x ∈ d, isdigit x = true := fun x hx => h x (by simp [hx])
    have hz : zero.toNat = 48 := rfl
    have hstep : decimal_from r (c :: d) = decimal_from (r * 10 + (c.toNat - zero.toNat)) d := by
      simp [decimal_from]
    have hlt1 : decimal_from (r * 10 + (c.toNat - zero.toNat)) d < 2 ^ 31 := by
      rw [← hstep]; exact hlt
    have hle := le_decimal_from d (r * 10 + (c.toNat - zero.toNat))
    have e : wrap_int (wrap_int ((r : Int) * 10) + ((c.toNat : Int) - (zero.toNat : Int)))
        = ((r * 10 + (c.toNat - zero.toNat) : Nat) : Int) := by
      unfold wrap_int
      rw [hz] at hle hlt1 ⊢
      omega
    rw [hstep, List.foldl_cons, e]
    exact ih _ hs hlt1

/-- `stou<int>` of digits whose value fits in `int` is their decimal value. -/
theorem int_value_small (d : List Char) (h : ∀ c ∈ d, isdigit c = true)
    (hlt : decimal_value d < 2 ^ 31) : int_value d = ((decimal_value d : Nat) : Int) := by
  have := foldl_int_small d 0 h hlt
  simpa [int_value, decimal_value] using this

/-- The directives of clauses with table characters and parameters that fit in `int`
are the operations of the spec, applied in order. -/
theorem apply_clauses_operations {σ : Type} [stream_type σ] (noexc : Bool) :
    ∀ (cls : List (Char × List Char)) (oldf : fmtflags) (s : σ),
      (∀ x ∈ cls, x.1 ∈ directive_chars ∧ (∀ c ∈ x.2, isdigit c = true) ∧
        decimal_value x.2 < 2 ^ 31) →
      apply_clauses noexc cls oldf s = .ok (apply_operations (operations cls) oldf s) := by
  intro cls
  induction cls with
  | nil => intro oldf s _; rfl
  | cons cl cls ih =>
    obtain ⟨c, d⟩ := cl
    intro oldf s hv
    obtain ⟨hc, hdig, hlt⟩ := hv (c, d) (by simp)
    have hv1 : ∀ x ∈ cls, x.1 ∈ directive_chars ∧ (∀ c ∈ x.2, isdigit c = true) ∧
        decimal_value x.2 < 2 ^ 31 := fun x hx => hv x (by simp [hx])
    simp only [apply_clauses, operations, List.map_cons, apply_operations, apply_operation]
    rw [int_value_small d hdig hlt]
    cases hm : (format_setf_methods c : Option (σ → Int → σ × fmtflags)) with
    | some method => exact ih _ _ hv1
    | none => exact absurd hc ((format_setf_methods_eq_none (σ := σ) c).1 hm)

/-- The skipping loop on a good stream: it stops before the first character that is not
skipped, or at the end of the input, where `peek` sets `eofbit`. -/
theorem skip_spaces_good :
    ∀ (b : List Char) (n : Nat) (is : istream), is.good = true → is.buf = b →
      b.length + 1 ≤ n →
      skip_spaces n is
        = { is with buf := after_skipped b, eofbit := decide (after_skipped b = []) } := by
  intro b
  induction b with
  | nil =>
    intro n is hg hb hn
    obtain ⟨n, rfl⟩ : ∃ m, n = m + 1 := ⟨n - 1, by omega⟩
    simp only [skip_spaces, istream.peek, hg, Bool.not_true, Bool.false_eq_true, if_false, hb,
      after_skipped, List.dropWhile_nil, decide_True]
  | cons c b ih =>
    intro n is hg hb hn
    obtain ⟨n, rfl⟩ : ∃ m, n = m + 1 := ⟨n - 1, by simp at hn; omega⟩
    by_cases hc : skipped c
    · have hc1 : c = space ∨ c = tab ∨ c = vtab ∨ c = cr ∨ c = lf := hc
      simp only [skip_spaces, istream.peek, istream.get, hg, Bool.not_true, Bool.false_eq_true,
        if_false, hb, hc1, if_true]
      rw [ih n _ (by simpa [istream.good] using hg) rfl (by simp at hn; omega)]
      simp [after_skipped, List.dropWhile_cons, hc]
    · have hc1 : ¬ (c = space ∨ c = tab ∨ c = vtab ∨ c = cr ∨ c = lf) := hc
      simp only [skip_spaces, istream.peek, hg, Bool.not_true, Bool.false_eq_true, if_false, hb,
        hc1]
      have he : is.eofbit = false := by
        simp only [istream.good, Bool.and_eq_true, Bool.not_eq_true'] at hg
        exact hg.1
      cases is
      simp_all [after_skipped, List.dropWhile_cons]

/-- The discarding loop on a good stream whose input has the character `c`: it stops
right after the first `c`. -/
theorem discard_until_found (c : Char) :
    ∀ (pre : List Char) (n : Nat) (is : istream) (post : List Char), is.good = true →
      is.buf = pre ++ c :: post → c ∉ pre → pre.length + 1 ≤ n →
      discard_until c n is = { is with buf := post } := by
  intro pre
  induction pre with
  | nil =>
    intro n is post hg hb _ hn
    obtain ⟨n, rfl⟩ : ∃ m, n = m + 1 := ⟨n - 1, by simp at hn; omega⟩
    exact discard_until_head c n is post hg hb
  | cons x pre ih =>
    intro n is post hg hb hc hn
    obtain ⟨n, rfl⟩ : ∃ m, n = m + 1 := ⟨n - 1, by simp at hn; omega⟩
    have hx : x ≠ c := fun h => hc (by simp [h])
    simp only [List.cons_append] at hb
    simp only [discard_until, istream.get, hg, Bool.not_true, Bool.false_eq_true, if_false, hb,
      hx]
    rw [ih n _ post (by simpa [istream.good] using hg) rfl (fun h => hc (by simp [h]))
      (by simp at hn; omega)]

/-- The discarding loop on a good stream whose input has no `c`: it uses the input up,
and the last `get` sets `eofbit` and `failbit`. -/
theorem discard_until_absent (c : Char) :
    ∀ (b : List Char) (n : Nat) (is : istream), is.good = true → is.buf = b → c ∉ b →
      b.length + 1 ≤ n →
      discard_until c n is = { is with buf := [], eofbit := true, failbit := true } := by
  intro b
  induction b with
  | nil =>
    intro n is hg hb _ hn
    obtain ⟨n, rfl⟩ : ∃ m, n = m + 1 := ⟨n - 1, by omega⟩
    simp only [discard_until, istream.get, hg, Bool.not_true, Bool.false_eq_true, if_false,
      hb]
  | cons x b ih =>
    intro n is hg hb hc hn
    obtain ⟨n, rfl⟩ : ∃ m, n = m + 1 := ⟨n - 1, by simp at hn; omega⟩
    have hx : x ≠ c := fun h => hc (by simp [h])
    simp only [discard_until, istream.get, hg, Bool.not_true, Bool.false_eq_true, if_false, hb,
      hx]
    rw [ih n _ (by simpa [istream.good] using hg) rfl (fun h => hc (by simp [h]))
      (by simp at hn; omega)]

/-- On a stream with `failbit` set neither loop of the literal matcher does anything:
the sentry of `peek` and `get` fails. -/
theorem string_view_io_input_loop_failed :
    ∀ (arg : List Char) (is : istream), is.failbit = true →
      string_view_io_input_loop arg is = is := by
  intro arg
  induction arg with
  | nil => intro is _; rfl
  | cons c arg ih =>
    intro is hf
    have hg : is.good = false := by simp [istream.good, hf]
    have h1 : skip_spaces (is.buf.length + 1) is = is := by
      simp only [skip_spaces, istream.peek, hg]
      cases is
      simp_all
    have h2 : discard_until c (is.buf.length + 1) is = is := by
      simp only [discard_until, istream.get, hg]
      cases is
      simp_all
    unfold string_view_io_input_loop
    split
    · rw [h1]; exact ih is hf
    · rw [h2]; exact ih is hf

theorem string_view_io_input_loop_append :
    ∀ (a b : List Char) (is : istream),
      string_view_io_input_loop (a ++ b) is
        = string_view_io_input_loop b (string_view_io_input_loop a is) := by
  intro a
  induction a with
  | nil => intro b is; rfl
  | cons c a ih =>
    intro b is
    simp only [List.cons_append, string_view_io_input_loop]
    split <;> exact ih _ _

/-- A literal is matched piece by piece. -/
theorem string_view_io_input_append (a b : List Char) (is : istream) :
    string_view_io_input (a ++ b) is = string_view_io_input b (string_view_io_input a is) := by
  unfold string_view_io_input
  by_cases hf : is.failbit = true
  · simp [hf]
  · have hf0 : is.failbit = false := by simpa using hf
    simp only [hf0, Bool.not_false, if_true]
    rw [string_view_io_input_loop_append]
    by_cases h1 : (string_view_io_input_loop a is).failbit = true
    · simp only [h1, Bool.not_true, Bool.false_eq_true, if_false]
      exact string_view_io_input_loop_failed b _ h1
    · have : (string_view_io_input_loop a is).failbit = false := by simpa using h1
      simp [this]

theorem takeWhile_append_dropWhile_skipped (b : List Char) :
    b = skipped_front b ++ after_skipped b := by
  simp [skipped_front, after_skipped]

theorem stou_loop_permissive (wrap : Int → Int) (str : List Char) :
    ∀ r : Int, stou_loop wrap true str r
      = .ok (str.foldl
          (fun r c => wrap (wrap (r * 10) + ((c.toNat : Int) - (zero.toNat : Int)))) r) := by
  induction str with
  | nil => intro r; rfl
  | cons c str ih =>
    intro r
    simp only [stou_loop, Bool.not_true, Bool.false_and, Bool.false_eq_true, if_false,
      List.foldl_cons]
    exact ih _

/-- Without the digit check `stou` returns what it accumulates. -/
theorem stou_permissive (wrap : Int → Int) (str : List Char) :
    stou wrap true str = .ok (accumulate wrap str) :=
  stou_loop_permissive wrap str 0

theorem int_value_eq_accumulate (d : List Char) : int_value d = accumulate wrap_int d := rfl

/-- The loop of `format_arg_io`, permissive mode, on a spec of non-empty clauses. -/
theorem format_arg_io_loop_clauses_permissive {σ : Type} [stream_type σ] (fmts : List Char)
    (hlen : fmts.length < 2 ^ 64) :
    ∀ (cls : List (Char × List Char)) (cl : Char × List Char) (offset n : Nat)
      (oldf : fmtflags) (s : σ),
      fmts.drop offset = join_clauses (cl :: cls) →
      (∀ x ∈ cl :: cls, x.1 ≠ comma ∧ comma ∉ x.2) →
      (join_clauses (cl :: cls)).length + 1 ≤ n →
      format_arg_io_loop true fmts n offset offset oldf s
        = apply_clauses true (cl :: cls) oldf s := by
  have hfmtf : ∀ d : List Char,
      (if d.length > 0 then stou wrap_int true d else .ok 0 : Except exception Int)
        = .ok (int_value d) := by
    intro d
    by_cases h0 : d.length > 0
    · rw [if_pos h0]
      exact stou_permissive wrap_int d
    · rw [if_neg h0]
      have : d = [] := List.length_eq_zero.1 (by omega)
      subst this
      rfl
  intro cls
  induction cls with
  | nil =>
    intro cl offset n oldf s hd hv hn
    obtain ⟨c, d⟩ := cl
    obtain ⟨hc, hcomma⟩ := hv (c, d) (by simp)
    simp only [join_clauses, List.length_cons] at hn
    obtain ⟨n, rfl⟩ : ∃ n', n = n' + 1 + (d.length + 1) := ⟨n - (d.length + 2), by omega⟩
    have hl := congrArg List.length hd
    simp only [List.length_drop, join_clauses, List.length_cons] at hl
    rw [format_arg_io_loop_clause_gen true fmts hlen offset n oldf s c d []
      (by simpa [join_clauses] using hd) hc hcomma (Or.inl rfl), hfmtf]
    simp only [apply_clauses]
    cases hm : (format_setf_methods c : Option (σ → Int → σ × fmtflags)) with
    | some method =>
      simp only
      exact format_arg_io_loop_past_end true fmts n _ _ _ _ (by omega)
    | none =>
      simp only [if_true]
      exact format_arg_io_loop_past_end true fmts n _ _ _ _ (by omega)
  | cons cl1 cls ih =>
    intro cl offset n oldf s hd hv hn
    obtain ⟨c, d⟩ := cl
    obtain ⟨hc, hcomma⟩ := hv (c, d) (by simp)
    have hv1 : ∀ x ∈ cl1 :: cls, x.1 ≠ comma ∧ comma ∉ x.2 :=
      fun x hx => hv x (by simp only [List.mem_cons] at hx ⊢; exact Or.inr hx)
    rw [join_clauses_cons_cons] at hd hn
    simp only [List.length_append, List.length_cons] at hn
    obtain ⟨n, rfl⟩ : ∃ n', n = n' + 1 + (d.length + 1) := ⟨n - (d.length + 2), by omega⟩
    have hd1 : fmts.drop (offset + d.length + 2) = join_clauses (cl1 :: cls) := by
      rw [show offset + d.length + 2 = offset + (d.length + 2) by omega, ← List.drop_drop, hd]
      simp [List.drop_append]
    rw [format_arg_io_loop_clause_gen true fmts hlen offset n oldf s c d _ hd hc hcomma
      (Or.inr ⟨_, rfl⟩), hfmtf]
    simp only [apply_clauses]
    cases hm : (format_setf_methods c : Option (σ → Int → σ × fmtflags)) with
    | some method =>
      simp only
      exact ih cl1 _ n _ _ hd1 hv1 (by omega)
    | none =>
      simp only [if_true]
      exact ih cl1 _ n _ _ hd1 hv1 (by omega)

/-- In permissive mode the directives of a list of clauses never fail. -/
theorem apply_clauses_permissive {σ : Type} [stream_type σ] :
    ∀ (cls : List (Char × List Char)) (oldf : fmtflags) (s : σ),
      ∃ oldf1 s1, apply_clauses true cls oldf s = .ok (oldf1, s1) := by
  intro cls
  induction cls with
  | nil => intro oldf s; exact ⟨oldf, s, rfl⟩
  | cons cl cls ih =>
    obtain ⟨c, d⟩ := cl
    intro oldf s
    simp only [apply_clauses]
    cases hm : (format_setf_methods c : Option (σ → Int → σ × fmtflags)) with
    | some method => exact ih _ _
    | none => simpa using ih oldf s

/-- `format_arg_io`, permissive mode, on a spec of non-empty clauses: it returns, with
the argument invoked after the directives. -/
theorem format_arg_io_permissive {σ : Type} [stream_type σ] (ori : σ → σ)
    (cl : Char × List Char) (cls : List (Char × List Char)) (s : σ)
    (hv : ∀ x ∈ cl :: cls, x.1 ≠ comma ∧ comma ∉ x.2)
    (hlen : (join_clauses (cl :: cls)).length < 2 ^ 64) :
    ∃ oldf s1, apply_clauses true (cl :: cls) 0 s = .ok (oldf, s1) ∧
      format_arg_io true ori (join_clauses (cl :: cls)) s
        = .ok (if oldf ≠ 0 then (setf (ori s1) oldf).1 else ori s1) := by
  obtain ⟨oldf, s1, h⟩ := apply_clauses_permissive (cl :: cls) 0 s
  refine ⟨oldf, s1, h, ?_⟩
  unfold format_arg_io
  rw [format_arg_io_loop_clauses_permissive _ hlen cls cl 0 _ 0 s rfl hv (le_refl _), h]
  simp only
  split <;> rfl

/-- What one literal-mode iteration sees, in permissive mode, of a text without opening
brace: it runs up to the first doubled closing brace, or to the end. -/
theorem scan_list_permissive :
    ∀ (rest : List Char), left_brace ∉ rest → rest ≠ [] →
      ∃ k, scan_list true rest = .brk k false ∧ 1 ≤ k ∧
        rest.take k ++ collapse (rest.drop (k + 1)) = collapse rest := by
  intro rest
  induction rest with
  | nil => intro _ h; exact absurd rfl h
  | cons c r ih =>
    intro hnb _
    have hc : c ≠ left_brace := fun h => hnb (by simp [h])
    have hne : right_brace ≠ left_brace := by decide
    have hr : left_brace ∉ r := fun h => hnb (by simp [h])
    cases r with
    | nil =>
      refine ⟨1, ?_, le_refl _, by simp [collapse]⟩
      by_cases hcr : c = right_brace
      · simp [scan_list, hcr, hne, scan_result.shift]
      · simp [scan_list, hc, hcr, scan_result.shift]
    | cons d r =>
      by_cases hpair : c = right_brace ∧ d = right_brace
      · refine ⟨1, ?_, le_refl _, ?_⟩
        · simp [scan_list, hne, hpair.1, hpair.2]
        · simp [collapse, hpair.1, hpair.2]
      · obtain ⟨k, h1, h2, h3⟩ := ih hr (by simp)
        have hnp : ¬ ((c = left_brace ∧ d = left_brace) ∨
            (c = right_brace ∧ d = right_brace)) := by
          rintro (h | h)
          · exact hc h.1
          · exact hpair h
        refine ⟨k + 1, ?_, by omega, ?_⟩
        · rw [scan_list]
          by_cases hcr : c = right_brace
          · have hd : d ≠ right_brace := fun h => hpair ⟨hcr, h⟩
            simp only [hcr, hne, if_false, if_true, List.head?_cons, Option.some.injEq, hd, h1,
              scan_result.shift]
            rw [Nat.add_comm]
          · simp only [hc, hcr, if_false, h1, scan_result.shift]
            rw [Nat.add_comm]
        · rw [List.take_succ_cons, List.drop_succ_cons, List.cons_append, h3]
          simp only [collapse, hnp, if_false]

/-- Interpreting, in permissive mode, a text without opening brace from a literal-mode
state. -/
theorem loop_no_open_brace (fmt : List Char) (args : List (ostream → ostream)) :
    ∀ (n : Nat) (st : loop_state ostream), st.in_number = false →
      left_brace ∉ fmt.drop st.offset → fmt.length - st.offset ≤ n →
      loop true fmt args n st
        = .returned { st.stream with out := st.stream.out ++ collapse (fmt.drop st.offset) } := by
  intro n
  induction n with
  | zero =>
    intro st _ _ hn
    have : fmt.drop st.offset = [] := List.drop_eq_nil_of_le (by omega)
    have hl : ¬ st.offset < fmt.length := by omega
    simp [loop, hl, this, collapse]
  | succ n ih =>
    intro st hin hnb hn
    rw [loop_succ]
    by_cases hl : st.offset < fmt.length
    · have hne : fmt.drop st.offset ≠ [] := by
        intro h; rw [List.drop_eq_nil_iff] at h; omega
      obtain ⟨k, h1, h2, h4⟩ := scan_list_permissive _ hnb hne
      have h3 : left_brace ∉ fmt.drop (st.offset + k + 1) := by
        intro h
        apply hnb
        rw [show st.offset + k + 1 = st.offset + (k + 1) by omega, ← List.drop_drop] at h
        exact List.mem_of_mem_drop h
      rw [if_pos hl, step_literal true fmt args st hin, h1]
      have hk : k ≠ 0 := by omega
      simp only [hk, if_false]
      rw [ih _ rfl h3 (by simp; omega)]
      simp only [string_view_io, string_view_io_output, List.append_assoc]
      rw [← h4]
      simp [List.drop_drop, Nat.add_assoc]
    · have : fmt.drop st.offset = [] := List.drop_eq_nil_of_le (by omega)
      simp [hl, this, collapse]

/-- A placeholder-mode iteration with no closing brace ahead, permissive mode: the
text from the opening brace on is handed to the literal operation and the loop ends. -/
theorem step_dangling_brace {σ : Type} [stream_type σ] (fmt : List Char)
    (args : List (σ → σ)) (st : loop_state σ) (hn : st.in_number = true)
    (hl : st.offset ≤ fmt.length) (hi : right_brace ∉ fmt.drop st.offset) :
    step true fmt args st
      = .next { offset := fmt.length + 1, in_number := true, arg_index := st.arg_index,
                stream := string_view_io (fmt.drop (st.offset - 1)) st.stream } := by
  unfold step
  simp only [hn, Bool.not_true, Bool.false_eq_true, if_false]
  rw [find_right_brace_eq fmt _ _ (le_refl _), until_char_eq_self _ _ hi]
  have ht : (fmt.drop (st.offset - 1)).take (fmt.length - (st.offset - 1))
      = fmt.drop (st.offset - 1) := List.take_of_length_le (by simp)
  simp [List.length_drop, Nat.add_sub_cancel' hl, substr, ht]

/-- The loop never uses up a budget that covers the distance to the end of the template. -/
theorem loop_ne_out_of_fuel {σ : Type} [stream_type σ] (noexc : Bool) (fmt : List Char)
    (args : List (σ → σ)) :
    ∀ (n : Nat) (st : loop_state σ), fmt.length - st.offset ≤ n →
      loop noexc fmt args n st ≠ .out_of_fuel := by
  intro n
  induction n with
  | zero =>
    intro st h
    have hl : ¬ st.offset < fmt.length := by omega
    simp [loop, hl]
  | succ n ih =>
    intro st h
    rw [loop_succ]
    by_cases hl : st.offset < fmt.length
    · rw [if_pos hl]
      cases hs : step noexc fmt args st with
      | thrown e s => simp
      | next st1 =>
        have := step_offset_lt noexc fmt args st st1 hs
        exact ih st1 (by omega)
    · rw [if_neg hl]
      simp

/-- The last of `k + 1` iterations: it starts from the state after `k` of them, with
`offset` before the end of the template. -/
theorem run_steps_last {σ : Type} [stream_type σ] (noexc : Bool) (fmt : List Char)
    (args : List (σ → σ)) :
    ∀ (k : Nat) (st st1 : loop_state σ), run_steps noexc fmt args (k + 1) st = some st1 →
      ∃ st0, run_steps noexc fmt args k st = some st0 ∧ st0.offset < fmt.length ∧
        step noexc fmt args st0 = .next st1 := by
  intro k
  induction k with
  | zero =>
    intro st st1 h
    unfold run_steps at h
    split at h
    · rename_i hl
      cases hs : step noexc fmt args st with
      | thrown e s => rw [hs] at h; cases h
      | next st2 =>
        rw [hs] at h
        simp only [run_steps, Option.some.injEq] at h
        exact ⟨st, rfl, hl, by rw [hs, h]⟩
    · cases h
  | succ k ih =>
    intro st st1 h
    rw [run_steps] at h
    split at h
    · rename_i hl
      cases hs : step noexc fmt args st with
      | thrown e s => rw [hs] at h; cases h
      | next st2 =>
        rw [hs] at h
        obtain ⟨st0, h1, h2, h3⟩ := ih st2 st1 h
        refine ⟨st0, ?_, h2, h3⟩
        rw [run_steps, if_pos hl, hs]
        exact h1
    · cases h

/-- The number of iterations is bounded by the length of the template. -/
theorem reaches_le_length {σ : Type} [stream_type σ] {noexc : Bool} {fmt : List Char}
    {args : List (σ → σ)} {stream : σ} {k : Nat} {st : loop_state σ}
    (h : reaches noexc fmt args stream k st) :
    k ≤ fmt.length ∧ (st.offset < fmt.length → k + 1 ≤ fmt.length) := by
  have h0 := run_steps_offset noexc fmt args k _ _ h
  simp only [initial_state, Nat.zero_add] at h0
  refine ⟨?_, fun hl => by omega⟩
  cases k with
  | zero => omega
  | succ k =>
    obtain ⟨st0, h1, h2, _⟩ := run_steps_last noexc fmt args k _ _ h
    have h3 := run_steps_offset noexc fmt args k _ _ h1
    simp only [initial_state, Nat.zero_add] at h3
    omega

/-- The entries of the directive table are of four kinds. -/
theorem format_setf_methods_kind {σ : Type} [stream_type σ] (c : Char)
    (m : σ → Int → σ × fmtflags) (h : format_setf_methods c = some m) :
    (∃ Flag Base Fill, m = stream_setf_w Flag Base Fill) ∨
      (∃ Flag Base, m = stream_setf_p Flag Base) ∨ (∃ Flag, m = stream_setf_f Flag) ∨
      m = stream_setf := by
  unfold format_setf_methods at h
  by_cases h0 : c = cdec
  · rw [if_pos h0] at h
    injection h with h
    exact Or.inl ⟨_, _, _, h.symm⟩
  rw [if_neg h0] at h
  by_cases h1 : c = coct
  · rw [if_pos h1] at h
    injection h with h
    exact Or.inl ⟨_, _, _, h.symm⟩
  rw [if_neg h1] at h
  by_cases h2 : c = chex
  · rw [if_pos h2] at h
    injection h with h
    exact Or.inl ⟨_, _, _, h.symm⟩
  rw [if_neg h2] at h
  by_cases h3 : c = csci
  · rw [if_pos h3] at h
    injection h with h
    exact Or.inr (Or.inl ⟨_, _, h.symm⟩)
  rw [if_neg h3] at h
  by_cases h4 : c = cfix
  · rw [if_pos h4] at h
    injection h with h
    exact Or.inr (Or.inl ⟨_, _, h.symm⟩)
  rw [if_neg h4] at h
  by_cases h5 : c = clft
  · rw [if_pos h5] at h
    injection h with h
    exact Or.inl ⟨_, _, _, h.symm⟩
  rw [if_neg h5] at h
  by_cases h6 : c = crit
  · rw [if_pos h6] at h
    injection h with h
    exact Or.inl ⟨_, _, _, h.symm⟩
  rw [if_neg h6] at h
  by_cases h7 : c = citn
  · rw [if_pos h7] at h
    injection h with h
    exact Or.inl ⟨_, _, _, h.symm⟩
  rw [if_neg h7] at h
  by_cases h8 : c = cbla
  · rw [if_pos h8] at h
    injection h with h
    exact Or.inr (Or.inr (Or.inl ⟨_, h.symm⟩))
  rw [if_neg h8] at h
  by_cases h9 : c = cupc
  · rw [if_pos h9] at h
    injection h with h
    exact Or.inr (Or.inr (Or.inl ⟨_, h.symm⟩))
  rw [if_neg h9] at h
  by_cases h10 : c = cgen
  · rw [if_pos h10] at h
    injection h with h
    exact Or.inr (Or.inr (Or.inr h.symm))
  rw [if_neg h10] at h
  cases h

/-- A directive writes nothing. -/
theorem format_setf_methods_out (c : Char) (m : ostream → Int → ostream × fmtflags)
    (h : format_setf_methods c = some m) (os : ostream) (n : Int) : (m os n).1.out = os.out := by
  rcases format_setf_methods_kind c m h with ⟨_, _, _, rfl⟩ | ⟨_, _, rfl⟩ | ⟨_, rfl⟩ | rfl <;> rfl

/-- A directive returns the flags it found, or leaves the stream as it is. -/
theorem format_setf_methods_flags (c : Char) (m : ostream → Int → ostream × fmtflags)
    (h : format_setf_methods c = some m) (os : ostream) (n : Int) :
    (m os n).2 = os.fmt.flags ∨ (m os n).1 = os := by
  rcases format_setf_methods_kind c m h with ⟨_, _, _, rfl⟩ | ⟨_, _, rfl⟩ | ⟨_, rfl⟩ | rfl
  · exact Or.inl rfl
  · exact Or.inl rfl
  · exact Or.inl rfl
  · exact Or.inr rfl

/-- Through the directives of a list of clauses a flag that is set, or already saved,
stays set or saved. -/
theorem apply_clauses_keeps (noexc : Bool) (i : Nat) :
    ∀ (cls : List (Char × List Char)) (oldf : fmtflags) (s : ostream) (oldf1 : fmtflags)
      (s1 : ostream), apply_clauses noexc cls oldf s = .ok (oldf1, s1) →
      (oldf.testBit i = true ∨ s.fmt.flags.testBit i = true) →
      (oldf1.testBit i = true ∨ s1.fmt.flags.testBit i = true) := by
  intro cls
  induction cls with
  | nil =>
    intro oldf s oldf1 s1 h hb
    simp only [apply_clauses, Except.ok.injEq, Prod.mk.injEq] at h
    rw [← h.1, ← h.2]
    exact hb
  | cons cl cls ih =>
    obtain ⟨c, d⟩ := cl
    intro oldf s oldf1 s1 h hb
    simp only [apply_clauses] at h
    cases hm : (format_setf_methods c : Option (ostream → Int → ostream × fmtflags)) with
    | some method =>
      rw [hm] at h
      refine ih _ _ _ _ h ?_
      rw [Nat.testBit_or, Bool.or_eq_true]
      rcases hb with hb | hb
      · exact Or.inl (Or.inl hb)
      · rcases format_setf_methods_flags c method hm s (int_value d) with h1 | h1
        · exact Or.inl (Or.inr (by rw [h1]; exact hb))
        · exact Or.inr (by rw [h1]; exact hb)
    | none =>
      rw [hm] at h
      cases noexc
      · simp at h
      · simp only [if_true] at h
        exact ih _ _ _ _ h hb

theorem not_mem_until_char (x : Char) (l : List Char) : x ∉ until_char x l := by
  intro h
  have := List.mem_takeWhile_imp h
  simp at this

/-- A text with a closing brace, cut at the first one. -/
theorem split_at_right_brace (l : List Char) (h : right_brace ∈ l) :
    ∃ inner post, l = inner ++ right_brace :: post ∧ right_brace ∉ inner := by
  rcases until_char_split right_brace l with h1 | ⟨b, h1⟩
  · exact absurd (by rw [h1]; exact h) (not_mem_until_char right_brace l)
  · exact ⟨_, b, h1, not_mem_until_char right_brace l⟩

/-- A literal scan that stops inside the first part of a text does not depend on the
second part. -/
theorem scan_list_prefix (noexc : Bool) (suf : List Char) :
    ∀ (a : List Char) (k : Nat) (b : Bool), scan_list noexc (a ++ suf) = .brk k b →
      k + 1 ≤ a.length → scan_list noexc a = .brk k b := by
  intro a
  induction a with
  | nil => intro k b _ hk; simp at hk
  | cons c r ih =>
    intro k b h hk
    rw [List.cons_append, scan_list] at h
    rw [scan_list]
    cases r with
    | nil =>
      simp only [List.length_singleton] at hk
      have hk0 : k = 0 := by omega
      subst hk0
      simp only [List.nil_append] at h
      by_cases hc : c = left_brace
      · simp only [hc, if_true] at h ⊢
        split at h
        · cases h
        · simpa using h
      · simp only [hc, if_false] at h
        exfalso
        split at h
        · split at h
          · cases h
          · split at h
            · cases hs : scan_list noexc suf with
              | throw => rw [hs] at h; cases h
              | brk j d =>
                rw [hs] at h
                simp only [scan_result.shift, scan_result.brk.injEq] at h
                omega
            · cases h
        · cases hs : scan_list noexc suf with
          | throw => rw [hs] at h; cases h
          | brk j d =>
            rw [hs] at h
            simp only [scan_result.shift, scan_result.brk.injEq] at h
            omega
    | cons d r =>
      simp only [List.cons_append, List.head?_cons] at h ⊢
      have hrec : ∀ k b, (scan_list noexc (d :: (r ++ suf))).shift 1 = .brk k b →
          k + 1 ≤ (c :: d :: r).length → (scan_list noexc (d :: r)).shift 1 = .brk k b := by
        intro k b h hk
        cases hs : scan_list noexc (d :: (r ++ suf)) with
        | throw => rw [hs] at h; cases h
        | brk j e =>
          rw [hs] at h
          simp only [scan_result.shift, scan_result.brk.injEq] at h
          have := ih j e (by simpa using hs) (by simp at hk ⊢; omega)
          rw [this]
          simp only [scan_result.shift, scan_result.brk.injEq]
          exact h
      have hne : ¬ right_brace = left_brace := by decide
      by_cases hc : c = left_brace
      · simp only [hc, if_true] at h ⊢
        exact h
      · by_cases hc2 : c = right_brace
        · subst hc2
          simp only [hne, if_false, if_true] at h ⊢
          by_cases hd : some d = some right_brace
          · simp only [hd, if_true] at h ⊢
            exact h
          · simp only [hd, if_false] at h ⊢
            cases noexc
            · simp at h
            · simp only [if_true] at h ⊢
              exact hrec k b h hk
        · simp only [hc, hc2, if_false] at h ⊢
          exact hrec k b h hk

/-- A strict-mode literal scan that runs over the whole first part of a text up to a
placeholder-opening brace has met no brace in it. -/
theorem scan_list_strict_brace_free (suf : List Char) :
    ∀ (a : List Char), scan_list false (a ++ suf) = .brk a.length true → brace_free a := by
  intro a
  induction a with
  | nil => intro _; exact ⟨by simp, by simp⟩
  | cons c r ih =>
    intro h
    rw [List.cons_append, scan_list] at h
    by_cases hc : c = left_brace
    · simp only [hc, if_true] at h
      split at h
      · simp at h
      · simp at h
    · simp only [hc, if_false] at h
      by_cases hc2 : c = right_brace
      · simp only [hc2, if_true] at h
        split at h
        · simp at h
        · simp at h
      · simp only [hc2, if_false] at h
        cases hs : scan_list false (r ++ suf) with
        | throw => rw [hs] at h; cases h
        | brk j e =>
          rw [hs] at h
          simp only [scan_result.shift, scan_result.brk.injEq, List.length_cons] at h
          have hj : j = r.length := by omega
          rw [hj, h.2] at hs
          obtain ⟨h1, h2⟩ := ih hs
          exact ⟨by simp [h1, Ne.symm hc], by simp [h2, Ne.symm hc2]⟩

/-- In placeholder mode with the opening brace before `offset`, the text from
`offset - 1` on is that brace followed by the text from `offset` on. -/
theorem open_brace_before_drop {σ : Type} {fmt : List Char} {st : loop_state σ}
    (h : open_brace_before fmt st) (hn : st.in_number = true) (hl : st.offset ≤ fmt.length) :
    1 ≤ st.offset ∧ fmt.drop (st.offset - 1) = left_brace :: fmt.drop st.offset := by
  obtain ⟨h1, r, hr⟩ := h hn hl
  refine ⟨h1, ?_⟩
  rw [hr]
  have := congrArg (List.drop 1) hr
  rw [List.drop_drop, show st.offset - 1 + 1 = st.offset by omega] at this
  rw [this]; rfl

/-- An iteration that ends inside the first part `pre` of a template is the same
iteration of the template `pre`. -/
theorem step_prefix {σ : Type} [stream_type σ] (noexc : Bool) (pre suf : List Char)
    (args : List (σ → σ)) (st st1 : loop_state σ)
    (hob : open_brace_before (pre ++ suf) st)
    (hs : step noexc (pre ++ suf) args st = .next st1) (h1 : st1.offset ≤ pre.length) :
    step noexc pre args st = .next st1 := by
  have hlt := step_offset_lt noexc _ args st st1 hs
  have hdrop : (pre ++ suf).drop st.offset = pre.drop st.offset ++ suf :=
    List.drop_append_of_le_length (by omega)
  by_cases hn : st.in_number = true
  · have hl : st.offset ≤ (pre ++ suf).length := by simp; omega
    obtain ⟨ho, hd0⟩ := open_brace_before_drop hob hn hl
    by_cases hrb : right_brace ∈ (pre ++ suf).drop st.offset
    · obtain ⟨inner, post, hd, hi⟩ := split_at_right_brace _ hrb
      have hstep := step_placeholder noexc (pre ++ suf) args st inner post hn ho
        (by rw [hd0, hd]) hi
      have hoff : st1.offset = st.offset + inner.length + 1 := by
        rw [hstep] at hs
        cases hres : resolve_index noexc inner st.arg_index with
        | error e => rw [hres] at hs; cases hs
        | ok ai =>
          rw [hres] at hs
          simp only at hs
          cases hio : placeholder_io noexc args inner ai st.stream with
          | error es => rw [hio] at hs; cases hs
          | ok s =>
            rw [hio] at hs
            simp only [step_result.next.injEq] at hs
            rw [← hs]
      have hlen : inner.length + 1 ≤ (pre.drop st.offset).length := by
        rw [List.length_drop]; omega
      have hpre : pre.drop st.offset
          = inner ++ right_brace :: (pre.drop st.offset).drop (inner.length + 1) := by
        have h2 := congrArg (List.take (inner.length + 1)) (hdrop.symm.trans hd)
        rw [List.take_append_of_le_length hlen] at h2
        have h3 : (inner ++ right_brace :: post).take (inner.length + 1)
            = inner ++ [right_brace] := by
          rw [show inner ++ right_brace :: post = (inner ++ [right_brace]) ++ post by simp]
          exact List.take_left' (by simp)
        rw [h3] at h2
        have h4 := List.take_append_drop (inner.length + 1) (pre.drop st.offset)
        rw [h2] at h4
        simpa using h4.symm
      have hopen : pre.drop (st.offset - 1) = left_brace :: pre.drop st.offset := by
        have h5 : (pre ++ suf).drop (st.offset - 1) = pre.drop (st.offset - 1) ++ suf :=
          List.drop_append_of_le_length (by omega)
        have h6 : pre.drop (st.offset - 1)
            = nth pre (st.offset - 1) :: pre.drop (st.offset - 1 + 1) :=
          drop_eq_cons_nth (by omega)
        rw [show st.offset - 1 + 1 = st.offset by omega] at h6
        rw [h5, h6, hdrop, List.cons_append] at hd0
        injection hd0 with h7 _
        rw [h6, h7]
      have hstep2 := step_placeholder noexc pre args st inner _ hn ho
        (by rw [hopen, ← hpre]) hi
      rw [hstep2, ← hstep]
      exact hs
    · exfalso
      cases noexc
      · rw [step_unterminated _ args st hn hl hrb] at hs
        cases hs
      · rw [step_dangling_brace _ args st hn hl hrb] at hs
        simp only [step_result.next.injEq] at hs
        rw [← hs] at h1
        simp at h1
        omega
  · have hn : st.in_number = false := by simpa using hn
    rw [step_literal noexc _ args st hn, hdrop] at hs
    cases hsc : scan_list noexc (pre.drop st.offset ++ suf) with
    | throw => rw [hsc] at hs; cases hs
    | brk k b =>
      rw [hsc] at hs
      simp only [step_result.next.injEq] at hs
      have hk : k + 1 ≤ (pre.drop st.offset).length := by
        rw [← hs] at h1
        simp only at h1
        rw [List.length_drop]
        omega
      rw [step_literal noexc pre args st hn,
        scan_list_prefix noexc suf _ k b hsc hk, ← hs]
      simp only [step_result.next.injEq]
      rw [List.take_append_of_le_length (by omega)]

/-- The iterations that end inside the first part `pre` of a template are the
iterations of the template `pre`. -/
theorem run_steps_prefix {σ : Type} [stream_type σ] (noexc : Bool) (pre suf : List Char)
    (args : List (σ → σ)) :
    ∀ (k : Nat) (st st1 : loop_state σ), open_brace_before (pre ++ suf) st →
      run_steps noexc (pre ++ suf) args k st = some st1 → st1.offset ≤ pre.length →
      run_steps noexc pre args k st = some st1 := by
  intro k
  induction k with
  | zero => intro st st1 _ h _; exact h
  | succ k ih =>
    intro st st1 hob h h1
    rw [run_steps] at h
    split at h
    · cases hs : step noexc (pre ++ suf) args st with
      | thrown e s => rw [hs] at h; cases h
      | next st2 =>
        rw [hs] at h
        have h2 := run_steps_offset noexc _ args k st2 st1 h
        have h3 := step_offset_lt noexc _ args st st2 hs
        have h4 := step_prefix noexc pre suf args st st2 hob hs (by omega)
        rw [run_steps, if_pos (by omega), h4]
        exact ih st2 st1 (step_open_brace_before noexc _ args st st2 hs) h h1
    · cases h

/-- Strict mode: a placeholder-mode iteration that does not throw leaves placeholder
mode. -/
theorem step_strict_in_number {σ : Type} [stream_type σ] (fmt : List Char)
    (args : List (σ → σ)) (st st1 : loop_state σ) (hob : open_brace_before fmt st)
    (hn : st.in_number = true) (hl : st.offset ≤ fmt.length)
    (hs : step false fmt args st = .next st1) : st1.in_number = false := by
  obtain ⟨ho, hd0⟩ := open_brace_before_drop hob hn hl
  by_cases hrb : right_brace ∈ fmt.drop st.offset
  · obtain ⟨inner, post, hd, hi⟩ := split_at_right_brace _ hrb
    rw [step_placeholder false fmt args st inner post hn ho (by rw [hd0, hd]) hi] at hs
    cases hres : resolve_index false inner st.arg_index with
    | error e => rw [hres] at hs; cases hs
    | ok ai =>
      rw [hres] at hs
      simp only at hs
      cases hio : placeholder_io false args inner ai st.stream with
      | error es => rw [hio] at hs; cases hs
      | ok s =>
        rw [hio] at hs
        simp only [step_result.next.injEq] at hs
        rw [← hs]
  · rw [step_unterminated fmt args st hn hl hrb] at hs
    cases hs

/-- Strict mode. When the interpretation of `pre ++ {rest` is in placeholder mode
right after the brace that follows `pre`, the stream is the one that interpreting `pre`
alone returns. -/
theorem format_string_view_prefix {σ : Type} [stream_type σ] (pre rest : List Char)
    (args : List (σ → σ)) (stream : σ) (k : Nat) (st : loop_state σ)
    (hr : reaches false (pre ++ left_brace :: rest) args stream k st)
    (hn : st.in_number = true) (ho : st.offset = pre.length + 1) :
    format_string_view false pre args stream = .returned st.stream := by
  have hi : open_brace_before (pre ++ left_brace :: rest) (initial_state stream) := by
    intro h1; simp [initial_state] at h1
  cases k with
  | zero =>
    have h0 : initial_state stream = st := by simpa [reaches, run_steps] using hr
    rw [← h0] at hn
    simp [initial_state] at hn
  | succ k =>
    obtain ⟨st0, h1, h2, h3⟩ := run_steps_last false _ args k _ _ hr
    have h4 := step_offset_lt false _ args st0 st h3
    have hob := run_steps_open_brace_before false _ args k _ _ h1 hi
    have hpre : reaches false pre args stream k st0 :=
      run_steps_prefix false pre _ args k _ _ hi h1 (by omega)
    rw [reaches_run hpre]
    have hn0 : st0.in_number = false := by
      by_contra hc
      have hc : st0.in_number = true := by simpa using hc
      have := step_strict_in_number _ args st0 st hob hc (by omega) h3
      rw [hn] at this
      cases this
    have hdrop : (pre ++ left_brace :: rest).drop st0.offset
        = pre.drop st0.offset ++ left_brace :: rest :=
      List.drop_append_of_le_length (by omega)
    rw [step_literal false _ args st0 hn0, hdrop] at h3
    cases hsc : scan_list false (pre.drop st0.offset ++ left_brace :: rest) with
    | throw => rw [hsc] at h3; cases h3
    | brk j b =>
      rw [hsc] at h3
      simp only [step_result.next.injEq] at h3
      have hj : j = (pre.drop st0.offset).length := by
        have := congrArg loop_state.offset h3
        simp only at this
        rw [List.length_drop]
        omega
      have hb : b = true := by
        have := congrArg loop_state.in_number h3
        simp only at this
        rw [this, hn]
      rw [hj, hb] at hsc
      have hbf := scan_list_strict_brace_free _ _ hsc
      have hst : st.stream = if j = 0 then st0.stream
          else string_view_io (pre.drop st0.offset) st0.stream := by
        have := congrArg loop_state.stream h3
        simp only at this
        rw [← this]
        by_cases hj0 : j = 0
        · simp only [hj0, if_true]
        · simp only [hj0, if_false]
          rw [hj, List.take_left]
      rw [run_eq]
      by_cases hlt : st0.offset < pre.length
      · rw [if_pos hlt, step_chunk false pre args st0 (pre.drop st0.offset) [] 0 false hn0
          (by simp) hbf rfl]
        simp only
        rw [run_eq, if_neg (by simp only [List.length_drop]; omega), hst]
        have hj0 : j ≠ 0 := by rw [hj, List.length_drop]; omega
        have hj1 : ¬ (pre.drop st0.offset).length + 0 = 0 := by
          rw [List.length_drop]; omega
        simp only [hj0, hj1, if_false, List.take_nil, List.append_nil]
      · rw [if_neg hlt, hst]
        have hj0 : j = 0 := by rw [hj, List.length_drop]; omega
        simp only [hj0, if_true]

/-- The loop of `format_arg_io` on an output stream: a throw leaves the text written so
far as it was. -/
theorem format_arg_io_loop_error_out (noexc : Bool) (fmts : List Char) (e : exception)
    (s1 : ostream) :
    ∀ (n index offset : Nat) (oldf : fmtflags) (s : ostream),
      format_arg_io_loop noexc fmts n index offset oldf s = .error (e, s1) →
      s1.out = s.out := by
  intro n
  induction n with
  | zero => intro index offset oldf s h; simp [format_arg_io_loop] at h
  | succ n ih =>
    intro index offset oldf s h
    rw [format_arg_io_loop_succ] at h
    split at h
    · split at h
      · split at h
        · rename_i e1 _
          simp only [Except.error.injEq, Prod.mk.injEq] at h
          rw [← h.2]
        · cases hm : (format_setf_methods (nth fmts offset) :
              Option (ostream → Int → ostream × fmtflags)) with
          | some method =>
            rw [hm] at h
            simp only at h
            rw [ih _ _ _ _ h]
            exact format_setf_methods_out _ method hm s _
          | none =>
            rw [hm] at h
            simp only at h
            split at h
            · exact ih _ _ _ _ h
            · simp only [Except.error.injEq, Prod.mk.injEq] at h
              rw [← h.2]
      · exact ih _ _ _ _ h
    · cases h

/-- When `format_arg_io` throws on an output stream, nothing has been written. -/
theorem format_arg_io_error_out (noexc : Bool) (ori : ostream → ostream) (fmts : List Char)
    (s : ostream) (e : exception) (s1 : ostream)
    (h : format_arg_io noexc ori fmts s = .error (e, s1)) : s1.out = s.out := by
  unfold format_arg_io at h
  cases hl : format_arg_io_loop noexc fmts (fmts.length + 1) 0 0 0 s with
  | error es =>
    rw [hl] at h
    simp only [Except.error.injEq] at h
    rw [h] at hl
    exact format_arg_io_loop_error_out noexc fmts e s1 _ _ _ _ _ hl
  | ok r =>
    rw [hl] at h
    simp only at h
    split at h <;> cases h

/-- Strict mode, output stream: a placeholder-mode iteration that throws has written
nothing. -/
theorem step_thrown_out (fmt : List Char) (args : List (ostream → ostream))
    (st : loop_state ostream) (e : exception) (s1 : ostream)
    (hob : open_brace_before fmt st) (hn : st.in_number = true)
    (hl : st.offset ≤ fmt.length) (hs : step false fmt args st = .thrown e s1) :
    s1.out = st.stream.out := by
  obtain ⟨ho, hd0⟩ := open_brace_before_drop hob hn hl
  by_cases hrb : right_brace ∈ fmt.drop st.offset
  · obtain ⟨inner, post, hd, hi⟩ := split_at_right_brace _ hrb
    rw [step_placeholder false fmt args st inner post hn ho (by rw [hd0, hd]) hi] at hs
    cases hres : resolve_index false inner st.arg_index with
    | error e1 =>
      rw [hres] at hs
      simp only [step_result.thrown.injEq] at hs
      rw [← hs.2]
    | ok ai =>
      rw [hres] at hs
      simp only at hs
      cases hio : placeholder_io false args inner ai st.stream with
      | ok s => rw [hio] at hs; cases hs
      | error es =>
        rw [hio] at hs
        simp only [step_result.thrown.injEq] at hs
        unfold placeholder_io at hio
        split at hio
        · cases hio
        · split at hio
          · cases hio
          · have := format_arg_io_error_out false _ _ _ es.1 es.2 hio
            rw [← hs.2]
            exact this
  · rw [step_unterminated fmt args st hn hl hrb] at hs
    simp only [step_result.thrown.injEq] at hs
    rw [← hs.2]

/-- A closed placeholder whose inner text is an index of digits, without colon,
with a value below the number of arguments (which, being the size of a vector, is below
`2 ^ 64`). Whenever the interpretation is at such a placeholder, the next loop state is
the one after the placeholder, and its stream is the stream as the placeholder found it
with the bound operation of that argument applied once: no directive is applied, and
nothing else is read or written. In particular the template that consists of the
placeholder alone returns the stream with that operation applied. -/
theorem explicit_index_invokes_argument {σ : Type} [stream_type σ] (noexc : Bool)
    (fmt : List Char) (args : List (σ → σ)) (stream : σ) (k : Nat) (st : loop_state σ)
    (idx post : List Char) (arg : σ → σ)
    (hr : reaches noexc fmt args stream k st) (hn : st.in_number = true)
    (hd : fmt.drop st.offset = idx ++ right_brace :: post) (hne : idx ≠ [])
    (hdig : ∀ c ∈ idx, isdigit c = true)
    (harg : args.get? (decimal_value idx) = some arg) (hsize : args.length < 2 ^ 64) :
    reaches noexc fmt args stream (k + 1)
        { offset := st.offset + idx.length + 1, in_number := false,
          arg_index := (decimal_value idx + 1) % 2 ^ 64, stream := arg st.stream } ∧
    ∀ s : σ, format_string_view noexc (left_brace :: idx ++ [right_brace]) args s
      = .returned (arg s) := by
  have hlt : decimal_value idx < args.length := by
    rcases Nat.lt_or_ge (decimal_value idx) args.length with h | h
    · exact h
    · rw [List.get?_eq_none.2 h] at harg; cases harg
  have hgetD : args.getD (decimal_value idx) id = arg := by
    rw [List.getD_eq_getElem?_getD, ← List.get?_eq_getElem?, harg]; rfl
  have hrb : right_brace ∉ idx := not_mem_of_digits hdig (by decide)
  have hcol : colon ∉ idx := not_mem_of_digits hdig (by decide)
  have hu : until_char colon idx = idx := until_char_eq_self colon idx hcol
  have hres : ∀ counter, resolve_index noexc idx counter = .ok (decimal_value idx) := by
    intro counter
    rw [resolve_index_digits noexc idx counter (by rw [index_text, hu]; exact hdig),
      resolved_index, index_text, hu, if_neg hne, Nat.mod_eq_of_lt (by omega)]
  have hio : ∀ s : σ, placeholder_io noexc args idx (decimal_value idx) s = .ok (arg s) := by
    intro s
    simp only [placeholder_io, ge_iff_le, Nat.not_le.2 hlt, if_false, hu, if_true, hgetD]
  constructor
  · have hl : st.offset < fmt.length := lt_length_of_drop_ne_nil (by rw [hd]; simp)
    obtain ⟨h1, h2⟩ := reaches_open_brace hr hn (by omega)
    rw [hd] at h2
    refine reaches_succ hr hl ?_
    rw [step_placeholder noexc fmt args st idx post hn h1 h2 hrb, hres]
    simp only [hio]
  · intro s
    have hwf : well_formed [(([] : List Char), idx)] [] := by
      refine ⟨rfl, hrb, ?_, rfl⟩
      intro h
      cases idx with
      | nil => cases h
      | cons c r =>
        simp only [List.head?_cons, Option.some.injEq] at h
        have := hdig c (by simp)
        rw [h] at this
        revert this
        decide
    have := format_string_view_pieces noexc args [(([] : List Char), idx)] [] s hwf
    simp only [assemble, List.nil_append] at this
    rw [show left_brace :: idx ++ [right_brace] = left_brace :: (idx ++ [right_brace]) from rfl,
      this]
    simp only [denote, hres]
    have he : emit_literal ([] : List Char) s = s := by
      simp [emit_literal, emit_literal_aux]
    rw [he, hio]
    simp [denote, emit_literal, emit_literal_aux]

/-- The template `{1}` with two arguments that write text, at its placeholder. -/
theorem explicit_index_invokes_argument_example :
    format_string_view false "\x7b1\x7d".toList [write_text "a".toList, write_text "b".toList]
        (ostream.mk ios_base.init [])
      = .returned (ostream.mk ios_base.init "b".toList) :=
  (explicit_index_invokes_argument false "\x7b1\x7d".toList [write_text "a".toList, write_text "b".toList]
    (ostream.mk ios_base.init []) 1
    { offset := 1, in_number := true, arg_index := 0, stream := ostream.mk ios_base.init [] }
    "1".toList [] (write_text "b".toList) (by rfl) rfl (by rfl) (by decide) (by decide)
    (by rfl) (by decide)).2 (ostream.mk ios_base.init [])

/-! ## The claims -/

/-- C1. Printing (strict mode) a template without placeholder, with any argument list,
returns normally and appends to the output exactly the template with every doubled
brace replaced by a single one. -/
theorem C1_no_placeholder_output (fmt : List Char) (args : List (ostream → ostream))
    (os : ostream) (h : no_placeholder fmt = true) :
    format_string_view false fmt args os
      = .returned { os with out := os.out ++ collapse fmt } := by
  unfold format_string_view
  rw [loop_no_placeholder fmt args fmt.length _ rfl (by simpa using h) (by simp)]
  simp

/-- C1 at the template `{{literal}}`, no argument, fresh stream: the output is
`{literal}`. -/
theorem C1_no_placeholder_output_witness :
    no_placeholder "\x7b\x7bliteral\x7d\x7d".toList = true ∧
    format_string_view false "\x7b\x7bliteral\x7d\x7d".toList []
        (ostream.mk ios_base.init [])
      = .returned (ostream.mk ios_base.init "\x7bliteral\x7d".toList) :=
  ⟨by decide, C1_no_placeholder_output _ _ _ (by decide)⟩

/-- C2. Auto-increment law. In a well-formed template whose placeholders carry no
index (each is `{}` or `{:spec}`), the placeholder at position `k` is bound to argument
`k`: printing the template (strict mode) is `bind_by_position` from position 0. Hence,
with no specs and at least one text-writing argument per placeholder, the output is
the literal runs interleaved with the texts of arguments 0, 1, ... in that order. The
template is shorter than `2 ^ 64`, as every `string_view` is. -/
theorem C2_auto_increment (args : List (ostream → ostream))
    (pieces : List (List Char × Option (List Char))) (tail : List Char) (os : ostream)
    (hp : ∀ p ∈ pieces, no_placeholder p.1 = true ∧ ∀ sp, p.2 = some sp → right_brace ∉ sp)
    (htail : no_placeholder tail = true)
    (hlen : (auto_template pieces tail).length < 2 ^ 64) :
    format_string_view false (auto_template pieces tail) args os
        = bind_by_position args pieces tail 0 os ∧
    ∀ texts : List (List Char), (∀ p ∈ pieces, p.2 = none) → pieces.length ≤ texts.length →
      format_string_view false (auto_template pieces tail) (texts.map write_text) os
        = .returned { os with out := os.out ++ interleave (pieces.map Prod.fst) texts tail } := by
  have hwf := well_formed_auto pieces tail hp htail
  have hn : 0 + pieces.length < 2 ^ 64 := by
    have := assemble_length (pieces.map (fun p => (p.1, inner_of_spec p.2))) tail
    simp only [List.length_map] at this
    unfold auto_template at hlen
    omega
  have key : ∀ a : List (ostream → ostream),
      format_string_view false (auto_template pieces tail) a os
        = bind_by_position a pieces tail 0 os := by
    intro a
    unfold auto_template
    rw [format_string_view_pieces false a _ tail os hwf]
    exact denote_auto a pieces tail 0 os (fun p h => (hp p h).1) htail hn
  refine ⟨key args, ?_⟩
  intro texts hnone hle
  rw [key, bind_by_position_texts texts pieces tail 0 os hnone (by omega)]
  simp

/-- C2 at the template `a{}b{}c` with two text-writing arguments. -/
theorem C2_auto_increment_witness :
    format_string_view false
        (auto_template [("a".toList, none), ("b".toList, none)] "c".toList)
        [write_text "1".toList, write_text "2".toList] (ostream.mk ios_base.init [])
      = .returned (ostream.mk ios_base.init "a1b2c".toList) :=
  (C2_auto_increment [write_text "1".toList, write_text "2".toList]
    [("a".toList, none), ("b".toList, none)] "c".toList (ostream.mk ios_base.init [])
    (by
      intro p hp
      simp only [List.mem_cons, List.mem_singleton, List.not_mem_nil, or_false] at hp
      rcases hp with rfl | rfl
      · exact ⟨by decide, fun sp h => by cases h⟩
      · exact ⟨by decide, fun sp h => by cases h⟩)
    (by decide) (by decide)).1.trans (by decide)

set_option maxRecDepth 100000 in
/-- C3, counterexample. The template is `{18446744073709551615}{}`, with one argument
that writes `a`. The first placeholder resolves to 18446744073709551615, which is
`2 ^ 64 - 1`, and is out of range. The second does not resolve to 18446744073709551616
(out of range as well, so that `{}` would be printed): it resolves to 0 and the
argument is written. -/
theorem C3_counter_wraps :
    format_string_view false "\x7b18446744073709551615\x7d\x7b\x7d".toList
        [write_text "a".toList] (ostream.mk ios_base.init [])
      ≠ .returned (ostream.mk ios_base.init "\x7b18446744073709551615\x7d\x7b\x7d".toList) ∧
    format_string_view false "\x7b18446744073709551615\x7d\x7b\x7d".toList
        [write_text "a".toList] (ostream.mk ios_base.init [])
      = .returned (ostream.mk ios_base.init "\x7b18446744073709551615\x7da".toList) := by
  decide

/-- C3, amended. Printing a well-formed template whose index texts are digits is
`bind_by_counter` from counter 0: a placeholder without index resolves to the counter,
which is 0 at the first placeholder and afterwards the resolved index of the preceding
placeholder plus one modulo `2 ^ 64`, whether that one had an index or not and was in
range or not. Consequently the template of the test, `{0} + {} = {2}`, with the
renderings of `a`, `b` and `a + b` as arguments prints them with ` + ` and ` = `
between them, whatever the rendering of integers is. -/
theorem C3_counter_resolution (args : List (ostream → ostream))
    (pieces : List (List Char × List Char × Option (List Char))) (tail : List Char)
    (os : ostream)
    (hp : ∀ p ∈ pieces, no_placeholder p.1 = true ∧ (∀ c ∈ p.2.1, isdigit c = true) ∧
      ∀ sp, p.2.2 = some sp → right_brace ∉ sp)
    (htail : no_placeholder tail = true) :
    format_string_view false (indexed_template pieces tail) args os
        = bind_by_counter args pieces tail 0 os ∧
    ∀ (render : Int → List Char) (a b : Int),
      format_string_view false "\x7b0\x7d + \x7b\x7d = \x7b2\x7d".toList
          [write_text (render a), write_text (render b), write_text (render (a + b))] os
        = .returned (ostream.mk os.fmt
            (os.out ++ render a ++ " + ".toList ++ render b ++ " = ".toList
              ++ render (a + b))) := by
  refine ⟨format_string_view_indexed args pieces tail os hp htail, ?_⟩
  intro render a b
  rfl

/-- C3 at the template `{0} + {} = {2}` with the renderings 3, 4 and 7. -/
theorem C3_counter_resolution_witness :
    format_string_view false "\x7b0\x7d + \x7b\x7d = \x7b2\x7d".toList
        [write_text "3".toList, write_text "4".toList, write_text "7".toList]
        (ostream.mk ios_base.init [])
      = .returned (ostream.mk ios_base.init "3 + 4 = 7".toList) :=
  (C3_counter_resolution
    [write_text "3".toList, write_text "4".toList, write_text "7".toList]
    [([], "0".toList, none), (" + ".toList, [], none), (" = ".toList, "2".toList, none)] []
    (ostream.mk ios_base.init [])
    (by
      intro p hp
      simp only [List.mem_cons, List.mem_singleton, List.not_mem_nil, or_false] at hp
      rcases hp with rfl | rfl | rfl <;>
        exact ⟨by decide, by decide, fun sp h => by cases h⟩)
    (by decide)).1.trans (by decide)

/-- C4. Out-of-range law. Whenever printing reaches a closed placeholder (inner text
`inner` up to the first closing brace) whose index text is empty or all digits and
whose resolved index is not below the number of arguments, the next loop state is the
one after the placeholder, with the counter at the resolved index plus one and with
the stream changed only by the source text of the placeholder, braces and spec
included, appended to the output: no argument is invoked, no directive looked at. So
`{5}` with two arguments prints `{5}`. -/
theorem C4_out_of_range (noexc : Bool) (fmt : List Char) (args : List (ostream → ostream))
    (os : ostream) (k : Nat) (st : loop_state ostream) (inner post : List Char)
    (hr : reaches noexc fmt args os k st) (hn : st.in_number = true)
    (hd : fmt.drop st.offset = inner ++ right_brace :: post) (hi : right_brace ∉ inner)
    (hdig : ∀ c ∈ index_text inner, isdigit c = true)
    (hge : args.length ≤ resolved_index inner st.arg_index) :
    reaches noexc fmt args os (k + 1)
        { offset := st.offset + inner.length + 1, in_number := false,
          arg_index := (resolved_index inner st.arg_index + 1) % 2 ^ 64,
          stream := { st.stream with
            out := st.stream.out ++ (left_brace :: inner ++ [right_brace]) } } ∧
    ∀ (a b : ostream → ostream) (os1 : ostream),
      format_string_view noexc "\x7b5\x7d".toList [a, b] os1
        = .returned { os1 with out := os1.out ++ "\x7b5\x7d".toList } := by
  constructor
  · have hl : st.offset < fmt.length := lt_length_of_drop_ne_nil (by rw [hd]; simp)
    obtain ⟨h1, h2⟩ := reaches_open_brace hr hn (by omega)
    rw [hd] at h2
    refine reaches_succ hr hl ?_
    rw [step_placeholder noexc fmt args st inner post hn h1 h2 hi,
      resolve_index_digits noexc inner st.arg_index hdig]
    simp only [placeholder_io, ge_iff_le, hge, if_true]
    rfl
  · intro a b os1
    cases noexc <;> rfl

/-- C4 at the template `{5}` with two arguments, at its placeholder. -/
theorem C4_out_of_range_witness :
    reaches false "\x7b5\x7d".toList [write_text "a".toList, write_text "b".toList]
      (ostream.mk ios_base.init []) 2
      { offset := 3, in_number := false, arg_index := 6,
        stream := ostream.mk ios_base.init "\x7b5\x7d".toList } :=
  (C4_out_of_range false "\x7b5\x7d".toList [write_text "a".toList, write_text "b".toList]
    (ostream.mk ios_base.init []) 1
    { offset := 1, in_number := true, arg_index := 0, stream := ostream.mk ios_base.init [] }
    "5".toList [] (by rfl) rfl (by rfl) (by decide) (by decide) (by decide)).1

/-- C5, the code at the failing input. The spec `x4` (as in the placeholder `{0:x4}`)
is processed with an argument that only writes `ff`, on a fresh stream (flags
`skipws | dec`, fill space, width 0, precision 6). Afterwards the flags are
`skipws | dec | hex`, the fill is `0` and the width is 4: the state before is not
restored. -/
theorem C5_state_not_restored :
    format_arg_io false (write_text "ff".toList) "x4".toList (ostream.mk ios_base.init [])
      = .ok (ostream.mk
          { flags := ios.skipws ||| ios.dec ||| ios.hex, fill := zero, width := 4,
            precision := 6 } "ff".toList) ∧
    ({ flags := ios.skipws ||| ios.dec ||| ios.hex, fill := zero, width := 4,
       precision := 6 } : ios_base) ≠ ios_base.init :=
  ⟨rfl, by decide⟩

/-- C6. Round trip. Let the template consist of placeholders without index and spec,
each after a literal run of `lits`, and then `tail`; all literal runs are made of plain
characters (no digit, sign, brace, or whitespace other than the space) and those between
two placeholders are not empty. Printing non-negative integers `vals`, one per
placeholder, yields `printed_text lits vals tail`, and scanning that text with the same
template into integer variables (whatever they held) returns normally with the
variables equal to `vals`. -/
theorem C6_round_trip (lits : List (List Char)) (tail : List Char) (vals targets : List Nat)
    (fo fi : ios_base) (hn : vals.length = lits.length)
    (htg : targets.length = lits.length)
    (hp : ∀ l ∈ lits, ∀ c ∈ l, plain c = true) (ht : ∀ c ∈ tail, plain c = true)
    (hsep : ∀ l ∈ lits.tail, l ≠ [])
    (hlen : (round_trip_template lits tail).length < 2 ^ 64) :
    format_string_view false (round_trip_template lits tail) (vals.map write_nat)
        (ostream.mk fo [])
      = .returned (ostream.mk fo (printed_text lits vals tail)) ∧
    ∃ is1, format_string_view false (round_trip_template lits tail)
        ((List.range lits.length).map read_nat)
        (istream.mk fi (printed_text lits vals tail) false false, targets)
      = .returned (is1, vals) := by
  have hwf := well_formed_round_trip tail ht lits hp
  have hN : lits.length < 2 ^ 64 := by
    have := assemble_length (lits.map (fun l => (l, ([] : List Char)))) tail
    simp only [List.length_map] at this
    unfold round_trip_template at hlen
    omega
  constructor
  · unfold round_trip_template
    rw [format_string_view_pieces false _ _ tail _ hwf,
      denote_print vals tail ht lits vals 0 _ hn hp rfl (by omega)]
    simp
  · obtain ⟨is1, h⟩ := denote_scan lits.length tail ht lits vals 0
      (istream.mk fi (printed_text lits vals tail) false false) targets hn hp hsep
      (fun _ => rfl) rfl (by omega) hN htg
    refine ⟨is1, ?_⟩
    unfold round_trip_template
    rw [format_string_view_pieces false _ _ tail _ hwf, h]
    simp [← htg]

/-- C6 at the template `{} {}` with the values 12 and 34: the text is `12 34` and the
scan gives 12 and 34 back. -/
theorem C6_round_trip_witness :
    ∃ is1, format_string_view false "\x7b\x7d \x7b\x7d".toList [read_nat 0, read_nat 1]
        (istream.mk ios_base.init "12 34".toList false false, [0, 0])
      = .returned (is1, [12, 34]) :=
  (C6_round_trip [[], [' ']] [] [12, 34] [0, 0] ios_base.init ios_base.init rfl rfl
    (by decide) (by decide) (by decide) (by decide)).2

/-- C7, the code at the failing input. The templates `{` and `a{`, which end with an
opening brace, are interpreted to the end in strict mode: the loop is left with
`in_number` set and nothing is thrown; the text before the brace is written, the brace
is not. -/
theorem C7_trailing_open_brace_returns (args : List (ostream → ostream)) (os : ostream) :
    format_string_view false [left_brace] args os = .returned os ∧
    format_string_view false ('a' :: [left_brace]) args os
      = .returned { os with out := os.out ++ ['a'] } :=
  ⟨rfl, rfl⟩

/-- C8. Strict mode. Whenever the interpretation reaches a literal-mode state from
which the text runs, without a brace, up to a closing brace that is not followed by
another closing brace, the interpretation throws UnmatchedCloseBrace, and the stream
at the throw is the stream of that state: neither the brace nor the text before it
is written or matched. -/
theorem C8_unmatched_close_brace {σ : Type} [stream_type σ] (fmt : List Char)
    (args : List (σ → σ)) (stream : σ) (k : Nat) (st : loop_state σ) (text post : List Char)
    (hr : reaches false fmt args stream k st) (hn : st.in_number = false)
    (hd : fmt.drop st.offset = text ++ right_brace :: post) (ht : brace_free text)
    (hp : post.head? ≠ some right_brace) :
    format_string_view false fmt args stream = .thrown .unmatched_close_brace st.stream := by
  have hl : st.offset < fmt.length := lt_length_of_drop_ne_nil (by rw [hd]; simp)
  have hne : right_brace ≠ left_brace := by decide
  have hs : scan_list false (text ++ right_brace :: post) = .throw := by
    rw [scan_list_brace_free false _ text ht]
    simp [scan_list, hne, hp, scan_result.shift]
  rw [reaches_run hr, run_eq, if_pos hl, step_literal false fmt args st hn, hd, hs]

/-- C8 at the template `a}b`, at the start. -/
theorem C8_unmatched_close_brace_witness :
    format_string_view false ('a' :: right_brace :: ['b']) [] (ostream.mk ios_base.init [])
      = .thrown .unmatched_close_brace (ostream.mk ios_base.init []) :=
  C8_unmatched_close_brace ('a' :: right_brace :: ['b']) [] (ostream.mk ios_base.init []) 0
    (initial_state (ostream.mk ios_base.init [])) ['a'] ['b'] rfl rfl rfl
    ⟨by decide, by decide⟩ (by decide)

/-- C9. Strict mode, a spec of non-empty clauses with digit parameters
(`join_clauses`, at least one clause). `format_arg_io` fails with InvalidDirective if
and only if the first character of some clause is not one of the eleven table
characters; it fails with nothing else; and when it fails the result does not depend
on the bound argument, which is not invoked. At an in-range placeholder with such a
spec the failure is the failure of the interpretation. -/
theorem C9_invalid_directive_iff {σ : Type} [stream_type σ] (ori : σ → σ)
    (cl : Char × List Char) (cls : List (Char × List Char)) (s : σ)
    (hv : ∀ x ∈ cl :: cls, x.1 ≠ comma ∧ ∀ c ∈ x.2, isdigit c = true)
    (hlen : (join_clauses (cl :: cls)).length < 2 ^ 64) :
    ((∃ s1, format_arg_io false ori (join_clauses (cl :: cls)) s
          = .error (.invalid_directive, s1))
        ↔ ∃ x ∈ cl :: cls, x.1 ∉ directive_chars) ∧
    (∀ e s1, format_arg_io false ori (join_clauses (cl :: cls)) s = .error (e, s1) →
      e = .invalid_directive ∧
      ∀ ori1 : σ → σ, format_arg_io false ori1 (join_clauses (cl :: cls)) s = .error (e, s1)) ∧
    (∀ (fmt : List Char) (args : List (σ → σ)) (stream : σ) (k : Nat) (st : loop_state σ)
      (idx post : List Char) (e : exception) (s1 : σ),
      reaches false fmt args stream k st → st.in_number = true →
      fmt.drop st.offset = idx ++ colon :: (join_clauses (cl :: cls) ++ right_brace :: post) →
      right_brace ∉ join_clauses (cl :: cls) → (∀ c ∈ idx, isdigit c = true) →
      (if idx = [] then st.arg_index else decimal_value idx % 2 ^ 64) < args.length →
      format_arg_io false
          (args.getD (if idx = [] then st.arg_index else decimal_value idx % 2 ^ 64) id)
          (join_clauses (cl :: cls)) st.stream = .error (e, s1) →
      format_string_view false fmt args stream = .thrown e s1) := by
  have key : ∀ o : σ → σ, format_arg_io false o (join_clauses (cl :: cls)) s =
      match apply_clauses false (cl :: cls) 0 s with
      | .error e => .error e
      | .ok (oldf, s1) => if oldf ≠ 0 then .ok (setf (o s1) oldf).1 else .ok (o s1) :=
    fun o => format_arg_io_clauses false o cl cls s hv hlen
  have herr : ∀ (o : σ → σ) e s1, format_arg_io false o (join_clauses (cl :: cls)) s
      = .error (e, s1) → apply_clauses false (cl :: cls) 0 s = .error (e, s1) := by
    intro o e s1 h
    rw [key o] at h
    cases ha : apply_clauses false (cl :: cls) 0 s with
    | error es => rw [ha] at h; simpa using h
    | ok r =>
      obtain ⟨oldf, s2⟩ := r
      rw [ha] at h
      simp only at h
      split at h <;> cases h
  refine ⟨⟨?_, ?_⟩, ?_, ?_⟩
  · rintro ⟨s1, h⟩
    exact (apply_clauses_error _ _ _ _ _ (herr ori _ _ h)).2
  · intro h
    obtain ⟨s1, h1⟩ := apply_clauses_of_unknown (cl :: cls) 0 s h
    exact ⟨s1, by rw [key ori, h1]⟩
  · intro e s1 h
    have h1 := herr ori e s1 h
    exact ⟨(apply_clauses_error _ _ _ _ _ h1).1, fun o => by rw [key o, h1]⟩
  · intro fmt args stream k st idx post e s1 hr hn hd hi hdig hlt h
    have hl : st.offset < fmt.length := lt_length_of_drop_ne_nil (by rw [hd]; simp)
    rw [reaches_run hr, run_eq, if_pos hl,
      step_placeholder_spec false fmt args stream k st idx _ post hr hn hd hi hdig hlt, h]

/-- C9 at the spec `d,q5`: its second clause starts with `q`, which is no directive. -/
theorem C9_invalid_directive_iff_witness :
    ∃ s1, format_arg_io false (write_text "7".toList) (join_clauses [('d', []), ('q', ['5'])])
      (ostream.mk ios_base.init []) = .error (.invalid_directive, s1) :=
  (C9_invalid_directive_iff (write_text "7".toList) ('d', []) [('q', ['5'])]
    (ostream.mk ios_base.init [])
    (by
      intro x hx
      simp only [List.mem_cons, List.mem_singleton, List.not_mem_nil, or_false] at hx
      rcases hx with rfl | rfl <;> exact ⟨by decide, by decide⟩)
    (by decide)).1.2 ⟨('q', ['5']), by simp, by decide⟩

/-- C10, counterexample. The spec `z,d1a` has the clause `d1a` with a non-digit after
its first character, and the in-range placeholder `{0:z,d1a}` fails, but with
InvalidDirective, raised by the clause `z` before it. -/
theorem C10_invalid_directive_first :
    format_string_view false "\x7b0:z,d1a\x7d".toList [write_text "7".toList]
        (ostream.mk ios_base.init [])
      = .thrown .invalid_directive (ostream.mk ios_base.init []) ∧
    exception.invalid_directive ≠ exception.not_a_number := by
  decide

/-- C10, amended. In strict mode `stou` fails if and only if its input has a character
that is no digit (a code unit outside 48..57), and then with NotANumber. Hence a closed
placeholder whose index text has a non-digit makes the interpretation fail with
NotANumber, whatever the arguments, the stream being the one the placeholder is
reached with; and an in-range placeholder whose spec has a clause with a non-digit
after its first character fails with NotANumber when every clause before it is a
table character followed by digits only, the stream being the one left by the
directives of those clauses. -/
theorem C10_not_a_number {σ : Type} [stream_type σ] (fmt : List Char) (args : List (σ → σ))
    (stream : σ) (k : Nat) (st : loop_state σ)
    (hr : reaches false fmt args stream k st) (hn : st.in_number = true) :
    (∀ (wrap : Int → Int) (str : List Char),
      (stou wrap false str = .error .not_a_number ↔ ∃ c ∈ str, isdigit c = false) ∧
      (∀ e, stou wrap false str = .error e → e = .not_a_number) ∧
      ∀ c : Char, isdigit c = true ↔ 48 ≤ c.toNat ∧ c.toNat ≤ 57) ∧
    (∀ inner post : List Char, fmt.drop st.offset = inner ++ right_brace :: post →
      right_brace ∉ inner → (∃ c ∈ index_text inner, isdigit c = false) →
      format_string_view false fmt args stream = .thrown .not_a_number st.stream) ∧
    (∀ (idx post : List Char) (good : List (Char × List Char)) (c : Char)
      (params rest : List Char),
      fmt.drop st.offset
        = idx ++ colon :: ((prefix_clauses good ++ (c :: params) ++ rest)
            ++ right_brace :: post) →
      right_brace ∉ prefix_clauses good ++ (c :: params) ++ rest →
      (∀ x ∈ idx, isdigit x = true) →
      (if idx = [] then st.arg_index else decimal_value idx % 2 ^ 64) < args.length →
      (∀ x ∈ good, x.1 ∈ directive_chars ∧ ∀ y ∈ x.2, isdigit y = true) →
      c ≠ comma → comma ∉ params → (∃ x ∈ params, isdigit x = false) →
      (rest = [] ∨ ∃ r, rest = comma :: r) →
      fmt.length < 2 ^ 64 →
      ∃ oldf s1, apply_clauses false good 0 st.stream = .ok (oldf, s1) ∧
        format_string_view false fmt args stream = .thrown .not_a_number s1) := by
  refine ⟨?_, ?_, ?_⟩
  · intro wrap str
    refine ⟨⟨fun h => (stou_loop_error wrap str 0 _ h).2,
      fun h => stou_loop_of_non_digit wrap str 0 h⟩,
      fun e h => (stou_loop_error wrap str 0 e h).1, isdigit_iff⟩
  · intro inner post hd hi hbad
    have hl : st.offset < fmt.length := lt_length_of_drop_ne_nil (by rw [hd]; simp)
    obtain ⟨h1, h2⟩ := reaches_open_brace hr hn (by omega)
    rw [hd] at h2
    have hne : until_char colon inner ≠ [] := by
      obtain ⟨c, hc, _⟩ := hbad
      exact List.ne_nil_of_mem hc
    have hres : resolve_index false inner st.arg_index = .error .not_a_number := by
      unfold resolve_index
      rw [if_pos hne, show stou wrap_size_t false (until_char colon inner)
        = .error .not_a_number from stou_loop_of_non_digit _ _ 0 hbad]
    rw [reaches_run hr, run_eq, if_pos hl, step_placeholder false fmt args st inner post hn h1 h2 hi,
      hres]
  · intro idx post good c params rest hd hi hdig hlt hv hc hcomma hbad hrest hlen
    have hl : st.offset < fmt.length := lt_length_of_drop_ne_nil (by rw [hd]; simp)
    have hlen1 : (prefix_clauses good ++ (c :: params) ++ rest).length < 2 ^ 64 := by
      have := congrArg List.length hd
      simp only [List.length_drop, List.length_append, List.length_cons] at this ⊢
      omega
    obtain ⟨oldf, s1, ha, hf⟩ := format_arg_io_not_a_number
      (args.getD (if idx = [] then st.arg_index else decimal_value idx % 2 ^ 64) id)
      good c params rest st.stream hv hc hcomma hbad hrest hlen1
    refine ⟨oldf, s1, ha, ?_⟩
    rw [reaches_run hr, run_eq, if_pos hl,
      step_placeholder_spec false fmt args stream k st idx _ post hr hn hd hi hdig hlt, hf]

/-- C10 at the template `{1x}` without arguments, at its placeholder. -/
theorem C10_not_a_number_witness :
    format_string_view false "\x7b1x\x7d".toList ([] : List (ostream → ostream))
        (ostream.mk ios_base.init [])
      = .thrown .not_a_number (ostream.mk ios_base.init []) :=
  (C10_not_a_number "\x7b1x\x7d".toList [] (ostream.mk ios_base.init []) 1
    { offset := 1, in_number := true, arg_index := 0, stream := ostream.mk ios_base.init [] }
    (by rfl) rfl).2.1 "1x".toList [] (by rfl) (by decide) ⟨'x', by decide, by decide⟩

/-- C11, the code at the failing input. The empty spec, as in `{0:}` and `{:}`. The loop
of `format_arg_io` takes the empty text for one clause and computes its
`len = index - offset - 1` as `0 - 0 - 1`, which is `2 ^ 64 - 1` in `std::size_t`; so
`len > 0` holds and `fmts.substr(1, len)` is asked of the empty view, which throws
`std::out_of_range`. The bound argument is not invoked. Printing `{0:}` or `{:}` with
one argument fails, whereas `{0}` and the placeholder without index write the argument. -/
theorem C11_empty_spec_throws {σ : Type} [stream_type σ] (ori : σ → σ) (s : σ)
    (arg : ostream → ostream) (os : ostream) :
    format_arg_io false ori [] s = .error (.out_of_range, s) ∧
    format_string_view false "\x7b0:\x7d".toList [arg] os = .thrown .out_of_range os ∧
    format_string_view false "\x7b:\x7d".toList [arg] os = .thrown .out_of_range os ∧
    format_string_view false "\x7b0\x7d".toList [arg] os = .returned (arg os) ∧
    format_string_view false "\x7b\x7d".toList [arg] os = .returned (arg os) :=
  ⟨rfl, rfl, rfl, rfl, rfl⟩

set_option maxRecDepth 100000 in
/-- C12, counterexample. The template is `{18446744073709551616}`, with one argument
that writes `a`. The index text is all digits and its decimal value is `2 ^ 64`, which
is not below the number of arguments; yet the placeholder is not copied to the output
as an out-of-range one: it resolves to 0 and the argument is written. -/
theorem C12_index_wraps :
    decimal_value "18446744073709551616".toList = 2 ^ 64 ∧
    format_string_view false "\x7b18446744073709551616\x7d".toList
        [write_text "a".toList] (ostream.mk ios_base.init [])
      ≠ .returned (ostream.mk ios_base.init "\x7b18446744073709551616\x7d".toList) ∧
    format_string_view false "\x7b18446744073709551616\x7d".toList
        [write_text "a".toList] (ostream.mk ios_base.init [])
      = .returned (ostream.mk ios_base.init "a".toList) := by
  decide

/-- C12, amended. Placeholder resolver, at a closed placeholder with inner text `inner`
(the text up to the first closing brace) whose index text is empty or all digits. The
code splits the inner text as `split_inner` does: index text before the first colon and
directive-spec segment after it, or the whole as index text and no segment. An empty
index text resolves to the auto-increment counter, one of digits to its decimal value
modulo `2 ^ 64` (leading zeros allowed), which is the decimal value when that is below
`2 ^ 64`. With the index so resolved the placeholder is copied when there is no such
argument, the argument is invoked when there is no segment, and `format_arg_io` gets
the segment otherwise. -/
theorem C12_placeholder_resolver {σ : Type} [stream_type σ] (noexc : Bool) (fmt : List Char)
    (args : List (σ → σ)) (stream : σ) (k : Nat) (st : loop_state σ) (inner post : List Char)
    (hr : reaches noexc fmt args stream k st) (hn : st.in_number = true)
    (hd : fmt.drop st.offset = inner ++ right_brace :: post) (hi : right_brace ∉ inner)
    (hdig : ∀ c ∈ (split_inner inner).1, isdigit c = true) :
    inner = (split_inner inner).1 ++ inner_of_spec (split_inner inner).2 ∧
    colon ∉ (split_inner inner).1 ∧
    (decimal_value (split_inner inner).1 < 2 ^ 64 → (split_inner inner).1 ≠ [] →
      resolve_text (split_inner inner).1 st.arg_index = decimal_value (split_inner inner).1) ∧
    ((split_inner inner).1 = [] →
      resolve_text (split_inner inner).1 st.arg_index = st.arg_index) ∧
    step noexc fmt args st =
      if args.length ≤ resolve_text (split_inner inner).1 st.arg_index then
        .next { offset := st.offset + inner.length + 1, in_number := false,
                arg_index := (resolve_text (split_inner inner).1 st.arg_index + 1) % 2 ^ 64,
                stream := string_view_io (left_brace :: inner ++ [right_brace]) st.stream }
      else
        match (split_inner inner).2 with
        | none =>
          .next { offset := st.offset + inner.length + 1, in_number := false,
                  arg_index := (resolve_text (split_inner inner).1 st.arg_index + 1) % 2 ^ 64,
                  stream :=
                    (args.getD (resolve_text (split_inner inner).1 st.arg_index) id) st.stream }
        | some spec =>
          match format_arg_io noexc
              (args.getD (resolve_text (split_inner inner).1 st.arg_index) id) spec
              st.stream with
          | .ok s =>
            .next { offset := st.offset + inner.length + 1, in_number := false,
                    arg_index :=
                      (resolve_text (split_inner inner).1 st.arg_index + 1) % 2 ^ 64,
                    stream := s }
          | .error (e, s) => .thrown e s := by
  have hl : st.offset < fmt.length := lt_length_of_drop_ne_nil (by rw [hd]; simp)
  obtain ⟨h1, h2⟩ := reaches_open_brace hr hn (by omega)
  rw [hd] at h2
  have hfst := split_inner_fst inner
  have hres : resolve_index noexc inner st.arg_index
      = .ok (resolve_text (split_inner inner).1 st.arg_index) := by
    rw [resolve_index_digits noexc inner st.arg_index (by rw [index_text, ← hfst]; exact hdig),
      resolved_index, index_text, ← hfst, resolve_text]
  refine ⟨split_inner_recompose inner, by rw [hfst]; exact colon_not_mem_until_char inner,
    ?_, ?_, ?_⟩
  · intro hlt hne
    rw [resolve_text, if_neg hne, Nat.mod_eq_of_lt hlt]
  · intro he
    rw [resolve_text, if_pos he]
  · rw [step_placeholder noexc fmt args st inner post hn h1 h2 hi, hres]
    by_cases hle : args.length ≤ resolve_text (split_inner inner).1 st.arg_index
    · simp only [placeholder_io, ge_iff_le, hle, if_true]
    · rw [split_inner_snd]
      by_cases hc : colon ∈ inner
      · have hne : until_char colon inner ≠ inner := fun h =>
          colon_not_mem_until_char inner (by rw [h]; exact hc)
        simp only [placeholder_io, ge_iff_le, hle, if_false, hne, hc, if_true]
      · have he : until_char colon inner = inner := until_char_eq_self colon inner hc
        simp only [placeholder_io, ge_iff_le, hle, if_false, he, hc, if_true]

/-- C12 at the template `{007:x}` with eight arguments, at its placeholder: the index
text is `007`, it resolves to 7, and the segment is `x`. -/
theorem C12_placeholder_resolver_witness :
    split_inner "007:x".toList = ("007".toList, some "x".toList) ∧
    resolve_text (split_inner "007:x".toList).1 0 = 7 :=
  ⟨by decide,
    ((C12_placeholder_resolver false "\x7b007:x\x7d".toList
      (List.replicate 8 (write_text "a".toList)) (ostream.mk ios_base.init []) 1
      { offset := 1, in_number := true, arg_index := 0, stream := ostream.mk ios_base.init [] }
      "007:x".toList [] (by rfl) rfl (by rfl) (by decide) (by decide)).2.2.1
        (by decide) (by decide)).trans (by decide)⟩

/-- C13. Directive-spec parser. For a spec of clauses `c1 d1 , ... , ck dk`, at least
one, each `ci` a table character and each `di` digits, possibly none, whose value fits
in `int`, `format_arg_io` applies the operations `(c1, n1)`, ..., `(ck, nk)` of
`operations` to the stream from left to right, `ni` being the decimal value of `di`
and 0 when `di` is empty, then invokes the bound argument once on the result, and then
hands the collected flags to `setf` when there are any. For `d,r5` the operations are
`(d, 0)` and `(r, 5)`, and `{0:d,r5}` prints the argument 7 as `    7`. -/
theorem C13_spec_operations {σ : Type} [stream_type σ] (noexc : Bool) (ori : σ → σ)
    (cl : Char × List Char) (cls : List (Char × List Char)) (s : σ)
    (hv : ∀ x ∈ cl :: cls, x.1 ∈ directive_chars ∧ (∀ c ∈ x.2, isdigit c = true) ∧
      decimal_value x.2 < 2 ^ 31)
    (hlen : (join_clauses (cl :: cls)).length < 2 ^ 64) :
    format_arg_io noexc ori (join_clauses (cl :: cls)) s
      = .ok (if (apply_operations (operations (cl :: cls)) 0 s).1 ≠ 0 then
          (setf (ori (apply_operations (operations (cl :: cls)) 0 s).2)
            (apply_operations (operations (cl :: cls)) 0 s).1).1
        else ori (apply_operations (operations (cl :: cls)) 0 s).2) ∧
    join_clauses [(cdec, []), (crit, ['5'])] = "d,r5".toList ∧
    operations [(cdec, []), (crit, ['5'])] = [(cdec, 0), (crit, 5)] ∧
    format_string_view false "\x7b0:d,r5\x7d".toList [write_int 7] (ostream.mk ios_base.init [])
      = .returned (ostream.mk
          { flags := ios.skipws ||| ios.dec ||| ios.right, fill := space, width := 0,
            precision := 6 } "    7".toList) := by
  refine ⟨?_, by decide, by decide, by decide⟩
  have hv0 : ∀ x ∈ cl :: cls, x.1 ≠ comma ∧ ∀ c ∈ x.2, isdigit c = true := by
    intro x hx
    obtain ⟨h1, h2, _⟩ := hv x hx
    refine ⟨?_, h2⟩
    intro h
    rw [h] at h1
    revert h1
    decide
  rw [format_arg_io_clauses noexc ori cl cls s hv0 hlen,
    apply_clauses_operations noexc (cl :: cls) 0 s hv]
  simp only
  split <;> rfl

/-- C13 at the spec `d,r5` on a fresh output stream, with the argument 7. -/
theorem C13_spec_operations_witness :
    format_arg_io false (write_int 7) "d,r5".toList (ostream.mk ios_base.init [])
      = .ok (ostream.mk
          { flags := ios.skipws ||| ios.dec ||| ios.right, fill := space, width := 0,
            precision := 6 } "    7".toList) :=
  (C13_spec_operations false (write_int 7) (cdec, []) [(crit, ['5'])]
    (ostream.mk ios_base.init [])
    (by
      intro x hx
      simp only [List.mem_cons, List.mem_singleton, List.not_mem_nil, or_false] at hx
      rcases hx with rfl | rfl <;> exact ⟨by decide, by decide, by decide⟩)
    (by decide)).1.trans (by rfl)

/-- C14. Directive table, for every prior state `os` of an output stream and every
numeric parameter `n`. `d`, `o`, `x` set the base field to `dec`, `oct`, `hex`, the fill
to `0` and the width to `n`; `l`, `r`, `i` set the justification field to `left`,
`right`, `internal`, the fill to the space and the width to `n`; `e`, `f` set the
float-style field to `scientific`, `fixed` and the precision to `n`; `b` and `u` set the
flag `boolalpha`, `uppercase` and leave fill, width and precision alone. Each leaves the
flags outside its field, the rest of the formatting state and the output as they were,
and returns the flags in force before. With the integer writer `write_int`, `{0:x4}` with
the argument 255 prints `00ff`. -/
theorem C14_directive_table (os : ostream) (n : Int) :
    (∀ p ∈ [(cdec, ios.dec), (coct, ios.oct), (chex, ios.hex)],
      ∃ m : ostream → Int → ostream × fmtflags, format_setf_methods p.1 = some m ∧
        (m os n).2 = os.fmt.flags ∧ (m os n).1.out = os.out ∧
        field (m os n).1.fmt.flags ios.basefield = p.2 ∧
        outside (m os n).1.fmt.flags ios.basefield = outside os.fmt.flags ios.basefield ∧
        (m os n).1.fmt.fill = zero ∧ (m os n).1.fmt.width = n ∧
        (m os n).1.fmt.precision = os.fmt.precision) ∧
    (∀ p ∈ [(clft, ios.left), (crit, ios.right), (citn, ios.internal)],
      ∃ m : ostream → Int → ostream × fmtflags, format_setf_methods p.1 = some m ∧
        (m os n).2 = os.fmt.flags ∧ (m os n).1.out = os.out ∧
        field (m os n).1.fmt.flags ios.adjustfield = p.2 ∧
        outside (m os n).1.fmt.flags ios.adjustfield = outside os.fmt.flags ios.adjustfield ∧
        (m os n).1.fmt.fill = space ∧ (m os n).1.fmt.width = n ∧
        (m os n).1.fmt.precision = os.fmt.precision) ∧
    (∀ p ∈ [(csci, ios.scientific), (cfix, ios.fixed)],
      ∃ m : ostream → Int → ostream × fmtflags, format_setf_methods p.1 = some m ∧
        (m os n).2 = os.fmt.flags ∧ (m os n).1.out = os.out ∧
        field (m os n).1.fmt.flags ios.floatfield = p.2 ∧
        outside (m os n).1.fmt.flags ios.floatfield = outside os.fmt.flags ios.floatfield ∧
        (m os n).1.fmt.fill = os.fmt.fill ∧ (m os n).1.fmt.width = os.fmt.width ∧
        (m os n).1.fmt.precision = n) ∧
    (∀ p ∈ [(cbla, ios.boolalpha), (cupc, ios.uppercase)],
      ∃ m : ostream → Int → ostream × fmtflags, format_setf_methods p.1 = some m ∧
        (m os n).2 = os.fmt.flags ∧ (m os n).1.out = os.out ∧
        field (m os n).1.fmt.flags p.2 = p.2 ∧
        outside (m os n).1.fmt.flags p.2 = outside os.fmt.flags p.2 ∧
        (m os n).1.fmt.fill = os.fmt.fill ∧ (m os n).1.fmt.width = os.fmt.width ∧
        (m os n).1.fmt.precision = os.fmt.precision) ∧
    format_string_view false "\x7b0:x4\x7d".toList [write_int 255] (ostream.mk ios_base.init [])
      = .returned (ostream.mk
          { flags := ios.skipws ||| ios.dec ||| ios.hex, fill := zero, width := 0,
            precision := 6 } "00ff".toList) := by
  refine ⟨?_, ?_, ?_, ?_, by decide⟩
  · intro p hp
    simp only [List.mem_cons, List.mem_singleton, List.not_mem_nil, or_false] at hp
    rcases hp with rfl | rfl | rfl <;>
      exact ⟨_, rfl, rfl, rfl, field_setf_masked _ _ _ (by decide),
        outside_setf_masked _ _ _, rfl, rfl, rfl⟩
  · intro p hp
    simp only [List.mem_cons, List.mem_singleton, List.not_mem_nil, or_false] at hp
    rcases hp with rfl | rfl | rfl <;>
      exact ⟨_, rfl, rfl, rfl, field_setf_masked _ _ _ (by decide),
        outside_setf_masked _ _ _, rfl, rfl, rfl⟩
  · intro p hp
    simp only [List.mem_cons, List.mem_singleton, List.not_mem_nil, or_false] at hp
    rcases hp with rfl | rfl <;>
      exact ⟨_, rfl, rfl, rfl, field_setf_masked _ _ _ (by decide),
        outside_setf_masked _ _ _, rfl, rfl, rfl⟩
  · intro p hp
    simp only [List.mem_cons, List.mem_singleton, List.not_mem_nil, or_false] at hp
    rcases hp with rfl | rfl <;>
      exact ⟨_, rfl, rfl, rfl, field_setf _ _, outside_setf _ _, rfl, rfl, rfl⟩

/-- C15, counterexample. A stream whose float style is `fixed`. The table has `g`, its
operation is `stream_setf`, and after it the flag `fixed` is still set; so it is after
the whole of `format_arg_io` on the spec `g`. -/
theorem C15_general_keeps_fixed :
    (format_setf_methods cgen : Option (ostream → Int → ostream × fmtflags))
      = some stream_setf ∧
    field (stream_setf
        (ostream.mk { flags := ios.skipws ||| ios.dec ||| ios.fixed, fill := space,
                      width := 0, precision := 6 } []) 0).1.fmt.flags ios.floatfield
      = ios.fixed ∧
    ios.fixed ≠ 0 ∧
    format_arg_io false (write_text "x".toList) [cgen]
        (ostream.mk { flags := ios.skipws ||| ios.dec ||| ios.fixed, fill := space,
                      width := 0, precision := 6 } [])
      = .ok (ostream.mk { flags := ios.skipws ||| ios.dec ||| ios.fixed, fill := space,
                          width := 0, precision := 6 } "x".toList) :=
  ⟨rfl, by decide, by decide, rfl⟩

/-- C15, amended. For every stream and every numeric parameter `n`, applying `g` leaves
the stream, hence its whole formatting state, as it is, and returns the empty flag
set; the result does not depend on `n`. The float style afterwards is the one before:
general when it was general, as on a fresh stream. -/
theorem C15_general_no_effect {σ : Type} [stream_type σ] (s : σ) (n : Int) :
    ∃ m : σ → Int → σ × fmtflags, format_setf_methods cgen = some m ∧ m s n = (s, 0) :=
  ⟨stream_setf, rfl, rfl⟩

/-- C16. Literal matcher, read direction, a literal of one space, on a source in good
state. The source loses exactly its maximal front of characters among space, tab,
vertical tab, carriage return and line feed (`eofbit` is set when nothing is left after
it); nothing else of the stream changes. An empty source, and a source starting with
another character, the form feed included, keep their text. -/
theorem C16_space_skips_whitespace (is : istream) (hg : is.good = true) :
    string_view_io_input [space] is
        = { is with buf := after_skipped is.buf,
                    eofbit := decide (after_skipped is.buf = []) } ∧
    is.buf = skipped_front is.buf ++ after_skipped is.buf ∧
    (∀ c ∈ skipped_front is.buf, c ∈ [space, tab, vtab, cr, lf]) ∧
    (∀ c r, after_skipped is.buf = c :: r → c ∉ [space, tab, vtab, cr, lf]) ∧
    (is.buf = [] → after_skipped is.buf = []) ∧
    (∀ c r, is.buf = c :: r → c ∉ [space, tab, vtab, cr, lf] →
      after_skipped is.buf = c :: r) ∧
    Char.ofNat 12 ∉ [space, tab, vtab, cr, lf] := by
  have hmem : ∀ c : Char, c ∈ [space, tab, vtab, cr, lf] ↔ skipped c := by
    intro c
    simp [skipped]
  have hf : is.failbit = false := by
    simp only [istream.good, Bool.and_eq_true, Bool.not_eq_true'] at hg
    exact hg.2
  refine ⟨?_, takeWhile_append_dropWhile_skipped _, ?_, ?_, ?_, ?_, by decide⟩
  · have hone : string_view_io_input [space] is = skip_spaces (is.buf.length + 1) is := by
      unfold string_view_io_input
      rw [if_pos (by simp [hf])]
      simp only [string_view_io_input_loop, if_true]
    rw [hone]
    exact skip_spaces_good is.buf _ is hg rfl (le_refl _)
  · intro c h
    have := List.mem_takeWhile_imp h
    exact (hmem c).2 (by simpa using this)
  · intro c r h hc
    have h1 := List.head_dropWhile_not (fun t => decide (skipped t)) is.buf
      (by unfold after_skipped at h; rw [h]; simp)
    unfold after_skipped at h
    simp only [h, List.head_cons] at h1
    exact (by simpa using h1 : ¬ skipped c) ((hmem c).1 hc)
  · intro h
    simp [h, after_skipped]
  · intro c r h hc
    have : ¬ skipped c := fun hs => hc ((hmem c).2 hs)
    simp [h, after_skipped, List.dropWhile_cons, this]

/-- C16 at a source made of a space, a tab, a line feed and `x y`: what is left is
`x y`. -/
theorem C16_space_skips_whitespace_witness :
    string_view_io_input [space]
        (istream.mk ios_base.init [' ', '\t', '\n', 'x', ' ', 'y'] false false)
      = istream.mk ios_base.init ['x', ' ', 'y'] false false :=
  (C16_space_skips_whitespace
    (istream.mk ios_base.init [' ', '\t', '\n', 'x', ' ', 'y'] false false) rfl).1.trans
    (by decide)

/-- C17. Literal matcher, read direction, a literal character `c` other than the space,
on a source in good state. When `c` occurs in the source, the source is consumed up to
and including its first occurrence and nothing else changes; when it does not, the whole
source is consumed (the last `get` then sets `eofbit` and `failbit`). A literal of
several characters is matched piece after piece, each on what the one before left. The
matcher is a total function on streams: it raises nothing. -/
theorem C17_char_discards_until (is : istream) (c : Char) (hc : c ≠ space)
    (hg : is.good = true) :
    (∀ pre post : List Char, is.buf = pre ++ c :: post → c ∉ pre →
      string_view_io_input [c] is = { is with buf := post }) ∧
    (c ∉ is.buf →
      string_view_io_input [c] is
        = { is with buf := [], eofbit := true, failbit := true }) ∧
    (∀ (a b : List Char) (is1 : istream),
      string_view_io_input (a ++ b) is1
        = string_view_io_input b (string_view_io_input a is1)) := by
  have hf : is.failbit = false := by
    simp only [istream.good, Bool.and_eq_true, Bool.not_eq_true'] at hg
    exact hg.2
  have hone : string_view_io_input [c] is = discard_until c (is.buf.length + 1) is := by
    unfold string_view_io_input
    rw [if_pos (by simp [hf])]
    simp only [string_view_io_input_loop, hc, if_false]
  refine ⟨?_, ?_, string_view_io_input_append⟩
  · intro pre post hb hpre
    rw [hone]
    exact discard_until_found c pre _ is post hg hb hpre (by rw [hb]; simp)
  · intro hb
    rw [hone]
    exact discard_until_absent c is.buf _ is hg rfl hb (le_refl _)

/-- C17 at the source `12, 34` and the literal `,`: what is left is ` 34`. -/
theorem C17_char_discards_until_witness :
    string_view_io_input [','] (istream.mk ios_base.init ['1', '2', ',', ' ', '3', '4'] false false)
      = istream.mk ios_base.init [' ', '3', '4'] false false :=
  (C17_char_discards_until (istream.mk ios_base.init ['1', '2', ',', ' ', '3', '4'] false false)
    ',' (by decide) rfl).1 ['1', '2'] [' ', '3', '4'] rfl (by decide)

/-- C18, counterexample. Permissive mode, one argument that writes `7`, fresh stream.
The placeholder `{0:q}` has the directive character `q`, which is not in the table:
the interpretation completes and the argument is written. The placeholder `{0:d1a}` has
the non-digit `a` in a directive parameter: the interpretation completes, the argument
is written, and the width has been set to 59. The placeholder `{1&}` has the non-digit
`&` in its index text: it resolves to argument 0, which is written. -/
theorem C18_permissive_completes :
    format_string_view true "\x7b0:q\x7d".toList [write_text "7".toList]
        (ostream.mk ios_base.init [])
      = .returned (ostream.mk ios_base.init "7".toList) ∧
    format_string_view true "\x7b0:d1a\x7d".toList [write_text "7".toList]
        (ostream.mk ios_base.init [])
      = .returned (ostream.mk
          { flags := ios.skipws ||| ios.dec, fill := zero, width := 59, precision := 6 }
          "7".toList) ∧
    format_string_view true "\x7b1&\x7d".toList [write_text "7".toList]
        (ostream.mk ios_base.init [])
      = .returned (ostream.mk ios_base.init "7".toList) := by
  decide

/-- C18, amended. In permissive mode directive and number errors do not abort. `stou`
rejects nothing and returns what it accumulates, a character `c` counting as `c - '0'`.
So a closed placeholder without colon resolves, whatever its index text is, to the
number accumulated from it, and is processed like any other: the argument of that index
is invoked, or the placeholder is copied when there is no such argument. And in an
in-range placeholder whose spec consists of non-empty clauses, whatever their first
characters and parameters, the directives are applied in order, a character that is
not in the table applying nothing, and then the argument is invoked. -/
theorem C18_permissive_no_abort {σ : Type} [stream_type σ] (fmt : List Char)
    (args : List (σ → σ)) (stream : σ) (k : Nat) (st : loop_state σ)
    (hr : reaches true fmt args stream k st) (hn : st.in_number = true) :
    (∀ (wrap : Int → Int) (str : List Char), stou wrap true str = .ok (accumulate wrap str)) ∧
    (∀ inner post : List Char, fmt.drop st.offset = inner ++ right_brace :: post →
      right_brace ∉ inner → colon ∉ inner → inner ≠ [] →
      step true fmt args st
        = .next { offset := st.offset + inner.length + 1, in_number := false,
                  arg_index := ((accumulate wrap_size_t inner).toNat + 1) % 2 ^ 64,
                  stream :=
                    if args.length ≤ (accumulate wrap_size_t inner).toNat then
                      string_view_io (left_brace :: inner ++ [right_brace]) st.stream
                    else (args.getD (accumulate wrap_size_t inner).toNat id) st.stream }) ∧
    (∀ (idx post : List Char) (cl : Char × List Char) (cls : List (Char × List Char)),
      fmt.drop st.offset
        = idx ++ colon :: (join_clauses (cl :: cls) ++ right_brace :: post) →
      right_brace ∉ join_clauses (cl :: cls) → (∀ c ∈ idx, isdigit c = true) →
      (if idx = [] then st.arg_index else decimal_value idx % 2 ^ 64) < args.length →
      (∀ x ∈ cl :: cls, x.1 ≠ comma ∧ comma ∉ x.2) → fmt.length < 2 ^ 64 →
      ∃ oldf s1, apply_clauses true (cl :: cls) 0 st.stream = .ok (oldf, s1) ∧
        step true fmt args st
          = .next { offset := st.offset + (idx ++ colon :: join_clauses (cl :: cls)).length + 1,
                    in_number := false,
                    arg_index :=
                      ((if idx = [] then st.arg_index else decimal_value idx % 2 ^ 64) + 1)
                        % 2 ^ 64,
                    stream :=
                      if oldf ≠ 0 then
                        (setf ((args.getD
                          (if idx = [] then st.arg_index else decimal_value idx % 2 ^ 64) id)
                          s1) oldf).1
                      else (args.getD
                        (if idx = [] then st.arg_index else decimal_value idx % 2 ^ 64) id)
                        s1 }) := by
  refine ⟨stou_permissive, ?_, ?_⟩
  · intro inner post hd hi hc hne
    have hl : st.offset < fmt.length := lt_length_of_drop_ne_nil (by rw [hd]; simp)
    obtain ⟨h1, h2⟩ := reaches_open_brace hr hn (by omega)
    rw [hd] at h2
    have hu : until_char colon inner = inner := until_char_eq_self colon inner hc
    have hres : resolve_index true inner st.arg_index
        = .ok (accumulate wrap_size_t inner).toNat := by
      unfold resolve_index
      rw [hu, if_pos hne, stou_permissive]
    rw [step_placeholder true fmt args st inner post hn h1 h2 hi, hres]
    by_cases hle : args.length ≤ (accumulate wrap_size_t inner).toNat
    · simp only [placeholder_io, ge_iff_le, hle, if_true]
    · simp only [placeholder_io, ge_iff_le, hle, if_false, hu, if_true]
  · intro idx post cl cls hd hi hdig hlt hv hlen
    have hlen1 : (join_clauses (cl :: cls)).length < 2 ^ 64 := by
      have := congrArg List.length hd
      simp only [List.length_drop, List.length_append, List.length_cons] at this
      omega
    obtain ⟨oldf, s1, ha, hf⟩ := format_arg_io_permissive
      (args.getD (if idx = [] then st.arg_index else decimal_value idx % 2 ^ 64) id)
      cl cls st.stream hv hlen1
    refine ⟨oldf, s1, ha, ?_⟩
    rw [step_placeholder_spec true fmt args stream k st idx _ post hr hn hd hi hdig hlt, hf]

/-- C18 at the template `{1&}` with one argument, at its placeholder: the index text
accumulates to 0 and argument 0 is written. -/
theorem C18_permissive_no_abort_witness :
    step true "\x7b1&\x7d".toList [write_text "7".toList]
        { offset := 1, in_number := true, arg_index := 0,
          stream := ostream.mk ios_base.init [] }
      = .next { offset := 4, in_number := false, arg_index := 1,
                stream := ostream.mk ios_base.init "7".toList } :=
  ((C18_permissive_no_abort "\x7b1&\x7d".toList [write_text "7".toList]
    (ostream.mk ios_base.init []) 1
    { offset := 1, in_number := true, arg_index := 0, stream := ostream.mk ios_base.init [] }
    (by rfl) rfl).2.1 "1&".toList [] (by rfl) (by decide) (by decide) (by decide)).trans
    (by rfl)

/-- C19, the code at the failing input. Permissive mode, the templates `{` and `a{`,
which end with a placeholder-opening brace. The interpretation returns normally, but
the loop is left before the branch that copies the dangling brace is reached: the text
before the brace is written, the brace is not. With a character after the brace, as in
`a{b`, the dangling brace and the remainder are written. -/
theorem C19_trailing_open_brace_dropped (args : List (ostream → ostream)) (os : ostream) :
    format_string_view true [left_brace] args os = .returned os ∧
    format_string_view true ('a' :: [left_brace]) args os
      = .returned { os with out := os.out ++ ['a'] } ∧
    format_string_view true ('a' :: left_brace :: ['b']) args os
      = .returned { os with out := os.out ++ ['a'] ++ left_brace :: ['b'] } :=
  ⟨rfl, rfl, rfl⟩

/-- C20. Permissive mode, a template without opening brace, any argument list. Printing
returns normally and appends to the output the template with every doubled closing
brace, pairs taken left to right, replaced by a single one; a closing brace that is
not in such a pair, and every other character, is written as it stands
(`collapse`, which has nothing else to replace when there is no opening brace). -/
theorem C20_lone_close_brace_literal (fmt : List Char) (args : List (ostream → ostream))
    (os : ostream) (h : left_brace ∉ fmt) :
    format_string_view true fmt args os
      = .returned { os with out := os.out ++ collapse fmt } := by
  unfold format_string_view
  rw [loop_no_open_brace fmt args fmt.length _ rfl (by simpa using h) (by simp)]
  simp

/-- C20 at the template `a}b}}}c`: the output is `a}b}}c`. -/
theorem C20_lone_close_brace_literal_witness :
    format_string_view true "a\x7db\x7d\x7d\x7dc".toList [] (ostream.mk ios_base.init [])
      = .returned (ostream.mk ios_base.init "a\x7db\x7d\x7dc".toList) :=
  (C20_lone_close_brace_literal "a\x7db\x7d\x7d\x7dc".toList [] (ostream.mk ios_base.init [])
    (by decide)).trans (by decide)

/-- C21, the code at the failing input. The placeholder `{1}` has the explicit index 1,
which is in range, and no spec; alone, it writes the default rendering of argument 1.
After a placeholder with a directive it does not, because `format_arg_io` does not put
the formatting state back. On a fresh stream `{0:b}{1}` with the arguments `true` and
`true` writes `truetrue`, while `{1}` writes `1`: `boolalpha` is still set. On a
fresh stream `{0:x4}{1}` with a first argument that writes `ff` and the integer 255
writes `ff0255`, while `{1}` writes `255`: fill `0` and width 4 are still in force. On
a stream with no base flag `{0:x}{1}` with 255 twice writes `ffff`, while `{1}` writes
`255`: `hex` is still set. -/
theorem C21_rendering_after_directive :
    format_string_view false "\x7b0:b\x7d\x7b1\x7d".toList [write_bool true, write_bool true]
        (ostream.mk ios_base.init [])
      = .returned (ostream.mk
          { flags := ios.skipws ||| ios.dec ||| ios.boolalpha, fill := space, width := 0,
            precision := 6 } "truetrue".toList) ∧
    format_string_view false "\x7b1\x7d".toList [write_bool true, write_bool true]
        (ostream.mk ios_base.init [])
      = .returned (ostream.mk ios_base.init "1".toList) ∧
    format_string_view false "\x7b0:x4\x7d\x7b1\x7d".toList
        [write_text "ff".toList, write_int 255] (ostream.mk ios_base.init [])
      = .returned (ostream.mk
          { flags := ios.skipws ||| ios.dec ||| ios.hex, fill := zero, width := 0,
            precision := 6 } "ff0255".toList) ∧
    format_string_view false "\x7b1\x7d".toList [write_text "ff".toList, write_int 255]
        (ostream.mk ios_base.init [])
      = .returned (ostream.mk ios_base.init "255".toList) ∧
    format_string_view false "\x7b0:x\x7d\x7b1\x7d".toList [write_int 255, write_int 255]
        (ostream.mk { flags := ios.skipws, fill := space, width := 0, precision := 6 } [])
      = .returned (ostream.mk
          { flags := ios.skipws ||| ios.hex, fill := zero, width := 0, precision := 6 }
          "ffff".toList) ∧
    format_string_view false "\x7b1\x7d".toList [write_int 255, write_int 255]
        (ostream.mk { flags := ios.skipws, fill := space, width := 0, precision := 6 } [])
      = .returned (ostream.mk
          { flags := ios.skipws, fill := space, width := 0, precision := 6 }
          "255".toList) := by
  decide

/-- C22. Strict mode, output stream. The template is `pre`, an opening brace and `rest`,
with at least one character in `rest`; the interpretation is in placeholder mode right
after that brace, and the iteration at this placeholder throws, whatever the exception
(UnterminatedPlaceholder, NotANumber, InvalidDirective). Then the interpretation of the
template throws that exception, printing `pre` alone with the same arguments returns
normally, and the text written at the throw is exactly the text that printing `pre`
writes: nothing of the failing placeholder, nothing of the text after it. -/
theorem C22_output_before_failure (pre rest : List Char) (args : List (ostream → ostream))
    (os : ostream) (k : Nat) (st : loop_state ostream) (e : exception) (s1 : ostream)
    (hr : reaches false (pre ++ left_brace :: rest) args os k st)
    (hn : st.in_number = true) (ho : st.offset = pre.length + 1) (hne : rest ≠ [])
    (hs : step false (pre ++ left_brace :: rest) args st = .thrown e s1) :
    format_string_view false (pre ++ left_brace :: rest) args os = .thrown e s1 ∧
    ∃ s0, format_string_view false pre args os = .returned s0 ∧ s1.out = s0.out := by
  have hlen : 0 < rest.length := List.length_pos.2 hne
  have hl : st.offset < (pre ++ left_brace :: rest).length := by
    simp only [List.length_append, List.length_cons]
    omega
  have hi : open_brace_before (pre ++ left_brace :: rest) (initial_state os) := by
    intro h1; simp [initial_state] at h1
  have hob := run_steps_open_brace_before false _ args k _ _ hr hi
  constructor
  · rw [reaches_run hr, run_eq, if_pos hl, hs]
  · exact ⟨st.stream, format_string_view_prefix pre rest args os k st hr hn ho,
      step_thrown_out _ args st e s1 hob hn (by omega) hs⟩

/-- C22 at the template `ab{0:x4,q}c` with one argument: the clause `q` throws after the
directive `x4` has been applied, and the text written is `ab`, the output of `ab`. -/
theorem C22_output_before_failure_witness :
    format_string_view false ("ab".toList ++ left_brace :: "0:x4,q\x7dc".toList)
        [write_text "7".toList] (ostream.mk ios_base.init [])
      = .thrown .invalid_directive
          (ostream.mk { flags := ios.skipws ||| ios.hex, fill := zero, width := 4,
                        precision := 6 } "ab".toList) ∧
    ∃ s0, format_string_view false "ab".toList [write_text "7".toList]
        (ostream.mk ios_base.init []) = .returned s0 ∧
      (ostream.mk { flags := ios.skipws ||| ios.hex, fill := zero, width := 4,
                    precision := 6 } "ab".toList).out = s0.out :=
  C22_output_before_failure "ab".toList "0:x4,q\x7dc".toList [write_text "7".toList]
    (ostream.mk ios_base.init []) 1
    { offset := 3, in_number := true, arg_index := 0,
      stream := ostream.mk ios_base.init "ab".toList }
    .invalid_directive
    (ostream.mk { flags := ios.skipws ||| ios.hex, fill := zero, width := 4,
                  precision := 6 } "ab".toList)
    (by rfl) rfl rfl (by decide) (by rfl)

/-- C23. Termination, in both modes, with bound operations that are total functions.
The loop of `format_string_view::operator()` run with a budget of as many iterations
as the template has characters never uses the budget up: it returns or throws, and a
larger budget changes nothing. For every iteration that does not throw, `offset` after
it is strictly greater than before. Hence a state reached after `k` iterations has
`k` at most the length of the template, and when one more iteration starts from it,
`k + 1` is at most that length. -/
theorem C23_termination {σ : Type} [stream_type σ] (noexc : Bool) (fmt : List Char)
    (args : List (σ → σ)) (stream : σ) :
    format_string_view noexc fmt args stream ≠ .out_of_fuel ∧
    (∀ m, fmt.length ≤ m →
      loop noexc fmt args m (initial_state stream)
        = format_string_view noexc fmt args stream) ∧
    (∀ st st1 : loop_state σ, step noexc fmt args st = .next st1 → st.offset < st1.offset) ∧
    (∀ (k : Nat) (st : loop_state σ), reaches noexc fmt args stream k st →
      k ≤ fmt.length ∧ (st.offset < fmt.length → k + 1 ≤ fmt.length)) := by
  refine ⟨loop_ne_out_of_fuel noexc fmt args fmt.length _ (by simp), ?_,
    step_offset_lt noexc fmt args, fun k st h => reaches_le_length h⟩
  intro m hm
  exact loop_enough noexc fmt args fmt.length m _ (by simp [initial_state]) hm

/-- C24. A spec of non-empty clauses, each a table character followed by digits, a
stream with any flags, and a bound operation that leaves the flags as they are. Then
`format_arg_io` returns; the snapshot `oldf` is the bitwise OR of the flags the
directives returned (`apply_clauses`); the flags afterwards are the flags the
directives left with the snapshot ORed in, or just those when the snapshot is empty;
and every flag that was set before is set afterwards. -/
theorem C24_flags_kept (noexc : Bool) (ori : ostream → ostream) (cl : Char × List Char)
    (cls : List (Char × List Char)) (os : ostream)
    (hv : ∀ x ∈ cl :: cls, x.1 ∈ directive_chars ∧ ∀ c ∈ x.2, isdigit c = true)
    (hlen : (join_clauses (cl :: cls)).length < 2 ^ 64)
    (hori : ∀ s : ostream, (ori s).fmt.flags = s.fmt.flags) :
    ∃ oldf s1 os1, apply_clauses noexc (cl :: cls) 0 os = .ok (oldf, s1) ∧
      format_arg_io noexc ori (join_clauses (cl :: cls)) os = .ok os1 ∧
      os1.fmt.flags = (if oldf ≠ 0 then s1.fmt.flags ||| oldf else s1.fmt.flags) ∧
      os.fmt.flags &&& os1.fmt.flags = os.fmt.flags := by
  have hv0 : ∀ x ∈ cl :: cls, x.1 ≠ comma ∧ ∀ c ∈ x.2, isdigit c = true := by
    intro x hx
    obtain ⟨h1, h2⟩ := hv x hx
    refine ⟨?_, h2⟩
    intro h
    rw [h] at h1
    revert h1
    decide
  have hok : ∃ oldf s1, apply_clauses noexc (cl :: cls) 0 os = .ok (oldf, s1) := by
    cases ha : apply_clauses noexc (cl :: cls) 0 os with
    | ok r => exact ⟨r.1, r.2, rfl⟩
    | error es =>
      exfalso
      cases noexc
      · obtain ⟨_, x, hx, h2⟩ := apply_clauses_error (cl :: cls) 0 os es.1 es.2 ha
        exact h2 (hv x hx).1
      · obtain ⟨o, s, h⟩ := apply_clauses_permissive (cl :: cls) 0 os
        rw [h] at ha
        cases ha
  obtain ⟨oldf, s1, ha⟩ := hok
  have hf := format_arg_io_clauses noexc ori cl cls os hv0 hlen
  rw [ha] at hf
  simp only at hf
  have hflags : (if oldf ≠ 0 then (setf (ori s1) oldf).1 else ori s1).fmt.flags
      = (if oldf ≠ 0 then s1.fmt.flags ||| oldf else s1.fmt.flags) := by
    by_cases h0 : oldf ≠ 0
    · rw [if_pos h0, if_pos h0, ← hori s1]
      rfl
    · rw [if_neg h0, if_neg h0, hori s1]
  refine ⟨oldf, s1, if oldf ≠ 0 then (setf (ori s1) oldf).1 else ori s1, ha, ?_, hflags, ?_⟩
  · rw [hf]
    split <;> rfl
  · rw [hflags]
    apply Nat.eq_of_testBit_eq
    intro i
    rw [Nat.testBit_and]
    cases hb : os.fmt.flags.testBit i with
    | false => simp
    | true =>
      have hk := apply_clauses_keeps noexc i (cl :: cls) 0 os oldf s1 ha (Or.inr hb)
      by_cases h0 : oldf ≠ 0
      · rw [if_pos h0, Nat.testBit_or]
        rcases hk with hk | hk <;> simp [hk]
      · rw [if_neg h0]
        have hz : oldf = 0 := by simpa using h0
        rw [hz] at hk
        rcases hk with hk | hk
        · simp at hk
        · simp [hk]

/-- C24 at the spec `x4,u` on a fresh output stream: `skipws` and `dec`, which were set
before, are set afterwards. -/
theorem C24_flags_kept_witness :
    ∃ oldf s1 os1, apply_clauses false [(chex, ['4']), (cupc, [])] 0 (ostream.mk ios_base.init [])
        = .ok (oldf, s1) ∧
      format_arg_io false (write_text "ff".toList) (join_clauses [(chex, ['4']), (cupc, [])])
        (ostream.mk ios_base.init []) = .ok os1 ∧
      os1.fmt.flags = (if oldf ≠ 0 then s1.fmt.flags ||| oldf else s1.fmt.flags) ∧
      ios_base.init.flags &&& os1.fmt.flags = ios_base.init.flags :=
  C24_flags_kept false (write_text "ff".toList) (chex, ['4']) [(cupc, [])]
    (ostream.mk ios_base.init [])
    (by
      intro x hx
      simp only [List.mem_cons, List.mem_singleton, List.not_mem_nil, or_false] at hx
      rcases hx with rfl | rfl <;> exact ⟨by decide, by decide⟩)
    (by decide) (fun _ => rfl)

end sf
